import Mathlib

/-!
# Clustering: density kernel and most-probable-path lumping

A shallow embedding of `src/density_clustering_mpi.cpp` and `src/mpp.cpp`.

Conventions of the embedding

* `float` values are rationals: every float operation is taken as exact, so
  rounding, saturation of a float counter at `2^24`, infinities and NaN are
  outside the model.  `std::numeric_limits<float>::max()` is the constant
  `FLT_MAX`.  The one conversion that is followed is that of a row index to
  `float` and back in the buffers of `nearest_neighbors` (`float_index`).
* The MPI calls deliver their buffers unchanged; a send whose tag is not a valid
  send tag is rejected and the run has no result (`mpi_send`).
* `std::size_t` is `Nat` with an explicit `% 2^64` where the source subtracts or
  multiplies, `unsigned int` is `Nat` with `% 2^32`.
* `std::vector<T>` is `List T`; `const float* coords` is a function from the flat
  index to the value.
* `std::map<K, V>` is a key-sorted association list (`StdMap`), `operator[]` on a
  missing key yields the value-initialised default; `std::set<std::size_t>` is
  the ascending list of its elements.
* `exit(EXIT_FAILURE)`, a thrown exception and an access outside a container are
  results of type `Failure`.
* The OpenMP loops only perform commuting atomic increments or writes to
  disjoint keys, they are embedded as the sequential loops.
-/

namespace Clustering

/-! ## Containers -/

/-- The association list behind a `std::map<K, V>`. -/
abbrev StdMap (κ β : Type) := List (κ × β)

namespace StdMap

/-- The value stored at key `k`, if any (`std::map::find`). -/
def find {κ β : Type} [DecidableEq κ] : StdMap κ β → κ → Option β
  | [], _ => none
  | (k', v) :: m, k => if k' = k then some v else find m k

/-- The assignment `m[k] = v`: replaces the value of an existing key, or adds the
key at its place in the key order. -/
def insert {κ β : Type} [LinearOrder κ] (k : κ) (v : β) : StdMap κ β → StdMap κ β
  | [] => [(k, v)]
  | (k', v') :: m =>
    if k < k' then (k, v) :: (k', v') :: m
    else if k = k' then (k, v) :: m
    else (k', v') :: insert k v m

/-- The read `m[k]`: a missing key reads as the value-initialised default `dflt`. -/
def get {κ β : Type} [DecidableEq κ] (m : StdMap κ β) (k : κ) (dflt : β) : β :=
  (m.find k).getD dflt

end StdMap

/-- The call `v.resize(n, x)` on a vector. -/
def vec_resize {α : Type} (v : List α) (n : Nat) (x : α) : List α :=
  v.take n ++ List.replicate (n - v.length) x

/-- The statement `v[i] += 1` on a vector of `unsigned int`. -/
def vec_incr : List Nat → Nat → List Nat
  | [], _ => []
  | x :: v, 0 => ((x + 1) % 2 ^ 32) :: v
  | x :: v, i + 1 => x :: vec_incr v i

/-- The ways a run ends without a result. -/
inductive Failure where
  /-- The run ends by `exit(EXIT_FAILURE)` after rejecting an argument. -/
  | BadArgument : Failure
  /-- The run ends by `exit(EXIT_FAILURE)`: state `i` has no transition candidate. -/
  | DeadState (i : Nat) : Failure
  /-- The run ends by `std::runtime_error`: maximum number of iterations reached. -/
  | NotConverged : Failure
  /-- An element outside a container is accessed (undefined behaviour). -/
  | OutOfBounds : Failure
  deriving DecidableEq, Repr

deriving instance DecidableEq for Except

/-! ## Density kernel (`density_clustering_mpi.cpp`) -/

namespace Density

/-- The value `std::numeric_limits<float>::max()`, that is `2^128 - 2^104`. -/
def FLT_MAX : ℚ := 340282346638528859811704183484516925440

/-- The lambda `young_gauss` of `triangular_load_balance`. -/
def young_gauss (n : Nat) : Nat := (n * (n + 1)) % 2 ^ 64 / 2

/-- `triangular_load_balance(n_rows, n_nodes)`: the loop runs `i` from
`n_nodes-1` down to `0`; `sqrt` of the double is the integer square root (exact
below `2^52`), the subtraction `n_rows - last_index` is unsigned. -/
def triangular_load_balance (n_rows n_nodes : Nat) : List Nat :=
  let workload := young_gauss n_rows / n_nodes
  ((List.range n_nodes).reverse.foldl
    (fun (st : Nat × List Nat) i =>
      if i = 0 then (st.1, st.2.set i 0)
      else
        let last_index := Nat.sqrt ((2 * (young_gauss st.1 + workload)) % 2 ^ 64)
        (last_index, st.2.set i ((n_rows + 2 ^ 64 - last_index) % 2 ^ 64)))
    (0, List.replicate n_nodes 0)).2

/-- The squared Euclidean distance of rows `i` and `j`, accumulated over the
`n_cols` columns as in the innermost loop of every kernel. -/
def sq_dist (coords : Nat → ℚ) (n_cols i j : Nat) : ℚ :=
  (List.range n_cols).foldl
    (fun dist k =>
      let c := coords (i * n_cols + k) - coords (j * n_cols + k)
      dist + c * c) 0

/-- The statement `pops[rad][i] += 1`. -/
def pops_incr (pops : StdMap ℚ (List Nat)) (rad : ℚ) (i : Nat) : StdMap ℚ (List Nat) :=
  pops.insert rad (vec_incr (pops.get rad []) i)

/-- The loop over the radii (sorted descending) for one pair `(i, j)`: both
endpoints are incremented for every radius until the first miss. -/
def radii_loop (dist : ℚ) (i j : Nat) : List ℚ → StdMap ℚ (List Nat) → StdMap ℚ (List Nat)
  | [], pops => pops
  | rad :: rest, pops =>
    if dist < rad * rad then
      radii_loop dist i j rest (pops_incr (pops_incr pops rad i) rad j)
    else pops

/-- The row range `[i_row_from, i_row_to)` of a node in `calculate_populations`,
both bounds stored in an `unsigned int`. -/
def population_rows (n_rows mpi_n_nodes mpi_node_id : Nat) : Nat × Nat :=
  let load_balanced_indices := triangular_load_balance n_rows mpi_n_nodes
  let i_row_from := (load_balanced_indices.getD mpi_node_id 0) % 2 ^ 32
  let i_row_to :=
    if mpi_node_id + 1 = mpi_n_nodes then n_rows % 2 ^ 32
    else (load_balanced_indices.getD (mpi_node_id + 1) 0) % 2 ^ 32
  (i_row_from, i_row_to)

/-- The map `pops` of one node when its parallel loop has finished: every vector
starts as `n_rows` ones, then the pairs `(i, j)`, `i_row_from ≤ i < i_row_to`,
`i < j < n_rows` are visited. -/
def local_populations (coords : Nat → ℚ) (n_rows n_cols : Nat) (radii : List ℚ)
    (mpi_n_nodes mpi_node_id : Nat) : StdMap ℚ (List Nat) :=
  let rows := population_rows n_rows mpi_n_nodes mpi_node_id
  let pops0 : StdMap ℚ (List Nat) :=
    radii.foldl (fun pops rad => pops.insert rad (vec_resize (pops.get rad []) n_rows 1)) []
  let sorted := radii.insertionSort (fun a b => a ≥ b)
  (List.range' rows.1 (rows.2 - rows.1)).foldl
    (fun pops i =>
      (List.range' (i + 1) (n_rows - (i + 1))).foldl
        (fun pops j => radii_loop (sq_dist coords n_cols i j) i j sorted pops) pops)
    pops0

/-- The element-wise `rad_pops.second[i] += pops_buf[i]` on `unsigned int`. -/
def vec_add (a b : List Nat) : List Nat :=
  List.zipWith (fun x y => (x + y) % 2 ^ 32) a b

/-- `calculate_populations(coords, n_rows, n_cols, radii, mpi_n_nodes, mpi_node_id)`:
for every radius the main process adds the vectors received from the nodes
`1 .. mpi_n_nodes-1` to its own, broadcasts the sum, and every node stores the
sum plus one. The result is the same on every node. -/
def calculate_populations (coords : Nat → ℚ) (n_rows n_cols : Nat) (radii : List ℚ)
    (mpi_n_nodes : Nat) : StdMap ℚ (List Nat) :=
  let pops := local_populations coords n_rows n_cols radii mpi_n_nodes 0
  pops.map (fun rad_pops =>
    let merged := (List.range' 1 (mpi_n_nodes - 1)).foldl
      (fun acc slave_id =>
        vec_add acc
          ((local_populations coords n_rows n_cols radii mpi_n_nodes slave_id).get rad_pops.1
            (List.replicate n_rows 0)))
      rad_pops.2
    (rad_pops.1, (vec_resize merged n_rows 0).map (fun x => x + 1)))

/-- The overload of `calculate_populations` for a single radius. -/
def calculate_populations_single (coords : Nat → ℚ) (n_rows n_cols : Nat) (radius : ℚ)
    (mpi_n_nodes : Nat) : List Nat :=
  (calculate_populations coords n_rows n_cols [radius] mpi_n_nodes).get radius []

/-- A neighbour record: the index of the neighbour and the squared distance to it. -/
abbrev Neighbor := Nat × ℚ

/-- The type `Neighborhood`: frame index to neighbour record. -/
abbrev Neighborhood := StdMap Nat Neighbor

/-- The loop variables `mindist`, `min_j`, `mindist_high_dens`, `min_j_high_dens`
of the scan of one row. -/
structure ScanState where
  /-- Smallest squared distance seen so far. -/
  mindist : ℚ
  /-- The row at which `mindist` was seen. -/
  min_j : Nat
  /-- Smallest squared distance seen so far among rows of lower free energy. -/
  mindist_high_dens : ℚ
  /-- The row at which `mindist_high_dens` was seen. -/
  min_j_high_dens : Nat
  deriving DecidableEq, Repr

/-- The body of the loop over `j` in `nearest_neighbors`, for row `i`. -/
def neighbor_step (coords : Nat → ℚ) (n_cols : Nat) (free_energy : List ℚ) (i : Nat)
    (st : ScanState) (j : Nat) : ScanState :=
  if i ≠ j then
    let dist := sq_dist coords n_cols i j
    let st1 : ScanState :=
      if dist < st.mindist then { st with mindist := dist, min_j := j } else st
    if free_energy.getD j 0 < free_energy.getD i 0 ∧ dist < st1.mindist_high_dens then
      { st1 with mindist_high_dens := dist, min_j_high_dens := j }
    else st1
  else st

/-- The scan of all rows `j < n_rows` for row `i`, started from the sentinel values. -/
def neighbor_scan (coords : Nat → ℚ) (n_rows n_cols : Nat) (free_energy : List ℚ)
    (i : Nat) : ScanState :=
  (List.range n_rows).foldl (neighbor_step coords n_cols free_energy i)
    ⟨FLT_MAX, n_rows + 1, FLT_MAX, n_rows + 1⟩

/-- The row range `[i_row_from, i_row_to)` of a node in `nearest_neighbors`
(equal slabs, the last node runs to the end), computed in `unsigned int`. -/
def neighbor_rows (n_rows mpi_n_nodes mpi_node_id : Nat) : Nat × Nat :=
  let rows_per_chunk := (n_rows / mpi_n_nodes) % 2 ^ 32
  let i_row_from := (mpi_node_id * rows_per_chunk) % 2 ^ 32
  let i_row_to :=
    if mpi_node_id + 1 = mpi_n_nodes then n_rows % 2 ^ 32
    else (i_row_from + rows_per_chunk) % 2 ^ 32
  (i_row_from, i_row_to)

/-- The maps `nh` and `nh_high_dens` of one node of `nearest_neighbors` when its
parallel loop has finished, before the results of the nodes are collected: the
rows of the node are first set to the sentinel, then to the result of their scan.
On a single node these are the maps that are returned. -/
def nearest_neighbors_local (coords : Nat → ℚ) (n_rows n_cols : Nat) (free_energy : List ℚ)
    (mpi_n_nodes mpi_node_id : Nat) : Neighborhood × Neighborhood :=
  let rows := neighbor_rows n_rows mpi_n_nodes mpi_node_id
  let slab := List.range' rows.1 (rows.2 - rows.1)
  let sentinel : Neighbor := (n_rows + 1, FLT_MAX)
  let init : Neighborhood × Neighborhood :=
    slab.foldl (fun nhs i => (nhs.1.insert i sentinel, nhs.2.insert i sentinel)) ([], [])
  slab.foldl
    (fun nhs i =>
      let st := neighbor_scan coords n_rows n_cols free_energy i
      (nhs.1.insert i (st.min_j, st.mindist),
       nhs.2.insert i (st.min_j_high_dens, st.mindist_high_dens)))
    init

/-- The number of rows `j ≠ i` whose squared distance to row `i` is below `r²`. -/
def neighbor_count (coords : Nat → ℚ) (n_rows n_cols : Nat) (r : ℚ) (i : Nat) : Nat :=
  ((List.range n_rows).filter
    (fun j => decide (j ≠ i ∧ sq_dist coords n_cols i j < r * r))).length

/-- The number of `(i, j)` iterations of the loop nest of `calculate_populations`
with the outer index in `[i_row_from, i_row_to)` and the inner index in
`(i, n_rows)`. -/
def pair_iterations (n_rows i_row_from i_row_to : Nat) : Nat :=
  ((List.range' i_row_from (i_row_to - i_row_from)).map
    (fun i => (List.range' (i + 1) (n_rows - (i + 1))).length)).sum

/-- The number of `(i, j)` pairs node `mpi_node_id` handles in
`calculate_populations`: the iterations of its loop nest over its row range. -/
def worker_pairs (n_rows mpi_n_nodes mpi_node_id : Nat) : Nat :=
  pair_iterations n_rows (population_rows n_rows mpi_n_nodes mpi_node_id).1
    (population_rows n_rows mpi_n_nodes mpi_node_id).2

/-- The values of `last_index` that `triangular_load_balance` computes, in the
order of its loop (`i` from `n_nodes-1` down to `1`). -/
def load_balance_boundaries (n_rows n_nodes : Nat) : List Nat :=
  let workload := young_gauss n_rows / n_nodes
  ((List.range n_nodes).reverse.foldl
    (fun (st : Nat × List Nat) i =>
      if i = 0 then st
      else
        let last_index := Nat.sqrt ((2 * (young_gauss st.1 + workload)) % 2 ^ 64)
        (last_index, st.2 ++ [last_index]))
    (0, [])).2

/-- The effect of one pair `(i, j)` on the population vector of the radius `r`
when the loop over the radii reaches `r`: both endpoints are incremented if the
squared distance is below `r²`. -/
def pair_step (r dist : ℚ) (i j : Nat) (v : List Nat) : List Nat :=
  if dist < r * r then vec_incr (vec_incr v i) j else v

/-- The loop nest of `calculate_populations` over the rows `[rows.1, rows.2)` of
one node, followed for the vector of the single radius `r`, which starts as
`n_rows` ones. -/
def radius_populations (coords : Nat → ℚ) (n_rows n_cols : Nat) (r : ℚ) (rows : Nat × Nat) :
    List Nat :=
  (List.range' rows.1 (rows.2 - rows.1)).foldl
    (fun v i =>
      (List.range' (i + 1) (n_rows - (i + 1))).foldl
        (fun v j => pair_step r (sq_dist coords n_cols i j) i j v) v)
    (List.replicate n_rows 1)

/-- The merge of `calculate_populations` followed for the single radius `r`: the
vector of node `0` plus the vectors of the nodes `1 .. mpi_n_nodes-1`, then one
is added to every entry. -/
def merged_radius_populations (coords : Nat → ℚ) (n_rows n_cols : Nat) (r : ℚ)
    (mpi_n_nodes : Nat) : List Nat :=
  (vec_resize
    ((List.range' 1 (mpi_n_nodes - 1)).foldl
      (fun acc slave_id =>
        vec_add acc
          (radius_populations coords n_rows n_cols r
            (population_rows n_rows mpi_n_nodes slave_id)))
      (radius_populations coords n_rows n_cols r (population_rows n_rows mpi_n_nodes 0)))
    n_rows 0).map (fun x => x + 1)

/-- The population count of a row without any neighbour: each of the
`mpi_n_nodes` nodes contributes the initial `1` of its vector, summed in
`unsigned int`, and `1` is added at the end. -/
def self_only_count (mpi_n_nodes : Nat) : Nat :=
  (List.range' 1 (mpi_n_nodes - 1)).foldl (fun acc _ => (acc + 1) % 2 ^ 32) 1 + 1

/-- The value of an index after the conversion to `float` and back,
`(int) (float) n`: exact up to `2^24`, beyond that rounded to 24 significant bits
(to nearest, ties to even). -/
def float_index (n : Nat) : Nat :=
  if n ≤ 2 ^ 24 then n
  else
    let e := (List.range 40).foldl (fun e k => if 2 ^ (24 + k) ≤ n then k + 1 else e) 0
    let q := n / 2 ^ e
    let r := n % 2 ^ e
    (if 2 ^ e < 2 * r ∨ (2 ^ e = 2 * r ∧ q % 2 = 1) then q + 1 else q) * 2 ^ e

/-- The record `buf` a node other than the main process sends for its row `i`:
the row, the two neighbour indices and the two distances, all as `float`; read
back by the main process as key and two neighbour records. -/
def neighbor_message (nhs : Neighborhood × Neighborhood) (i : Nat) : Nat × Neighbor × Neighbor :=
  (float_index i,
    (float_index (nhs.1.get i (0, 0)).1, (nhs.1.get i (0, 0)).2),
    (float_index (nhs.2.get i (0, 0)).1, (nhs.2.get i (0, 0)).2))

/-- The records node `mpi_node_id` sends to the main process, one per row of its
slab in ascending order. -/
def neighbor_messages (coords : Nat → ℚ) (n_rows n_cols : Nat) (free_energy : List ℚ)
    (mpi_n_nodes mpi_node_id : Nat) : List (Nat × Neighbor × Neighbor) :=
  let rows := neighbor_rows n_rows mpi_n_nodes mpi_node_id
  (List.range' rows.1 (rows.2 - rows.1)).map
    (neighbor_message (nearest_neighbors_local coords n_rows n_cols free_energy
      mpi_n_nodes mpi_node_id))

/-- The receive loop of the main process, `while (nh.size() != n_rows)`: the first
argument lists the records still to arrive. When no record is left and the size
is not `n_rows` the receive never returns: there is no result. -/
def gather_loop (n_rows : Nat) :
    List (Nat × Neighbor × Neighbor) → Neighborhood × Neighborhood →
      Option (Neighborhood × Neighborhood)
  | [], nhs => if nhs.1.length = n_rows then some nhs else none
  | m :: rest, nhs =>
    if nhs.1.length = n_rows then some nhs
    else gather_loop n_rows rest (nhs.1.insert m.1 m.2.1, nhs.2.insert m.1 m.2.2)

/-- `nearest_neighbors(coords, n_rows, n_cols, free_energy, mpi_n_nodes,
mpi_node_id)`: the value returned on node `mpi_node_id`, `none` when the main
process never leaves its receive loop. The main process receives the records of
the other nodes (taken here in the order of the ranks) and returns its maps; the
other nodes overwrite the rows `0 .. n_rows-1` of their maps with the broadcast
values, whose indices went through a `float` buffer. -/
def nearest_neighbors (coords : Nat → ℚ) (n_rows n_cols : Nat) (free_energy : List ℚ)
    (mpi_n_nodes mpi_node_id : Nat) : Option (Neighborhood × Neighborhood) :=
  match gather_loop n_rows
      ((List.range' 1 (mpi_n_nodes - 1)).flatMap
        (neighbor_messages coords n_rows n_cols free_energy mpi_n_nodes))
      (nearest_neighbors_local coords n_rows n_cols free_energy mpi_n_nodes 0) with
  | none => none
  | some root =>
    if mpi_node_id = 0 then some root
    else
      some ((List.range n_rows).foldl
        (fun nhs i =>
          (nhs.1.insert i (float_index (root.1.get i (0, 0)).1, (root.1.get i (0, 0)).2),
           nhs.2.insert i (float_index (root.2.get i (0, 0)).1, (root.2.get i (0, 0)).2)))
        (nearest_neighbors_local coords n_rows n_cols free_energy mpi_n_nodes mpi_node_id))

end Density

/-- The coordinate matrix of the scenarios: three rows `0`, `0.5`, `3.0`, one column. -/
def coords_S1 : Nat → ℚ := fun k => [0, 1 / 2, 3].getD k 0

/-- Two rows `0` and `2^64`, one column: their squared distance exceeds `FLT_MAX`. -/
def coords_far : Nat → ℚ := fun k => [0, 18446744073709551616].getD k 0

/-- Two rows `0` and `0.5`, one column. -/
def coords_pair : Nat → ℚ := fun k => [0, 1 / 2].getD k 0

/-- One step of a first-minimum search: row `j` replaces the current best when
it is admissible and strictly closer. -/
def argmin_step (p : Nat → Prop) [DecidablePred p] (d : Nat → ℚ) (st : ℚ × Nat) (j : Nat) :
    ℚ × Nat :=
  if p j ∧ d j < st.1 then (d j, j) else st

/-! ## Most-probable-path lumping (`mpp.cpp`) -/

/-- Modelled from the spec: the type `SparseMatrixF` is declared in `mpp.hpp`,
which is not part of the sources; the spec describes it as a sparse matrix of
`f32` with a zero default. It is a pair of dimensions and a total entry function;
`M(i, j)` reads `M.data i j`. -/
structure SparseMatrixF where
  /-- Number of rows, `size1()`. -/
  size1 : Nat
  /-- Number of columns, `size2()`. -/
  size2 : Nat
  /-- The entry at a row and a column. -/
  data : Nat → Nat → ℚ

namespace SparseMatrixF

/-- The constructor `SparseMatrixF(n_rows, n_cols)`: every entry is zero. -/
def zero (n_rows n_cols : Nat) : SparseMatrixF := ⟨n_rows, n_cols, fun _ _ => 0⟩

/-- The assignment `M(i, j) = v`. -/
def set (M : SparseMatrixF) (i j : Nat) (v : ℚ) : SparseMatrixF :=
  { M with data := fun a b => if a = i ∧ b = j then v else M.data a b }

/-- The statement `M(i, j) += v`, an access outside the dimensions being a failure. -/
def add_at (M : SparseMatrixF) (i j : Nat) (v : ℚ) : Except Failure SparseMatrixF :=
  if i < M.size1 ∧ j < M.size2 then .ok (M.set i j (M.data i j + v))
  else .error .OutOfBounds

/-- The entries inside the dimensions, row by row. -/
def toLists (M : SparseMatrixF) : List (List ℚ) :=
  (List.range M.size1).map (fun i => (List.range M.size2).map (fun j => M.data i j))

end SparseMatrixF

/-- The insertion of `x` into a `std::set`, kept ascending and free of duplicates. -/
def set_insert (x : Nat) : List Nat → List Nat
  | [] => [x]
  | y :: s => if x < y then x :: y :: s else if x = y then y :: s else y :: set_insert x s

/-- The construction `std::set<std::size_t>(v.begin(), v.end())`. -/
def std_set (v : List Nat) : List Nat := v.foldl (fun s x => set_insert x s) []

namespace MPP

/-- The loop of `transition_counts`: `n` iterations remain, `i` is the loop
variable, `next_limit` the part of `concat_limits` from the iterator on. Both
trajectory reads come first, as in the source. -/
def transition_counts_loop (trajectory : List Nat) (n_lag_steps : Nat) :
    Nat → Nat → List Nat → SparseMatrixF → Except Failure SparseMatrixF
  | 0, _, _, count_matrix => .ok count_matrix
  | n + 1, i, next_limit, count_matrix =>
    match trajectory[i]?, trajectory[i + n_lag_steps]? with
    | some state_from, some state_to =>
      match next_limit with
      | limit :: rest =>
        if i + n_lag_steps < limit then
          match count_matrix.add_at state_from state_to 1 with
          | .ok M => transition_counts_loop trajectory n_lag_steps n (i + 1) (limit :: rest) M
          | .error e => .error e
        else if i + 1 = limit then
          transition_counts_loop trajectory n_lag_steps n (i + 1) rest count_matrix
        else
          transition_counts_loop trajectory n_lag_steps n (i + 1) (limit :: rest) count_matrix
      | [] =>
        match count_matrix.add_at state_from state_to 1 with
        | .ok M => transition_counts_loop trajectory n_lag_steps n (i + 1) [] M
        | .error e => .error e
    | _, _ => .error .OutOfBounds

/-- `transition_counts(trajectory, concat_limits, n_lag_steps, i_max)`; the loop
bound `trajectory.size() - n_lag_steps` is an unsigned difference, and
`std::max_element` of an empty trajectory is dereferenced out of bounds. -/
def transition_counts (trajectory concat_limits : List Nat) (n_lag_steps i_max : Nat) :
    Except Failure SparseMatrixF :=
  if n_lag_steps = 0 then .error .BadArgument
  else if i_max = 0 ∧ trajectory = [] then .error .OutOfBounds
  else
    let i_max := if i_max = 0 then trajectory.foldl max 0 else i_max
    transition_counts_loop trajectory n_lag_steps
      ((trajectory.length + 2 ^ 64 - n_lag_steps) % 2 ^ 64) 0 concat_limits
      (SparseMatrixF.zero (i_max + 1) (i_max + 1))

/-- The accumulation `row_sum += count_matrix(i,j)` over the columns of row `i`:
`row_sum` is a `std::size_t`, so each float sum is truncated when stored (a
negative sum, undefined in the source, is stored as zero). -/
def row_sum (count_matrix : SparseMatrixF) (i : Nat) : Nat :=
  (List.range count_matrix.size2).foldl
    (fun row_sum j => (⌊(row_sum : ℚ) + count_matrix.data i j⌋).toNat) 0

/-- `row_normalized_transition_probabilities(count_matrix, cluster_names)`. -/
def row_normalized_transition_probabilities (count_matrix : SparseMatrixF)
    (cluster_names : List Nat) : SparseMatrixF :=
  let n_rows := count_matrix.size1
  let n_cols := count_matrix.size2
  cluster_names.foldl
    (fun transition_matrix i =>
      if row_sum count_matrix i > 0 then
        (List.range n_cols).foldl
          (fun transition_matrix j =>
            if count_matrix.data i j ≠ 0 then
              transition_matrix.set i j (count_matrix.data i j / (row_sum count_matrix i : ℚ))
            else transition_matrix)
          transition_matrix
      else transition_matrix)
    (SparseMatrixF.zero n_rows n_cols)

/-- The loop over `j` of `single_step_future_state` for a state `i` whose
self-transition is below `q_min`: the pair `(candidates, max_trans_prob)`. -/
def transition_candidates (transition_matrix : SparseMatrixF) (cluster_names : List Nat)
    (i : Nat) : List Nat × ℚ :=
  cluster_names.foldl
    (fun (st : List Nat × ℚ) j =>
      if i ≠ j then
        if transition_matrix.data i j > st.2 then ([j], transition_matrix.data i j)
        else if transition_matrix.data i j = st.2 ∧ st.2 > 0 then (st.1 ++ [j], st.2)
        else st
      else st)
    ([], 0)

/-- The call `std::min_element` on the non-empty range `c :: cs` with the
comparison `value x < value y`: the first element no later one is smaller than. -/
def min_element (value : Nat → ℚ) (c : Nat) (cs : List Nat) : Nat :=
  cs.foldl (fun smallest x => if value x < value smallest then x else smallest) c

/-- The body of the loop over `i` in `single_step_future_state`: the future state
chosen for `i`, or `none` when there is no candidate. A missing key of
`min_free_energy` reads as `0.0f`. -/
def future_state_of (transition_matrix : SparseMatrixF) (cluster_names : List Nat)
    (q_min : ℚ) (min_free_energy : StdMap Nat ℚ) (i : Nat) : Option Nat :=
  let candidates :=
    if transition_matrix.data i i ≥ q_min then [i]
    else (transition_candidates transition_matrix cluster_names i).1
  match candidates with
  | [] => none
  | [c] => some c
  | c :: cs => some (min_element (fun x => min_free_energy.get x 0) c cs)

/-- The loop over `i` in `single_step_future_state`, leaving at the first state
without a candidate. -/
def future_state_loop (transition_matrix : SparseMatrixF) (cluster_names : List Nat)
    (q_min : ℚ) (min_free_energy : StdMap Nat ℚ) :
    List Nat → StdMap Nat Nat → Except Failure (StdMap Nat Nat)
  | [], future_state => .ok future_state
  | i :: rest, future_state =>
    match future_state_of transition_matrix cluster_names q_min min_free_energy i with
    | none => .error (.DeadState i)
    | some j =>
      future_state_loop transition_matrix cluster_names q_min min_free_energy rest
        (future_state.insert i j)

/-- `single_step_future_state(transition_matrix, cluster_names, q_min, min_free_energy)`. -/
def single_step_future_state (transition_matrix : SparseMatrixF) (cluster_names : List Nat)
    (q_min : ℚ) (min_free_energy : StdMap Nat ℚ) : Except Failure (StdMap Nat Nat) :=
  future_state_loop transition_matrix cluster_names q_min min_free_energy cluster_names []

/-- The `while` loop of `most_probable_path`; a missing key of `future_state`
reads as `0`. The result is `none` when the loop has not left after `fuel` tests. -/
def path_loop (future_state : StdMap Nat Nat) :
    Nat → List Nat → List Nat → Nat → Option (List Nat)
  | 0, _, _, _ => none
  | fuel + 1, path, visited, next_state =>
    if next_state ∈ visited then some path
    else
      path_loop future_state fuel (path ++ [next_state]) (set_insert next_state visited)
        (future_state.get next_state 0)

/-- The loop over `i` in `most_probable_path`. The states of a path are distinct
and each but the first is a value of `future_state` or the default `0`, so the
`while` loop leaves within `future_state.size() + 2` tests. -/
def most_probable_path_loop (future_state : StdMap Nat Nat) :
    List Nat → StdMap Nat (List Nat) → Option (StdMap Nat (List Nat))
  | [], mpp => some mpp
  | i :: rest, mpp =>
    match path_loop future_state (future_state.length + 2) [i] [i] (future_state.get i 0) with
    | none => none
    | some path => most_probable_path_loop future_state rest (mpp.insert i path)

/-- `most_probable_path(future_state, cluster_names)`. -/
def most_probable_path (future_state : StdMap Nat Nat) (cluster_names : List Nat) :
    Option (StdMap Nat (List Nat)) :=
  most_probable_path_loop future_state cluster_names []

/-- The number of positions `i < |T| - τ` with `T[i] = a`, `T[i+τ] = b` and no
boundary `c` with `i < c ≤ i + τ`. -/
def allowed_transitions (trajectory concat_limits : List Nat) (n_lag_steps a b : Nat) : Nat :=
  ((List.range (trajectory.length - n_lag_steps)).filter
    (fun i => decide (trajectory[i]? = some a ∧ trajectory[i + n_lag_steps]? = some b ∧
      ∀ c ∈ concat_limits, ¬ (i < c ∧ c ≤ i + n_lag_steps)))).length

/-- `microstate_populations(clusters, cluster_names)`: the frame count of every
state of `cluster_names`. -/
def microstate_populations (clusters cluster_names : List Nat) : StdMap Nat Nat :=
  cluster_names.foldl (fun pops i => pops.insert i (clusters.count i)) []

/-- The loop of `microstate_min_free_energy`: `i` is the frame index of the head of
the remaining clustering; reading `free_energy[i]` outside the vector is a
failure. -/
def min_free_energy_loop (free_energy : List ℚ) :
    List Nat → Nat → StdMap Nat ℚ → Except Failure (StdMap Nat ℚ)
  | [], _, min_fe => .ok min_fe
  | state :: rest, i, min_fe =>
    match free_energy[i]? with
    | none => .error .OutOfBounds
    | some fe =>
      match min_fe.find state with
      | none => min_free_energy_loop free_energy rest (i + 1) (min_fe.insert state fe)
      | some v =>
        if fe < v then min_free_energy_loop free_energy rest (i + 1) (min_fe.insert state fe)
        else min_free_energy_loop free_energy rest (i + 1) min_fe

/-- `microstate_min_free_energy(clustering, free_energy)`: every state gets the
lowest free energy of its frames. -/
def microstate_min_free_energy (clustering : List Nat) (free_energy : List ℚ) :
    Except Failure (StdMap Nat ℚ) :=
  min_free_energy_loop free_energy clustering 0 []

/-- The call `std::max_element` on the non-empty range `c :: cs` with the
comparison `value x < value y`: the first element no later one is greater than. -/
def max_element (value : Nat → Nat) (c : Nat) (cs : List Nat) : Nat :=
  cs.foldl (fun largest x => if value largest < value x then x else largest) c

/-- The `while` loop of `path_sinks` that collects the sink candidates:
`candidate` is the `std::min_element` of the remaining `metastable_states` by
`min_free_energy`; while `free_energy[*candidate] == min_fe` it is inserted into
the set and erased from the vector. `free_energy` is the per-frame vector, read
at the index `*candidate`. Every pass erases one element, `fuel` is the length
of the vector. -/
def sink_candidates_loop (min_free_energy : StdMap Nat ℚ) (free_energy : List ℚ) (min_fe : ℚ) :
    Nat → List Nat → List Nat → Except Failure (List Nat)
  | 0, _, sink_candidates => .ok sink_candidates
  | fuel + 1, metastable_states, sink_candidates =>
    match metastable_states with
    | [] => .ok sink_candidates
    | c :: cs =>
      match free_energy[min_element (fun x => min_free_energy.get x 0) c cs]? with
      | none => .error .OutOfBounds
      | some fe =>
        if fe = min_fe then
          sink_candidates_loop min_free_energy free_energy min_fe fuel
            ((c :: cs).erase (min_element (fun x => min_free_energy.get x 0) c cs))
            (set_insert (min_element (fun x => min_free_energy.get x 0) c cs) sink_candidates)
        else .ok sink_candidates

/-- The states of `path` with `transition_matrix(j,j) > q_min`, or the whole path
when there is none: the vector `metastable_states` of `path_sinks`. -/
def metastable_states (transition_matrix : SparseMatrixF) (q_min : ℚ) (path : List Nat) :
    List Nat :=
  if (path.filter (fun j => decide (transition_matrix.data j j > q_min))).length = 0 then path
  else path.filter (fun j => decide (transition_matrix.data j j > q_min))

/-- The body of the loop over `i` in `path_sinks`, for the path `mpp[i]`:
dereferencing `std::min_element` of an empty vector, or the begin of an empty
set, is a failure. -/
def sink_of (pops : StdMap Nat Nat) (min_free_energy : StdMap Nat ℚ)
    (transition_matrix : SparseMatrixF) (q_min : ℚ) (free_energy : List ℚ) (path : List Nat) :
    Except Failure Nat :=
  match metastable_states transition_matrix q_min path with
  | [] => .error .OutOfBounds
  | c :: cs =>
    match free_energy[min_element (fun x => min_free_energy.get x 0) c cs]? with
    | none => .error .OutOfBounds
    | some min_fe =>
      match sink_candidates_loop min_free_energy free_energy min_fe (c :: cs).length
          (c :: cs) [] with
      | .error e => .error e
      | .ok [] => .error .OutOfBounds
      | .ok [s] => .ok s
      | .ok (s :: ss) => .ok (max_element (fun x => pops.get x 0) s ss)

/-- The loop over `i` in `path_sinks`; a missing key of `mpp` reads as the empty
path. -/
def path_sinks_loop (pops : StdMap Nat Nat) (min_free_energy : StdMap Nat ℚ)
    (mpp : StdMap Nat (List Nat)) (transition_matrix : SparseMatrixF) (q_min : ℚ)
    (free_energy : List ℚ) : List Nat → StdMap Nat Nat → Except Failure (StdMap Nat Nat)
  | [], sinks => .ok sinks
  | i :: rest, sinks =>
    match sink_of pops min_free_energy transition_matrix q_min free_energy (mpp.get i []) with
    | .error e => .error e
    | .ok s =>
      path_sinks_loop pops min_free_energy mpp transition_matrix q_min free_energy rest
        (sinks.insert i s)

/-- `path_sinks(clusters, mpp, transition_matrix, cluster_names, q_min, free_energy)`. -/
def path_sinks (clusters : List Nat) (mpp : StdMap Nat (List Nat))
    (transition_matrix : SparseMatrixF) (cluster_names : List Nat) (q_min : ℚ)
    (free_energy : List ℚ) : Except Failure (StdMap Nat Nat) :=
  match microstate_min_free_energy clusters free_energy with
  | .error e => .error e
  | .ok min_free_energy =>
    path_sinks_loop (microstate_populations clusters cluster_names) min_free_energy mpp
      transition_matrix q_min free_energy cluster_names []

/-- `lumped_trajectory(trajectory, sinks)`: every state is replaced by `sinks[state]`. -/
def lumped_trajectory (trajectory : List Nat) (sinks : StdMap Nat Nat) : List Nat :=
  trajectory.map (fun state => sinks.get state 0)

/-- The loop `for (auto from_to: sinks)` of `fixed_metastability_clustering`:
the entries with `from != to` are stored in `lumping`. -/
def lumping_update (sinks lumping : StdMap Nat Nat) : StdMap Nat Nat :=
  sinks.foldl
    (fun lumping from_to =>
      if from_to.1 ≠ from_to.2 then lumping.insert from_to.1 from_to.2 else lumping)
    lumping

/-- The body of the loop of `fixed_metastability_clustering` up to the lumping of
the trajectory: the new trajectory and the sinks of the round. The branch
`diff_size_chunks` takes its count matrix from `weighted_transition_counts`,
which needs `sqrt` and is the parameter `weighted`. `transition_counts` is called
with three arguments: its fourth, `i_max`, has its default from `mpp.hpp`, taken
as `0` (auto-detect), as the spec describes it. The `while` loop of
`most_probable_path` always leaves within its bound
(`most_probable_path_returns`), so its `none` is not reached. -/
def lumping_round (weighted : List Nat → List Nat → Nat → Except Failure SparseMatrixF)
    (concat_limits : List Nat) (diff_size_chunks : Bool) (q_min : ℚ) (lagtime : Nat)
    (free_energy : List ℚ) (traj : List Nat) : Except Failure (List Nat × StdMap Nat Nat) :=
  let microstate_names := std_set traj
  match (if diff_size_chunks then weighted traj concat_limits lagtime
         else transition_counts traj concat_limits lagtime 0) with
  | .error e => .error e
  | .ok counts =>
    let trans_prob := row_normalized_transition_probabilities counts microstate_names
    match microstate_min_free_energy traj free_energy with
    | .error e => .error e
    | .ok min_fe =>
      match single_step_future_state trans_prob microstate_names q_min min_fe with
      | .error e => .error e
      | .ok future_state =>
        match most_probable_path future_state microstate_names with
        | none => .error .OutOfBounds
        | some mpp =>
          match path_sinks traj mpp trans_prob microstate_names q_min free_energy with
          | .error e => .error e
          | .ok sinks => .ok (lumped_trajectory traj sinks, sinks)

/-- The loop of `fixed_metastability_clustering` with `n` iterations left; when
none is left, `iter == MAX_ITER` and the runtime error is thrown. -/
def clustering_loop (weighted : List Nat → List Nat → Nat → Except Failure SparseMatrixF)
    (concat_limits : List Nat) (diff_size_chunks : Bool) (q_min : ℚ) (lagtime : Nat)
    (free_energy : List ℚ) :
    Nat → List Nat → StdMap Nat Nat → Except Failure (List Nat × StdMap Nat Nat)
  | 0, _, _ => .error .NotConverged
  | n + 1, traj, lumping =>
    match lumping_round weighted concat_limits diff_size_chunks q_min lagtime free_energy
        traj with
    | .error e => .error e
    | .ok (traj_new, sinks) =>
      if traj = traj_new then .ok (traj_new, lumping_update sinks lumping)
      else
        clustering_loop weighted concat_limits diff_size_chunks q_min lagtime free_energy n
          traj_new (lumping_update sinks lumping)

/-- `fixed_metastability_clustering(initial_trajectory, concat_limits,
diff_size_chunks, q_min, lagtime, free_energy)` with `MAX_ITER = 100`. -/
def fixed_metastability_clustering
    (weighted : List Nat → List Nat → Nat → Except Failure SparseMatrixF)
    (initial_trajectory concat_limits : List Nat) (diff_size_chunks : Bool) (q_min : ℚ)
    (lagtime : Nat) (free_energy : List ℚ) : Except Failure (List Nat × StdMap Nat Nat) :=
  clustering_loop weighted concat_limits diff_size_chunks q_min lagtime free_energy 100
    initial_trajectory []

/-- The trajectory after `k` rounds of lumping, when every one of them completes. -/
def trajectory_after (weighted : List Nat → List Nat → Nat → Except Failure SparseMatrixF)
    (initial_trajectory concat_limits : List Nat) (diff_size_chunks : Bool) (q_min : ℚ)
    (lagtime : Nat) (free_energy : List ℚ) : Nat → Except Failure (List Nat)
  | 0 => .ok initial_trajectory
  | k + 1 =>
    match trajectory_after weighted initial_trajectory concat_limits diff_size_chunks q_min
        lagtime free_energy k with
    | .error e => .error e
    | .ok traj =>
      match lumping_round weighted concat_limits diff_size_chunks q_min lagtime free_energy
          traj with
      | .error e => .error e
      | .ok r => .ok r.1

/-- Round `k + 1` completes and changes the trajectory. -/
def round_changes (weighted : List Nat → List Nat → Nat → Except Failure SparseMatrixF)
    (initial_trajectory concat_limits : List Nat) (diff_size_chunks : Bool) (q_min : ℚ)
    (lagtime : Nat) (free_energy : List ℚ) (k : Nat) : Prop :=
  ∃ t t',
    trajectory_after weighted initial_trajectory concat_limits diff_size_chunks q_min lagtime
      free_energy k = .ok t ∧
    trajectory_after weighted initial_trajectory concat_limits diff_size_chunks q_min lagtime
      free_energy (k + 1) = .ok t' ∧ t ≠ t'

/-- Round `k + 1` completes and leaves the trajectory unchanged. -/
def round_unchanged (weighted : List Nat → List Nat → Nat → Except Failure SparseMatrixF)
    (initial_trajectory concat_limits : List Nat) (diff_size_chunks : Bool) (q_min : ℚ)
    (lagtime : Nat) (free_energy : List ℚ) (k : Nat) : Prop :=
  ∃ t,
    trajectory_after weighted initial_trajectory concat_limits diff_size_chunks q_min lagtime
      free_energy k = .ok t ∧
    trajectory_after weighted initial_trajectory concat_limits diff_size_chunks q_min lagtime
      free_energy (k + 1) = .ok t

/-- The lumping map applied to a trajectory: every state that is a key of the map
is replaced by its image, the other states stay. -/
def apply_lumping (lumping : StdMap Nat Nat) (trajectory : List Nat) : List Nat :=
  trajectory.map (fun state => (lumping.find state).getD state)

/-- A stand-in for `weighted_transition_counts` where the branch is not taken. -/
def no_weighted : List Nat → List Nat → Nat → Except Failure SparseMatrixF :=
  fun _ _ _ => .error .OutOfBounds

/-- The vector `chunk` of `weighted_transition_counts`, built from the iterator
range `concat_limits.begin()+lower_lim .. concat_limits.begin()+upper_lim`: a
slice of `concat_limits` itself; a range that leaves the vector is a failure. -/
def limits_chunk (concat_limits : List Nat) (lower_lim upper_lim : Nat) :
    Except Failure (List Nat) :=
  if lower_lim ≤ upper_lim ∧ upper_lim ≤ concat_limits.length then
    .ok ((concat_limits.drop lower_lim).take (upper_lim - lower_lim))
  else .error .OutOfBounds

/-- The loop over the chunks of `weighted_transition_counts`: the first argument
lists the values `concat_limits[i_chunk]` still to come, `acc_weights` is a
function of the row. The parameter `sqrt` is the float square root. -/
def weighted_chunks_loop (sqrt : ℚ → ℚ) (concat_limits : List Nat) (n_lag_steps i_max : Nat) :
    List Nat → Nat → SparseMatrixF → (Nat → ℚ) → Except Failure (SparseMatrixF × (Nat → ℚ))
  | [], _, weighted_counts, acc_weights => .ok (weighted_counts, acc_weights)
  | limit :: rest, lower_lim, weighted_counts, acc_weights =>
    let upper_lim := (lower_lim + limit) % 2 ^ 64
    match limits_chunk concat_limits lower_lim upper_lim with
    | .error e => .error e
    | .ok chunk =>
      match transition_counts chunk [] n_lag_steps i_max with
      | .error e => .error e
      | .ok counts =>
        let weights : Nat → ℚ := fun i =>
          sqrt ((List.range (i_max + 1)).foldl (fun w j => w + counts.data i j) 0)
        weighted_chunks_loop sqrt concat_limits n_lag_steps i_max rest upper_lim
          { weighted_counts with
            data := fun i j =>
              if i < i_max + 1 ∧ j < i_max + 1 then
                weighted_counts.data i j + weights i * counts.data i j
              else weighted_counts.data i j }
          (fun i => if i < i_max + 1 then acc_weights i + weights i else acc_weights i)

/-- `weighted_transition_counts(trajectory, concat_limits, n_lag_steps)`, with the
float square root as the parameter `sqrt`. `std::max_element` of an empty
trajectory is dereferenced out of bounds. The final division is the rational
one: a quotient by a zero weight, NaN or an infinity in the source, is outside
the model. -/
def weighted_transition_counts (sqrt : ℚ → ℚ) (trajectory concat_limits : List Nat)
    (n_lag_steps : Nat) : Except Failure SparseMatrixF :=
  if trajectory = [] then .error .OutOfBounds
  else
    let i_max := trajectory.foldl max 0
    match weighted_chunks_loop sqrt concat_limits n_lag_steps i_max concat_limits 0
        (SparseMatrixF.zero (i_max + 1) (i_max + 1)) (fun _ => 0) with
    | .error e => .error e
    | .ok (weighted_counts, acc_weights) =>
      .ok { weighted_counts with
            data := fun i j =>
              if i < i_max + 1 ∧ j < i_max + 1 then weighted_counts.data i j / acc_weights i
              else weighted_counts.data i j }

/-- The first loop of `updated_transition_probabilities`: the set `macrostates`
and the map `microstates` from a macrostate to the set of the states lumped into
it. -/
def lumped_states (sinks : StdMap Nat Nat) : List Nat × StdMap Nat (List Nat) :=
  sinks.foldl
    (fun st lump_from_to =>
      (set_insert lump_from_to.2 st.1,
       if (st.2.find lump_from_to.2).isNone then st.2.insert lump_from_to.2 [lump_from_to.1]
       else st.2.insert lump_from_to.2 (set_insert lump_from_to.1 (st.2.get lump_from_to.2 []))))
    ([], [])

/-- `updated_transition_probabilities(transition_matrix, sinks)`: for every pair
of macrostates the entries of the transition matrix between their microstates
are added up. The entry function is total, an index outside the dimensions is
not checked. -/
def updated_transition_probabilities (transition_matrix : SparseMatrixF)
    (sinks : StdMap Nat Nat) : SparseMatrixF :=
  let updated_matrix := SparseMatrixF.zero transition_matrix.size1 transition_matrix.size2
  let macrostates := (lumped_states sinks).1
  let microstates := (lumped_states sinks).2
  macrostates.foldl
    (fun M macro1 =>
      macrostates.foldl
        (fun M macro2 =>
          (microstates.get macro1 []).foldl
            (fun M micro1 =>
              (microstates.get macro2 []).foldl
                (fun M micro2 =>
                  M.set macro1 macro2
                    (M.data macro1 macro2 + transition_matrix.data micro1 micro2))
                M)
            M)
        M)
    updated_matrix

/-- The sum of the entries `P[k,l]` over all `k` with `sinks[k] = a` and all `l`
with `sinks[l] = b`. -/
def lumped_sum (P : SparseMatrixF) (sinks : StdMap Nat Nat) (a b : Nat) : ℚ :=
  ((sinks.filter (fun e => e.2 = a)).map
    (fun e1 => ((sinks.filter (fun e => e.2 = b)).map (fun e2 => P.data e1.1 e2.1)).sum)).sum

end MPP

/-- A 1×2 matrix with both entries `1.5`. -/
def matrix_three_halves : SparseMatrixF := ⟨1, 2, fun _ _ => 3 / 2⟩

/-- The count matrix of `T = [1,1,2,2,1]` for lag `1` without boundaries. -/
def counts_S3 : SparseMatrixF :=
  ⟨3, 3, fun i j => ((([[0, 0, 0], [0, 1, 1], [0, 1, 1]] : List (List ℕ)).getD i []).getD j 0 : ℕ)⟩

/-- The transition matrix of the two-state scenario: states `1` and `2` with
`P[1,1] = 0.9`, `P[1,2] = 0.1`, `P[2,1] = 0.2`, `P[2,2] = 0.8`. -/
def P_S5 : SparseMatrixF :=
  ⟨3, 3, fun i j => (([[0, 0, 0], [0, 9 / 10, 1 / 10], [0, 1 / 5, 4 / 5]] :
    List (List ℚ)).getD i []).getD j 0⟩

/-- The transition matrix of the trajectory `[1, 2, 2]` for lag `1`:
`P[1,2] = 1` and `P[2,2] = 1`. -/
def P_chain : SparseMatrixF :=
  ⟨3, 3, fun i j => (([[0, 0, 0], [0, 0, 1], [0, 0, 1]] : List (List ℚ)).getD i []).getD j 0⟩

namespace Density

/-- The row `sorted_fe[j].first` of the frame at position `j` of the
free-energy-sorted list; the element type `FreeEnergy` is a pair whose first
component is the row, its second component is not read here. -/
def frame_row {φ : Type} (sorted_fe : List (Nat × φ)) (j : Nat) : Nat :=
  (sorted_fe.map Prod.fst).getD j 0

/-- The set `nh` of one node of `high_density_neighborhood` when its two loops
have finished: the positions `j` of its slab `[i_row_from, i_row_to)` of
`[0, limit)` with `j ≠ i_frame` whose row is closer than `max_dist` (squared) to
the row of `i_frame`. The slab is computed as in `nearest_neighbors`. -/
def high_density_local {φ : Type} (coords : Nat → ℚ) (n_cols : Nat)
    (sorted_fe : List (Nat × φ)) (i_frame limit : Nat) (max_dist : ℚ)
    (mpi_n_nodes mpi_node_id : Nat) : List Nat :=
  let rows := neighbor_rows limit mpi_n_nodes mpi_node_id
  (List.range' rows.1 (rows.2 - rows.1)).foldl
    (fun nh j =>
      if i_frame ≠ j ∧
          sq_dist coords n_cols (frame_row sorted_fe i_frame) (frame_row sorted_fe j) < max_dist
      then set_insert j nh
      else nh)
    []

/-- The tag constant `MPI_ANY_TAG` of the MPI library: the wildcard of receives
and probes, a negative number (`-1` in Open MPI and in MPICH) that is not among
the tags `0 .. MPI_TAG_UB` a send may use. -/
def MPI_ANY_TAG : Int := -1

/-- The call `MPI_Send` of a buffer with the given tag: the buffer as the receiver
gets it, `none` when the tag is not a valid send tag. Such a call is erroneous
(`MPI_ERR_TAG`); under the default error handler the run is aborted. -/
def mpi_send (tag : Int) (buf : List Nat) : Option (List Nat) :=
  if 0 ≤ tag then some buf else none

/-- `high_density_neighborhood(coords, n_cols, sorted_fe, i_frame, limit, max_dist,
mpi_n_nodes, mpi_node_id)`: the value returned on node `mpi_node_id`, `none` when
the run does not return. Every node `1 .. mpi_n_nodes-1` copies its set into an
`unsigned int` buffer and sends it with the tag `MPI_ANY_TAG`; the main process
inserts the buffers it receives into its own set and then inserts `i_frame`; the
other nodes rebuild the set from an `unsigned int` broadcast buffer. -/
def high_density_neighborhood {φ : Type} (coords : Nat → ℚ) (n_cols : Nat)
    (sorted_fe : List (Nat × φ)) (i_frame limit : Nat) (max_dist : ℚ)
    (mpi_n_nodes mpi_node_id : Nat) : Option (List Nat) :=
  let gathered : Option (List Nat) := (List.range' 1 (mpi_n_nodes - 1)).foldl
    (fun nh i =>
      match nh, mpi_send MPI_ANY_TAG
          ((high_density_local coords n_cols sorted_fe i_frame limit max_dist mpi_n_nodes i).map
            (fun x => x % 2 ^ 32)) with
      | some nh, some buf => some (buf.foldl (fun nh i_neighbor => set_insert i_neighbor nh) nh)
      | _, _ => none)
    (some (high_density_local coords n_cols sorted_fe i_frame limit max_dist mpi_n_nodes 0))
  match gathered with
  | none => none
  | some nh =>
    let root := set_insert i_frame nh
    if mpi_node_id = 0 then some root else some (std_set (root.map (fun x => x % 2 ^ 32)))

end Density

/-- A free-energy-sorted list of `2^32` frames, frame `i` at position `i`, all with
free energy `0`. -/
def sorted_fe_large : List (Nat × ℚ) := (List.range' 0 4294967296).map (fun i => (i, 0))

/-- The transition matrix of the trajectory `[4, 3, 2, 1, 2]` for lag `1`:
`P[1,2] = P[2,1] = P[3,2] = P[4,3] = 1`. -/
def P_descent : SparseMatrixF :=
  ⟨5, 5, fun i j => (([[0, 0, 0, 0, 0], [0, 0, 1, 0, 0], [0, 1, 0, 0, 0], [0, 0, 1, 0, 0],
    [0, 0, 0, 1, 0]] : List (List ℚ)).getD i []).getD j 0⟩

/-! ## Theorems -/

section containers

variable {κ β : Type}

theorem StdMap.find_insert [LinearOrder κ] (m : StdMap κ β) (k k' : κ) (v : β) :
    (StdMap.insert k v m).find k' = if k = k' then some v else m.find k' := by
  induction m with
  | nil => simp [StdMap.insert, StdMap.find]
  | cons hd tl ih =>
    obtain ⟨a, b⟩ := hd
    by_cases h1 : k < a
    · simp [StdMap.insert, StdMap.find, h1]
    · by_cases h2 : k = a
      · subst h2
        by_cases h3 : k = k' <;> simp [StdMap.insert, StdMap.find, h3]
      · by_cases h3 : k = k'
        · subst h3
          have h4 : ¬ a = k := fun h => h2 h.symm
          simp [StdMap.insert, StdMap.find, h1, h2, h4, ih]
        · simp [StdMap.insert, StdMap.find, h1, h2, h3, ih]

theorem StdMap.find_foldl_insert [LinearOrder κ] (g : κ → β) (l : List κ) (m0 : StdMap κ β)
    (k : κ) :
    (l.foldl (fun m i => StdMap.insert i (g i) m) m0).find k =
      if k ∈ l then some (g k) else m0.find k := by
  induction l using List.reverseRecOn with
  | nil => simp
  | append_singleton l a ih =>
    rw [List.foldl_append]
    simp only [List.foldl_cons, List.foldl_nil, StdMap.find_insert, ih]
    by_cases h : a = k
    · subst h; simp
    · have h' : ¬ k = a := fun e => h e.symm
      simp [h, h']

theorem foldl_pair_insert (g h : Nat → β) (l : List Nat) (init : StdMap Nat β × StdMap Nat β) :
    l.foldl (fun nhs i => (StdMap.insert i (g i) nhs.1, StdMap.insert i (h i) nhs.2)) init =
      (l.foldl (fun m i => StdMap.insert i (g i) m) init.1,
       l.foldl (fun m i => StdMap.insert i (h i) m) init.2) := by
  induction l generalizing init with
  | nil => rfl
  | cons a l ih => simp [List.foldl_cons, ih]

end containers

theorem argmin_scan_spec (p : Nat → Prop) [DecidablePred p] (d : Nat → ℚ) (top : ℚ) (s n : Nat) :
    ((∀ k < n, p k → top ≤ d k) ∧ (List.range n).foldl (argmin_step p d) (top, s) = (top, s)) ∨
    (((List.range n).foldl (argmin_step p d) (top, s)).2 < n ∧
      p ((List.range n).foldl (argmin_step p d) (top, s)).2 ∧
      ((List.range n).foldl (argmin_step p d) (top, s)).1 =
        d ((List.range n).foldl (argmin_step p d) (top, s)).2 ∧
      ((List.range n).foldl (argmin_step p d) (top, s)).1 < top ∧
      (∀ k < n, p k → ((List.range n).foldl (argmin_step p d) (top, s)).1 ≤ d k) ∧
      (∀ k < ((List.range n).foldl (argmin_step p d) (top, s)).2, p k →
        ((List.range n).foldl (argmin_step p d) (top, s)).1 < d k)) := by
  induction n with
  | zero => left; simp
  | succ n ih =>
    rw [List.range_succ, List.foldl_append]
    simp only [List.foldl_cons, List.foldl_nil]
    rcases ih with ⟨hall, heq⟩ | ⟨hlt, hp, hval, htop, hmin, hfirst⟩
    · rw [heq]
      by_cases hc : p n ∧ d n < top
      · right
        rw [show argmin_step p d (top, s) n = (d n, n) from if_pos hc]
        refine ⟨Nat.lt_succ_self n, hc.1, rfl, hc.2, ?_, ?_⟩
        · intro k hk hpk
          rcases Nat.lt_succ_iff_lt_or_eq.mp hk with h | h
          · exact le_of_lt (lt_of_lt_of_le hc.2 (hall k h hpk))
          · subst h; exact le_refl _
        · intro k hk hpk
          exact lt_of_lt_of_le hc.2 (hall k hk hpk)
      · left
        rw [show argmin_step p d (top, s) n = (top, s) from if_neg hc]
        refine ⟨?_, rfl⟩
        intro k hk hpk
        rcases Nat.lt_succ_iff_lt_or_eq.mp hk with h | h
        · exact hall k h hpk
        · subst h
          exact not_lt.mp (fun hlt => hc ⟨hpk, hlt⟩)
    · right
      generalize (List.range n).foldl (argmin_step p d) (top, s) = r at *
      by_cases hc : p n ∧ d n < r.1
      · rw [show argmin_step p d r n = (d n, n) from if_pos hc]
        refine ⟨Nat.lt_succ_self n, hc.1, rfl, lt_trans hc.2 htop, ?_, ?_⟩
        · intro k hk hpk
          rcases Nat.lt_succ_iff_lt_or_eq.mp hk with h | h
          · exact le_of_lt (lt_of_lt_of_le hc.2 (hmin k h hpk))
          · subst h; exact le_refl _
        · intro k hk hpk
          exact lt_of_lt_of_le hc.2 (hmin k hk hpk)
      · rw [show argmin_step p d r n = r from if_neg hc]
        refine ⟨Nat.lt_succ_of_lt hlt, hp, hval, htop, ?_, hfirst⟩
        intro k hk hpk
        rcases Nat.lt_succ_iff_lt_or_eq.mp hk with h | h
        · exact hmin k h hpk
        · subst h
          exact not_lt.mp (fun hl => hc ⟨hpk, hl⟩)

namespace Density

theorem neighbor_step_nh (coords : Nat → ℚ) (n_cols : Nat) (F : List ℚ) (i : Nat)
    (st : ScanState) (j : Nat) :
    ((neighbor_step coords n_cols F i st j).mindist,
      (neighbor_step coords n_cols F i st j).min_j) =
      argmin_step (fun j => i ≠ j) (sq_dist coords n_cols i) (st.mindist, st.min_j) j := by
  unfold neighbor_step argmin_step
  beta_reduce
  generalize F.getD j 0 = fj
  generalize F.getD i 0 = fi
  by_cases h1 : i = j <;>
  by_cases h2 : sq_dist coords n_cols i j < st.mindist <;>
  by_cases h3 : fj < fi <;>
  by_cases h4 : sq_dist coords n_cols i j < st.mindist_high_dens <;>
  simp [h1, h2, h3, h4]

theorem neighbor_step_hd (coords : Nat → ℚ) (n_cols : Nat) (F : List ℚ) (i : Nat)
    (st : ScanState) (j : Nat) :
    ((neighbor_step coords n_cols F i st j).mindist_high_dens,
      (neighbor_step coords n_cols F i st j).min_j_high_dens) =
      argmin_step (fun j => i ≠ j ∧ F.getD j 0 < F.getD i 0) (sq_dist coords n_cols i)
        (st.mindist_high_dens, st.min_j_high_dens) j := by
  unfold neighbor_step argmin_step
  beta_reduce
  generalize F.getD j 0 = fj
  generalize F.getD i 0 = fi
  by_cases h1 : i = j <;>
  by_cases h2 : sq_dist coords n_cols i j < st.mindist <;>
  by_cases h3 : fj < fi <;>
  by_cases h4 : sq_dist coords n_cols i j < st.mindist_high_dens <;>
  simp [h1, h2, h3, h4]

theorem neighbor_fold_nh (coords : Nat → ℚ) (n_cols : Nat) (F : List ℚ) (i : Nat)
    (l : List Nat) (st : ScanState) :
    ((l.foldl (neighbor_step coords n_cols F i) st).mindist,
      (l.foldl (neighbor_step coords n_cols F i) st).min_j) =
      l.foldl (argmin_step (fun j => i ≠ j) (sq_dist coords n_cols i)) (st.mindist, st.min_j) := by
  induction l generalizing st with
  | nil => rfl
  | cons a l ih => simp only [List.foldl_cons]; rw [ih, neighbor_step_nh]

theorem neighbor_fold_hd (coords : Nat → ℚ) (n_cols : Nat) (F : List ℚ) (i : Nat)
    (l : List Nat) (st : ScanState) :
    ((l.foldl (neighbor_step coords n_cols F i) st).mindist_high_dens,
      (l.foldl (neighbor_step coords n_cols F i) st).min_j_high_dens) =
      l.foldl (argmin_step (fun j => i ≠ j ∧ F.getD j 0 < F.getD i 0) (sq_dist coords n_cols i))
        (st.mindist_high_dens, st.min_j_high_dens) := by
  induction l generalizing st with
  | nil => rfl
  | cons a l ih => simp only [List.foldl_cons]; rw [ih, neighbor_step_hd]

theorem nearest_neighbors_local_find (coords : Nat → ℚ) (n_rows n_cols : Nat) (F : List ℚ)
    (mpi_n_nodes mpi_node_id i : Nat)
    (hfrom : (neighbor_rows n_rows mpi_n_nodes mpi_node_id).1 ≤ i)
    (hto : i < (neighbor_rows n_rows mpi_n_nodes mpi_node_id).2) :
    (nearest_neighbors_local coords n_rows n_cols F mpi_n_nodes mpi_node_id).1.find i =
        some ((neighbor_scan coords n_rows n_cols F i).min_j,
          (neighbor_scan coords n_rows n_cols F i).mindist) ∧
    (nearest_neighbors_local coords n_rows n_cols F mpi_n_nodes mpi_node_id).2.find i =
        some ((neighbor_scan coords n_rows n_cols F i).min_j_high_dens,
          (neighbor_scan coords n_rows n_cols F i).mindist_high_dens) := by
  have hmem : i ∈ List.range' (neighbor_rows n_rows mpi_n_nodes mpi_node_id).1
      ((neighbor_rows n_rows mpi_n_nodes mpi_node_id).2 -
        (neighbor_rows n_rows mpi_n_nodes mpi_node_id).1) := by
    rw [List.mem_range'_1]; omega
  unfold nearest_neighbors_local
  simp only []
  rw [foldl_pair_insert (fun i => ((neighbor_scan coords n_rows n_cols F i).min_j,
          (neighbor_scan coords n_rows n_cols F i).mindist))
        (fun i => ((neighbor_scan coords n_rows n_cols F i).min_j_high_dens,
          (neighbor_scan coords n_rows n_cols F i).mindist_high_dens))]
  simp only [StdMap.find_foldl_insert, hmem, if_true, and_self]

theorem neighbor_scan_nh_cases (coords : Nat → ℚ) (n_rows n_cols : Nat) (F : List ℚ) (i : Nat) :
    ((∀ k < n_rows, i ≠ k → FLT_MAX ≤ sq_dist coords n_cols i k) ∧
      (neighbor_scan coords n_rows n_cols F i).mindist = FLT_MAX ∧
      (neighbor_scan coords n_rows n_cols F i).min_j = n_rows + 1) ∨
    ((neighbor_scan coords n_rows n_cols F i).min_j < n_rows ∧
      i ≠ (neighbor_scan coords n_rows n_cols F i).min_j ∧
      (neighbor_scan coords n_rows n_cols F i).mindist =
        sq_dist coords n_cols i (neighbor_scan coords n_rows n_cols F i).min_j ∧
      (neighbor_scan coords n_rows n_cols F i).mindist < FLT_MAX ∧
      (∀ k < n_rows, i ≠ k →
        (neighbor_scan coords n_rows n_cols F i).mindist ≤ sq_dist coords n_cols i k) ∧
      (∀ k < (neighbor_scan coords n_rows n_cols F i).min_j, i ≠ k →
        (neighbor_scan coords n_rows n_cols F i).mindist < sq_dist coords n_cols i k)) := by
  have key := argmin_scan_spec (fun j => i ≠ j) (sq_dist coords n_cols i) FLT_MAX (n_rows + 1) n_rows
  have e := neighbor_fold_nh coords n_cols F i (List.range n_rows)
    ⟨FLT_MAX, n_rows + 1, FLT_MAX, n_rows + 1⟩
  simp only [] at e
  rw [← e] at key
  unfold neighbor_scan
  rcases key with ⟨h1, h2⟩ | h
  · left
    exact ⟨h1, (Prod.mk.inj h2).1, (Prod.mk.inj h2).2⟩
  · right
    exact h

theorem neighbor_scan_hd_cases (coords : Nat → ℚ) (n_rows n_cols : Nat) (F : List ℚ) (i : Nat) :
    ((∀ k < n_rows, F.getD k 0 < F.getD i 0 → FLT_MAX ≤ sq_dist coords n_cols i k) ∧
      (neighbor_scan coords n_rows n_cols F i).mindist_high_dens = FLT_MAX ∧
      (neighbor_scan coords n_rows n_cols F i).min_j_high_dens = n_rows + 1) ∨
    ((neighbor_scan coords n_rows n_cols F i).min_j_high_dens < n_rows ∧
      F.getD (neighbor_scan coords n_rows n_cols F i).min_j_high_dens 0 < F.getD i 0 ∧
      (neighbor_scan coords n_rows n_cols F i).mindist_high_dens =
        sq_dist coords n_cols i (neighbor_scan coords n_rows n_cols F i).min_j_high_dens ∧
      (neighbor_scan coords n_rows n_cols F i).mindist_high_dens < FLT_MAX ∧
      (∀ k < n_rows, F.getD k 0 < F.getD i 0 →
        (neighbor_scan coords n_rows n_cols F i).mindist_high_dens ≤ sq_dist coords n_cols i k) ∧
      (∀ k < (neighbor_scan coords n_rows n_cols F i).min_j_high_dens,
        F.getD k 0 < F.getD i 0 →
        (neighbor_scan coords n_rows n_cols F i).mindist_high_dens < sq_dist coords n_cols i k)) := by
  have key := argmin_scan_spec (fun j => i ≠ j ∧ F.getD j 0 < F.getD i 0)
    (sq_dist coords n_cols i) FLT_MAX (n_rows + 1) n_rows
  have e := neighbor_fold_hd coords n_cols F i (List.range n_rows)
    ⟨FLT_MAX, n_rows + 1, FLT_MAX, n_rows + 1⟩
  simp only [] at e
  rw [← e] at key
  have hne : ∀ k, F.getD k 0 < F.getD i 0 → i ≠ k := by
    intro k hk hik
    subst hik
    exact lt_irrefl _ hk
  unfold neighbor_scan
  rcases key with ⟨h1, h2⟩ | ⟨h1, h2, h3, h4, h5, h6⟩
  · left
    exact ⟨fun k hk hF => h1 k hk ⟨hne k hF, hF⟩, (Prod.mk.inj h2).1, (Prod.mk.inj h2).2⟩
  · right
    exact ⟨h1, h2.2, h3, h4, fun k hk hF => h5 k hk ⟨hne k hF, hF⟩,
      fun k hk hF => h6 k hk ⟨hne k hF, hF⟩⟩

/-- C1 (the code departs from the claim): on one node, for the rows `0`, `0.5`,
`3.0` and the radius `1`, `calculate_populations` returns `[3, 3, 2]`, whereas one
plus the number of other rows within the radius is `[2, 2, 1]`: every vector of
`pops` starts at one and one more is added after the reduction, so each row
counts itself twice (once more per additional node). -/
theorem calculate_populations_counts_self_twice :
    calculate_populations_single coords_S1 3 1 1 1 = [3, 3, 2] ∧
    calculate_populations coords_S1 3 1 [1] 1 = [(1, [3, 3, 2])] ∧
    (List.range 3).map (fun i => 1 + neighbor_count coords_S1 3 1 1 i) = [2, 2, 1] ∧
    calculate_populations_single coords_S1 3 1 1 2 = [4, 4, 3] := by
  decide!

/-- C2 (counterexample): for the two rows `0` and `2^64` the only other row of
row `0` is row `1`, yet `NH[0]` is not `(1, d²(0,1))` but the initial value
`(n_rows+1, FLT_MAX)`, because `d²(0,1) = 2^128` is not below `FLT_MAX`. -/
theorem nearest_neighbors_far_row_not_found :
    (2 ≤ 2 ∧ (1 : Nat) ≠ 0 ∧ ∀ k < 2, k ≠ 0 → sq_dist coords_far 1 0 1 ≤ sq_dist coords_far 1 0 k) ∧
    (nearest_neighbors_local coords_far 2 1 [0, 0] 1 0).1.find 0 = some (3, FLT_MAX) ∧
    (nearest_neighbors_local coords_far 2 1 [0, 0] 1 0).1.find 0 ≠
      some (1, sq_dist coords_far 1 0 1) := by
  decide!

/-- C2 (amended): for every row `i` scanned by a node of `nearest_neighbors` (on
a single node with `n_rows < 2^32`: every row), if some other row is at a squared
distance below `FLT_MAX`, then `NH[i] = (j, d²(i,j))` where `j ≠ i` is a row of
minimal squared distance to row `i` and the smallest index among the equally
close rows; if no other row is that close, `NH[i]` keeps `(n_rows+1, FLT_MAX)`. -/
theorem nearest_neighbors_closest_row (coords : Nat → ℚ) (n_rows n_cols : Nat) (F : List ℚ)
    (mpi_n_nodes mpi_node_id i : Nat)
    (hfrom : (neighbor_rows n_rows mpi_n_nodes mpi_node_id).1 ≤ i)
    (hto : i < (neighbor_rows n_rows mpi_n_nodes mpi_node_id).2) :
    ((∃ j, j < n_rows ∧ j ≠ i ∧ sq_dist coords n_cols i j < FLT_MAX) →
      ∃ j, j < n_rows ∧ j ≠ i ∧
        (nearest_neighbors_local coords n_rows n_cols F mpi_n_nodes mpi_node_id).1.find i =
          some (j, sq_dist coords n_cols i j) ∧
        (∀ k, k < n_rows → k ≠ i → sq_dist coords n_cols i j ≤ sq_dist coords n_cols i k) ∧
        (∀ k, k < n_rows → k ≠ i → sq_dist coords n_cols i k = sq_dist coords n_cols i j →
          j ≤ k)) ∧
    ((∀ j, j < n_rows → j ≠ i → FLT_MAX ≤ sq_dist coords n_cols i j) →
      (nearest_neighbors_local coords n_rows n_cols F mpi_n_nodes mpi_node_id).1.find i =
        some (n_rows + 1, FLT_MAX)) := by
  have hfind := (nearest_neighbors_local_find coords n_rows n_cols F mpi_n_nodes mpi_node_id i
    hfrom hto).1
  rw [hfind]
  rcases neighbor_scan_nh_cases coords n_rows n_cols F i with
    ⟨hall, hd, hj⟩ | ⟨hlt, hne, hval, htop, hmin, hfirst⟩
  · constructor
    · rintro ⟨j, hj1, hj2, hj3⟩
      exact absurd hj3 (not_lt.mpr (hall j hj1 (Ne.symm hj2)))
    · intro _
      rw [hd, hj]
  · constructor
    · intro _
      refine ⟨_, hlt, Ne.symm hne, ?_, ?_, ?_⟩
      · rw [hval]
      · intro k hk hki
        rw [← hval]
        exact hmin k hk (Ne.symm hki)
      · intro k hk hki heq
        by_contra hcon
        have := hfirst k (not_le.mp hcon) (Ne.symm hki)
        rw [hval, heq] at this
        exact lt_irrefl _ this
    · intro hfar
      have := hfar _ hlt (Ne.symm hne)
      rw [← hval] at this
      exact absurd htop (not_lt.mpr this)

/-- C2 (witness): the amended statement at the three rows `0`, `0.5`, `3.0` on a
single node, row `2`. -/
theorem nearest_neighbors_closest_row_witness :
    ((neighbor_rows 3 1 0).1 ≤ 2 ∧ 2 < (neighbor_rows 3 1 0).2 ∧
      ∃ j, j < 3 ∧ j ≠ 2 ∧ sq_dist coords_S1 1 2 j < FLT_MAX) ∧
    ∃ j, j < 3 ∧ j ≠ 2 ∧
      (nearest_neighbors_local coords_S1 3 1 [1, 0, 2] 1 0).1.find 2 =
        some (j, sq_dist coords_S1 1 2 j) ∧
      (∀ k, k < 3 → k ≠ 2 → sq_dist coords_S1 1 2 j ≤ sq_dist coords_S1 1 2 k) ∧
      (∀ k, k < 3 → k ≠ 2 → sq_dist coords_S1 1 2 k = sq_dist coords_S1 1 2 j → j ≤ k) :=
  ⟨⟨by decide, by decide, 1, by decide!⟩,
    (nearest_neighbors_closest_row coords_S1 3 1 [1, 0, 2] 1 0 2 (by decide) (by decide)).1
      ⟨1, by decide!⟩⟩

/-- C3 (counterexample): for the two rows `0` and `2^64` with `F = [1, 0]`, row `1`
has a lower free energy than row `0`, yet `NH_hd[0]` is not `(1, d²(0,1))` but the
sentinel `(n_rows+1, FLT_MAX)`, because `d²(0,1) = 2^128` is not below `FLT_MAX`. -/
theorem nearest_neighbors_high_dens_far_row_not_found :
    ((1 : Nat) < 2 ∧ [(1 : ℚ), 0].getD 1 0 < [(1 : ℚ), 0].getD 0 0) ∧
    (nearest_neighbors_local coords_far 2 1 [1, 0] 1 0).2.find 0 = some (3, FLT_MAX) ∧
    (nearest_neighbors_local coords_far 2 1 [1, 0] 1 0).2.find 0 ≠
      some (1, sq_dist coords_far 1 0 1) := by
  decide!

/-- C3 (amended): for every free-energy vector `F` with one entry per row and every
row `i` scanned by a node of `nearest_neighbors`: if some row `j` with
`F[j] < F[i]` is at a squared distance below `FLT_MAX`, then
`NH_hd[i] = (j, d²(i,j))` with `j` the smallest-index row of minimal squared
distance among the rows with `F[j] < F[i]` (so `F[NH_hd[i].index] < F[i]`); if no
row with `F[j] < F[i]` is that close, in particular if there is no such row,
`NH_hd[i]` is the sentinel with index `n_rows+1`. For the rows `0`, `0.5`, `3.0`
and `F = [1, 0, 2]` the result is `NH = [(1,0.25),(0,0.25),(1,6.25)]` and
`NH_hd = [(1,0.25), sentinel, (1,6.25)]`. -/
theorem nearest_neighbors_high_dens_closest :
    (∀ (coords : Nat → ℚ) (n_rows n_cols : Nat) (F : List ℚ) (mpi_n_nodes mpi_node_id i : Nat),
      F.length = n_rows →
      (neighbor_rows n_rows mpi_n_nodes mpi_node_id).1 ≤ i →
      i < (neighbor_rows n_rows mpi_n_nodes mpi_node_id).2 →
      ((∃ j, j < n_rows ∧ F.getD j 0 < F.getD i 0 ∧ sq_dist coords n_cols i j < FLT_MAX) →
        ∃ j, j < n_rows ∧ F.getD j 0 < F.getD i 0 ∧
          (nearest_neighbors_local coords n_rows n_cols F mpi_n_nodes mpi_node_id).2.find i =
            some (j, sq_dist coords n_cols i j) ∧
          (∀ k, k < n_rows → F.getD k 0 < F.getD i 0 →
            sq_dist coords n_cols i j ≤ sq_dist coords n_cols i k) ∧
          (∀ k, k < n_rows → F.getD k 0 < F.getD i 0 →
            sq_dist coords n_cols i k = sq_dist coords n_cols i j → j ≤ k)) ∧
      ((∀ j, j < n_rows → F.getD j 0 < F.getD i 0 → FLT_MAX ≤ sq_dist coords n_cols i j) →
        (nearest_neighbors_local coords n_rows n_cols F mpi_n_nodes mpi_node_id).2.find i =
          some (n_rows + 1, FLT_MAX))) ∧
    nearest_neighbors_local coords_S1 3 1 [1, 0, 2] 1 0 =
      ([(0, (1, 1 / 4)), (1, (0, 1 / 4)), (2, (1, 25 / 4))],
       [(0, (1, 1 / 4)), (1, (3 + 1, FLT_MAX)), (2, (1, 25 / 4))]) := by
  refine ⟨?_, by decide!⟩
  intro coords n_rows n_cols F mpi_n_nodes mpi_node_id i _ hfrom hto
  have hfind := (nearest_neighbors_local_find coords n_rows n_cols F mpi_n_nodes mpi_node_id i
    hfrom hto).2
  rw [hfind]
  rcases neighbor_scan_hd_cases coords n_rows n_cols F i with
    ⟨hall, hd, hj⟩ | ⟨hlt, hF, hval, htop, hmin, hfirst⟩
  · constructor
    · rintro ⟨j, hj1, hj2, hj3⟩
      exact absurd hj3 (not_lt.mpr (hall j hj1 hj2))
    · intro _
      rw [hd, hj]
  · constructor
    · intro _
      refine ⟨_, hlt, hF, ?_, ?_, ?_⟩
      · rw [hval]
      · intro k hk hFk
        rw [← hval]
        exact hmin k hk hFk
      · intro k hk hFk heq
        by_contra hcon
        have := hfirst k (not_le.mp hcon) hFk
        rw [hval, heq] at this
        exact lt_irrefl _ this
    · intro hfar
      have := hfar _ hlt hF
      rw [← hval] at this
      exact absurd htop (not_lt.mpr this)

/-- C3 (witness): the amended statement at the rows `0`, `0.5`, `3.0` with
`F = [1, 0, 2]` on a single node, row `2`. -/
theorem nearest_neighbors_high_dens_closest_witness :
    ([(1 : ℚ), 0, 2].length = 3 ∧ (neighbor_rows 3 1 0).1 ≤ 2 ∧ 2 < (neighbor_rows 3 1 0).2 ∧
      ∃ j, j < 3 ∧ [(1 : ℚ), 0, 2].getD j 0 < [(1 : ℚ), 0, 2].getD 2 0 ∧
        sq_dist coords_S1 1 2 j < FLT_MAX) ∧
    ∃ j, j < 3 ∧ [(1 : ℚ), 0, 2].getD j 0 < [(1 : ℚ), 0, 2].getD 2 0 ∧
      (nearest_neighbors_local coords_S1 3 1 [1, 0, 2] 1 0).2.find 2 =
        some (j, sq_dist coords_S1 1 2 j) ∧
      (∀ k, k < 3 → [(1 : ℚ), 0, 2].getD k 0 < [(1 : ℚ), 0, 2].getD 2 0 →
        sq_dist coords_S1 1 2 j ≤ sq_dist coords_S1 1 2 k) ∧
      (∀ k, k < 3 → [(1 : ℚ), 0, 2].getD k 0 < [(1 : ℚ), 0, 2].getD 2 0 →
        sq_dist coords_S1 1 2 k = sq_dist coords_S1 1 2 j → j ≤ k) :=
  ⟨⟨rfl, by decide, by decide, 1, by decide!⟩,
    ((nearest_neighbors_high_dens_closest.1 coords_S1 3 1 [1, 0, 2] 1 0 2 rfl
      (by decide) (by decide)).1 ⟨1, by decide!⟩)⟩

theorem pair_iterations_beyond (n_rows a b : Nat) (ha : a ≤ n_rows) (hb : n_rows ≤ b) :
    pair_iterations n_rows a b = pair_iterations n_rows a n_rows := by
  unfold pair_iterations
  have hsplit : List.range' a (b - a) =
      List.range' a (n_rows - a) ++ List.range' (a + (n_rows - a)) (b - n_rows) := by
    rw [List.range'_append_1]
    congr 1
    omega
  rw [hsplit, List.map_append, List.sum_append]
  have hzero : ((List.range' (a + (n_rows - a)) (b - n_rows)).map
      (fun i => (List.range' (i + 1) (n_rows - (i + 1))).length)).sum = 0 := by
    apply List.sum_eq_zero
    intro x hx
    obtain ⟨i, hi, rfl⟩ := List.mem_map.mp hx
    rw [List.mem_range'_1] at hi
    rw [List.length_range']
    omega
  rw [hzero, Nat.add_zero]

/-- C16 (the code departs from the claim): for `n_rows = 9` and `N = 9` the last
boundary computed is `k = 10 > n_rows`, the unsigned `n_rows - k` wraps and
`triangular_load_balance` returns `[0, 2^64-1, 0, 1, 2, 3, 4, 5, 6]`. Node `0`
gets the rows `[0, 2^32-1)`, that is every row, and node `2` gets row `0` again:
the nine nodes handle `36, 0, 8, 7, 6, 5, 4, 3, 3` pairs, `72` in total instead
of `9·8/2 = 36`, every pair is handled twice. -/
theorem triangular_load_balance_handles_pairs_twice :
    triangular_load_balance 9 9 = [0, 18446744073709551615, 0, 1, 2, 3, 4, 5, 6] ∧
    population_rows 9 9 0 = (0, 4294967295) ∧
    population_rows 9 9 2 = (0, 1) ∧
    (List.range 9).map (worker_pairs 9 9) = [36, 0, 8, 7, 6, 5, 4, 3, 3] ∧
    ((List.range 9).map (worker_pairs 9 9)).sum = 72 ∧
    9 * (9 - 1) / 2 = 36 := by
  have hrows : population_rows 9 9 0 = (0, 4294967295) := by decide!
  have h0 : worker_pairs 9 9 0 = 36 := by
    unfold worker_pairs
    rw [hrows, pair_iterations_beyond 9 0 4294967295 (by omega) (by omega)]
    decide
  have hlist : (List.range 9).map (worker_pairs 9 9) = [36, 0, 8, 7, 6, 5, 4, 3, 3] := by
    have hr : List.range 9 = [0, 1, 2, 3, 4, 5, 6, 7, 8] := by decide
    rw [hr]
    simp only [List.map_cons, List.map_nil, h0]
    have h1 : worker_pairs 9 9 1 = 0 := by decide!
    have h2 : worker_pairs 9 9 2 = 8 := by decide!
    have h3 : worker_pairs 9 9 3 = 7 := by decide!
    have h4 : worker_pairs 9 9 4 = 6 := by decide!
    have h5 : worker_pairs 9 9 5 = 5 := by decide!
    have h6 : worker_pairs 9 9 6 = 4 := by decide!
    have h7 : worker_pairs 9 9 7 = 3 := by decide!
    have h8 : worker_pairs 9 9 8 = 3 := by decide!
    rw [h1, h2, h3, h4, h5, h6, h7, h8]
  refine ⟨by decide!, hrows, by decide!, hlist, ?_, by decide⟩
  rw [hlist]
  decide

/-- C17 (the code departs from the claim): for `n_rows = 9` and `N = 9`,
`triangular_load_balance` returns nine indices with `idx[0] = 0`, but
`idx[1] = 2^64-1` exceeds `idx[2] = 0`: the boundary `k = 10` is larger than
`n_rows` and the unsigned `n_rows - k` wraps, so the indices are not
nondecreasing. -/
theorem triangular_load_balance_wraps :
    (triangular_load_balance 9 9).length = 9 ∧
    (triangular_load_balance 9 9).getD 0 7 = 0 ∧
    (triangular_load_balance 9 9).getD 1 0 = 18446744073709551615 ∧
    (triangular_load_balance 9 9).getD 2 7 = 0 ∧
    ¬ (triangular_load_balance 9 9).getD 1 0 ≤ (triangular_load_balance 9 9).getD 2 0 := by
  decide!

/-- C18: for `n_rows = 10` and `N = 3` nodes `triangular_load_balance` returns
`[0, 2, 4]`; node `0` handles `17` pairs, node `1` handles `13` and node `2`
handles `15`, so the numbers of node `0` and node `2` differ by `2`. -/
theorem load_balance_scenario :
    triangular_load_balance 10 3 = [0, 2, 4] ∧
    (List.range 3).map (worker_pairs 10 3) = [17, 13, 15] ∧
    Int.natAbs ((worker_pairs 10 3 0 : ℤ) - (worker_pairs 10 3 2 : ℤ)) ≤ 2 := by
  decide!

/-- C19 (the code departs from the claim): for the rows `0`, `0.5` and the radii list
`[1, 1, 2]` on one node, `calculate_populations` returns `pop[1] = [4, 4]` and
`pop[2] = [3, 3]`, so `pop[1][0] > pop[2][0]` although `1 < 2`: the map `pops` has
one vector per distinct radius, but the loop over the sorted radii list visits
the radius `1` twice and increments its vector twice for the one pair within it. -/
theorem calculate_populations_repeated_radius :
    calculate_populations coords_pair 2 1 [1, 1, 2] 1 = [(1, [4, 4]), (2, [3, 3])] ∧
    ((1 : ℚ) < 2 ∧
      ¬ ((calculate_populations coords_pair 2 1 [1, 1, 2] 1).get 1 []).getD 0 0 ≤
        ((calculate_populations coords_pair 2 1 [1, 1, 2] 1).get 2 []).getD 0 0) ∧
    calculate_populations coords_pair 2 1 [1, 2] 1 = [(1, [3, 3]), (2, [3, 3])] := by
  decide!

theorem local_populations_no_radii (coords : Nat → ℚ) (n_rows n_cols : Nat)
    (mpi_n_nodes mpi_node_id : Nat) :
    local_populations coords n_rows n_cols [] mpi_n_nodes mpi_node_id = [] := by
  unfold local_populations
  simp only [List.foldl_nil, List.insertionSort]
  have inner : ∀ (i : Nat) (l : List Nat) (pops : StdMap ℚ (List Nat)),
      l.foldl (fun pops j => radii_loop (sq_dist coords n_cols i j) i j [] pops) pops = pops := by
    intro i l
    induction l with
    | nil => intro pops; rfl
    | cons j l ih => intro pops; rw [List.foldl_cons, radii_loop, ih]
  have outer : ∀ (l : List Nat) (pops : StdMap ℚ (List Nat)),
      l.foldl (fun pops i =>
        (List.range' (i + 1) (n_rows - (i + 1))).foldl
          (fun pops j => radii_loop (sq_dist coords n_cols i j) i j [] pops) pops) pops = pops := by
    intro l
    induction l with
    | nil => intro pops; rfl
    | cons i l ih => intro pops; rw [List.foldl_cons, inner, ih]
  exact outer _ _

/-- C20 (counterexample): called with an empty radii list for the rows `0`, `0.5`,
`3.0` on one node, `calculate_populations` does not fail: it returns the empty
map. -/
theorem calculate_populations_empty_radii_returns :
    calculate_populations coords_S1 3 1 [] 1 = [] ∧
    local_populations coords_S1 3 1 [] 1 0 = [] := by
  decide!

/-- C20 (amended): `calculate_populations` called with an empty radii list does not
fail, it has no check of the list: for every coordinate matrix and every number
of nodes it returns the empty map, with no population vector. -/
theorem calculate_populations_empty_radii (coords : Nat → ℚ) (n_rows n_cols : Nat)
    (mpi_n_nodes : Nat) :
    calculate_populations coords n_rows n_cols [] mpi_n_nodes = [] := by
  unfold calculate_populations
  simp only [local_populations_no_radii, List.map_nil]

/-- C22 (the code departs from the claim): for the rows `0`, `0.5`, `3.0` and the
radius `1` the merged population vector is `[3, 3, 2]` on one node, `[4, 4, 3]`
on two nodes and `[5, 5, 4]` on three: every node starts its vector with ones
and the vectors of all nodes are summed, so the result grows with the number of
nodes. -/
theorem calculate_populations_depends_on_nodes :
    calculate_populations coords_S1 3 1 [1] 1 = [(1, [3, 3, 2])] ∧
    calculate_populations coords_S1 3 1 [1] 2 = [(1, [4, 4, 3])] ∧
    calculate_populations coords_S1 3 1 [1] 3 = [(1, [5, 5, 4])] ∧
    calculate_populations coords_S1 3 1 [1] 1 ≠ calculate_populations coords_S1 3 1 [1] 2 := by
  decide!

theorem triangular_succ (m : Nat) :
    (m + 1) * (m + 1 + 1) / 2 = m * (m + 1) / 2 + (m + 1) := by
  have h : (m + 1) * (m + 1 + 1) = m * (m + 1) + 2 * (m + 1) := by ring
  rw [h, Nat.add_mul_div_left _ _ (by decide : 0 < 2)]

theorem pair_iterations_closed (n_rows a : Nat) : ∀ d : Nat, a + d ≤ n_rows →
    pair_iterations n_rows a (a + d) + (n_rows - (a + d)) * (n_rows - (a + d) + 1) / 2 + d =
      (n_rows - a) * (n_rows - a + 1) / 2 := by
  intro d
  induction d with
  | zero => intro _; simp [pair_iterations]
  | succ d ih =>
    intro h
    have ih := ih (by omega)
    have hstep : pair_iterations n_rows a (a + (d + 1)) =
        pair_iterations n_rows a (a + d) + (n_rows - (a + d + 1)) := by
      unfold pair_iterations
      have h1 : a + (d + 1) - a = d + 1 := by omega
      have h2 : a + d - a = d := by omega
      rw [h1, h2, List.range'_concat, List.map_append, List.sum_append]
      simp [List.length_range']
    obtain ⟨m, hm⟩ : ∃ m, n_rows - (a + d) = m + 1 := ⟨n_rows - (a + d) - 1, by omega⟩
    have hm2 : n_rows - (a + (d + 1)) = m := by omega
    have hm3 : n_rows - (a + d + 1) = m := by omega
    rw [hstep, hm2, hm3]
    rw [hm, triangular_succ] at ih
    omega

/-- C28 (counterexample): for `n_rows = 10` the loop nest with the outer index in
`[0, 2)` executes `9 + 8 = 17` iterations, while `T(10) - T(8) = 55 - 36 = 19`:
the inner index starts at `i + 1`, the pair `(i, i)` is not visited. -/
theorem pair_iterations_below_triangular_difference :
    pair_iterations 10 0 2 = 17 ∧
    (10 - 0) * (10 - 0 + 1) / 2 - (10 - 2) * (10 - 2 + 1) / 2 = 19 ∧
    pair_iterations 10 0 2 ≠ (10 - 0) * (10 - 0 + 1) / 2 - (10 - 2) * (10 - 2 + 1) / 2 := by
  decide

/-- C28 (amended): for `0 ≤ a ≤ b ≤ n_rows` the number of `(i, j)` iterations of
the population loop nest with the outer index in `[a, b)` and the inner index in
`(i, n_rows)` is `T(n_rows-a) - T(n_rows-b) - (b-a)` with `T(n) = n(n+1)/2`:
the triangular difference counts one more per outer row than the loop visits. -/
theorem pair_iterations_formula (n_rows a b : Nat) (hab : a ≤ b) (hb : b ≤ n_rows) :
    pair_iterations n_rows a b =
      (n_rows - a) * (n_rows - a + 1) / 2 - (n_rows - b) * (n_rows - b + 1) / 2 - (b - a) := by
  have h := pair_iterations_closed n_rows a (b - a) (by omega)
  have e : a + (b - a) = b := by omega
  rw [e] at h
  omega

theorem pair_iterations_formula_witness :
    pair_iterations 10 2 4 =
      (10 - 2) * (10 - 2 + 1) / 2 - (10 - 4) * (10 - 4 + 1) / 2 - (4 - 2) :=
  pair_iterations_formula 10 2 4 (by decide) (by decide)

/-- C29 (the code departs from the claim): for `n_rows = 9` and `N = 9` the
boundaries computed are `3, 4, 5, 6, 7, 8, 9, 10`; the last one exceeds
`n_rows`, the unsigned `n_rows - 10` wraps and the returned index
`idx[1] = 2^64 - 1` lies outside `[0, n_rows]`. -/
theorem load_balance_boundary_exceeds_rows :
    load_balance_boundaries 9 9 = [3, 4, 5, 6, 7, 8, 9, 10] ∧
    ¬ (∀ k ∈ load_balance_boundaries 9 9, k ≤ 9) ∧
    (triangular_load_balance 9 9).getD 1 0 = (9 + 2 ^ 64 - 10) % 2 ^ 64 ∧
    (9 + 2 ^ 64 - 10) % 2 ^ 64 = 18446744073709551615 ∧
    ¬ (∀ x ∈ triangular_load_balance 9 9, x ≤ 9) := by
  decide!

theorem pops_incr_find (pops : StdMap ℚ (List Nat)) (rad r : ℚ) (i : Nat) :
    (pops_incr pops rad i).find r =
      if rad = r then some (vec_incr (pops.get rad []) i) else pops.find r := by
  unfold pops_incr
  exact StdMap.find_insert _ _ _ _

theorem radii_loop_find_not_mem (dist : ℚ) (i j : Nat) (r : ℚ) :
    ∀ (l : List ℚ) (pops : StdMap ℚ (List Nat)), r ∉ l →
      (radii_loop dist i j l pops).find r = pops.find r := by
  intro l
  induction l with
  | nil => intro pops _; rfl
  | cons x l ih =>
    intro pops h
    rw [radii_loop]
    have hx : ¬ x = r := fun e => h (by simp [e])
    have hl : r ∉ l := fun e => h (List.mem_cons_of_mem _ e)
    split
    · rw [ih _ hl, pops_incr_find, if_neg hx, pops_incr_find, if_neg hx]
    · rfl

theorem radii_loop_find_at (dist : ℚ) (i j : Nat) (r : ℚ) (l2 : List ℚ) (h2 : r ∉ l2) :
    ∀ (l1 : List ℚ) (pops : StdMap ℚ (List Nat)) (v : List Nat),
      (∀ x ∈ l1, x ≠ r ∧ r * r ≤ x * x) → pops.find r = some v →
      (radii_loop dist i j (l1 ++ r :: l2) pops).find r = some (pair_step r dist i j v) := by
  intro l1
  induction l1 with
  | nil =>
    intro pops v _ hv
    rw [List.nil_append, radii_loop]
    unfold pair_step
    split
    · rw [radii_loop_find_not_mem _ _ _ _ _ _ h2, pops_incr_find, if_pos rfl]
      have e : (pops_incr pops r i).get r [] = vec_incr v i := by
        unfold StdMap.get
        rw [pops_incr_find, if_pos rfl]
        simp [StdMap.get, hv]
      rw [e]
    · exact hv
  | cons x l1 ih =>
    intro pops v h1 hv
    have hx := h1 x (by simp)
    rw [List.cons_append, radii_loop]
    split
    · apply ih _ _ (fun y hy => h1 y (List.mem_cons_of_mem _ hy))
      rw [pops_incr_find, if_neg hx.1, pops_incr_find, if_neg hx.1]
      exact hv
    · rename_i hd
      unfold pair_step
      rw [if_neg (fun h => hd (lt_of_lt_of_le h hx.2))]
      exact hv

theorem radii_fold_find (coords : Nat → ℚ) (n_cols : Nat) (r : ℚ) (l1 l2 : List ℚ)
    (h2 : r ∉ l2) (h1 : ∀ x ∈ l1, x ≠ r ∧ r * r ≤ x * x) (i : Nat) :
    ∀ (js : List Nat) (pops : StdMap ℚ (List Nat)) (v : List Nat), pops.find r = some v →
      (js.foldl (fun pops j =>
        radii_loop (sq_dist coords n_cols i j) i j (l1 ++ r :: l2) pops) pops).find r =
        some (js.foldl (fun v j => pair_step r (sq_dist coords n_cols i j) i j v) v) := by
  intro js
  induction js with
  | nil => intro pops v hv; exact hv
  | cons j js ih =>
    intro pops v hv
    rw [List.foldl_cons, List.foldl_cons]
    exact ih _ _ (radii_loop_find_at _ _ _ _ _ h2 _ _ _ h1 hv)

theorem radii_nest_find (coords : Nat → ℚ) (n_rows n_cols : Nat) (r : ℚ) (l1 l2 : List ℚ)
    (h2 : r ∉ l2) (h1 : ∀ x ∈ l1, x ≠ r ∧ r * r ≤ x * x) :
    ∀ (is : List Nat) (pops : StdMap ℚ (List Nat)) (v : List Nat), pops.find r = some v →
      (is.foldl (fun pops i =>
        (List.range' (i + 1) (n_rows - (i + 1))).foldl (fun pops j =>
          radii_loop (sq_dist coords n_cols i j) i j (l1 ++ r :: l2) pops) pops) pops).find r =
        some (is.foldl (fun v i =>
          (List.range' (i + 1) (n_rows - (i + 1))).foldl
            (fun v j => pair_step r (sq_dist coords n_cols i j) i j v) v) v) := by
  intro is
  induction is with
  | nil => intro pops v hv; exact hv
  | cons i is ih =>
    intro pops v hv
    rw [List.foldl_cons, List.foldl_cons]
    exact ih _ _ (radii_fold_find coords n_cols r l1 l2 h2 h1 i _ _ _ hv)

theorem vec_resize_ones (n : Nat) (v : List Nat) (h : v = [] ∨ v = List.replicate n 1) :
    vec_resize v n 1 = List.replicate n 1 := by
  rcases h with h | h
  · subst h; simp [vec_resize]
  · subst h; simp [vec_resize, List.take_replicate]

theorem initial_pops_find (n_rows : Nat) (r : ℚ) : ∀ radii : List ℚ,
    (radii.foldl (fun (pops : StdMap ℚ (List Nat)) rad =>
      pops.insert rad (vec_resize (pops.get rad []) n_rows 1)) []).find r =
      if r ∈ radii then some (List.replicate n_rows 1) else none := by
  intro radii
  induction radii using List.reverseRecOn with
  | nil => simp [StdMap.find]
  | append_singleton l a ih =>
    rw [List.foldl_append]
    simp only [List.foldl_cons, List.foldl_nil, StdMap.find_insert]
    by_cases h : a = r
    · subst h
      rw [if_pos rfl, if_pos (by simp)]
      congr 1
      apply vec_resize_ones
      have e : ∀ m : StdMap ℚ (List Nat), m.get a [] = (m.find a).getD [] := fun _ => rfl
      rw [e, ih]
      by_cases hm : a ∈ l
      · right; simp [hm]
      · left; simp [hm]
    · rw [if_neg h, ih]
      have h' : ¬ r = a := fun e => h e.symm
      simp [h']

theorem local_populations_find (coords : Nat → ℚ) (n_rows n_cols : Nat) (radii : List ℚ)
    (mpi_n_nodes mpi_node_id : Nat) (r : ℚ) (hnodup : radii.Nodup) (hr : r ∈ radii)
    (hsq : ∀ x ∈ radii, r ≤ x → r * r ≤ x * x) :
    (local_populations coords n_rows n_cols radii mpi_n_nodes mpi_node_id).find r =
      some (radius_populations coords n_rows n_cols r
        (population_rows n_rows mpi_n_nodes mpi_node_id)) := by
  have hperm := List.perm_insertionSort (fun a b : ℚ => a ≥ b) radii
  have hsorted := List.sorted_insertionSort (fun a b : ℚ => a ≥ b) radii
  have hmem : r ∈ radii.insertionSort (fun a b => a ≥ b) := hperm.mem_iff.mpr hr
  have hnd : (radii.insertionSort (fun a b => a ≥ b)).Nodup := hperm.nodup_iff.mpr hnodup
  obtain ⟨l1, l2, hl⟩ := List.append_of_mem hmem
  rw [hl] at hnd hsorted
  have h2 : r ∉ l2 := by
    intro h
    have := (List.nodup_append.mp hnd).2.1
    exact (List.nodup_cons.mp this).1 h
  have h1 : ∀ x ∈ l1, x ≠ r ∧ r * r ≤ x * x := by
    intro x hx
    have hxr : x ≥ r := (List.pairwise_append.mp hsorted).2.2 x hx r (by simp)
    have hxm : x ∈ radii := hperm.mem_iff.mp (by rw [hl]; simp [hx])
    refine ⟨?_, hsq x hxm hxr⟩
    intro e
    subst e
    exact (List.nodup_append.mp hnd).2.2 hx (by simp)
  unfold local_populations radius_populations
  simp only []
  rw [hl]
  apply radii_nest_find coords n_rows n_cols r l1 l2 h2 h1
  rw [initial_pops_find, if_pos hr]

theorem find_map_value {κ β γ : Type} [DecidableEq κ] (f : κ × β → γ) (m : StdMap κ β) (k : κ) :
    StdMap.find (m.map (fun e => (e.1, f e))) k = (m.find k).map (fun v => f (k, v)) := by
  induction m with
  | nil => rfl
  | cons hd tl ih =>
    obtain ⟨a, b⟩ := hd
    by_cases h : a = k
    · subst h; simp [StdMap.find]
    · simp only [List.map_cons, StdMap.find, if_neg h]
      exact ih

theorem calculate_populations_get (coords : Nat → ℚ) (n_rows n_cols : Nat) (radii : List ℚ)
    (mpi_n_nodes : Nat) (r : ℚ) (hnodup : radii.Nodup) (hr : r ∈ radii)
    (hsq : ∀ x ∈ radii, r ≤ x → r * r ≤ x * x) :
    (calculate_populations coords n_rows n_cols radii mpi_n_nodes).get r [] =
      merged_radius_populations coords n_rows n_cols r mpi_n_nodes := by
  have key := fun w =>
    local_populations_find coords n_rows n_cols radii mpi_n_nodes w r hnodup hr hsq
  unfold calculate_populations merged_radius_populations StdMap.get
  simp only []
  rw [find_map_value, key 0]
  simp only [Option.map_some', Option.getD_some, StdMap.get, key]

theorem sq_dist_nonneg (coords : Nat → ℚ) (n_cols i j : Nat) : 0 ≤ sq_dist coords n_cols i j := by
  unfold sq_dist
  have h : ∀ (l : List Nat) (acc : ℚ), 0 ≤ acc →
      0 ≤ l.foldl (fun dist k =>
        let c := coords (i * n_cols + k) - coords (j * n_cols + k)
        dist + c * c) acc := by
    intro l
    induction l with
    | nil => intro acc h; exact h
    | cons k l ih =>
      intro acc h
      rw [List.foldl_cons]
      exact ih _ (add_nonneg h (mul_self_nonneg _))
  exact h _ _ (le_refl 0)

theorem radius_populations_zero (coords : Nat → ℚ) (n_rows n_cols : Nat) (rows : Nat × Nat) :
    radius_populations coords n_rows n_cols 0 rows = List.replicate n_rows 1 := by
  unfold radius_populations
  have hstep : ∀ (i j : Nat) (v : List Nat),
      pair_step 0 (sq_dist coords n_cols i j) i j v = v := by
    intro i j v
    unfold pair_step
    rw [if_neg]
    rw [mul_zero]
    exact not_lt.mpr (sq_dist_nonneg coords n_cols i j)
  simp only [hstep]
  have inner : ∀ (l : List Nat) (v : List Nat), l.foldl (fun v _ => v) v = v := by
    intro l
    induction l with
    | nil => intro v; rfl
    | cons j l ih => intro v; rw [List.foldl_cons, ih]
  simp only [inner]

theorem vec_add_replicate (n a b : Nat) :
    vec_add (List.replicate n a) (List.replicate n b) = List.replicate n ((a + b) % 2 ^ 32) := by
  unfold vec_add
  induction n with
  | zero => rfl
  | succ n ih => simp only [List.replicate_succ, List.zipWith_cons_cons, ih]

theorem merged_radius_populations_zero (coords : Nat → ℚ) (n_rows n_cols mpi_n_nodes : Nat) :
    merged_radius_populations coords n_rows n_cols 0 mpi_n_nodes =
      List.replicate n_rows (self_only_count mpi_n_nodes) := by
  unfold merged_radius_populations self_only_count
  simp only [radius_populations_zero]
  have hfold : ∀ (l : List Nat) (c : Nat),
      l.foldl (fun acc _ => vec_add acc (List.replicate n_rows 1)) (List.replicate n_rows c) =
        List.replicate n_rows (l.foldl (fun acc _ => (acc + 1) % 2 ^ 32) c) := by
    intro l
    induction l with
    | nil => intro c; rfl
    | cons x l ih => intro c; rw [List.foldl_cons, vec_add_replicate, ih, List.foldl_cons]
  rw [hfold]
  simp [vec_resize, List.take_replicate]

theorem merged_radius_populations_neg (coords : Nat → ℚ) (n_rows n_cols : Nat) (r : ℚ)
    (mpi_n_nodes : Nat) :
    merged_radius_populations coords n_rows n_cols (-r) mpi_n_nodes =
      merged_radius_populations coords n_rows n_cols r mpi_n_nodes := by
  have hstep : ∀ (d : ℚ) (i j : Nat) (v : List Nat), pair_step (-r) d i j v = pair_step r d i j v := by
    intro d i j v
    unfold pair_step
    rw [neg_mul_neg]
  unfold merged_radius_populations radius_populations
  simp only [hstep]

theorem calculate_populations_single_eq (coords : Nat → ℚ) (n_rows n_cols : Nat) (r : ℚ)
    (mpi_n_nodes : Nat) :
    calculate_populations_single coords n_rows n_cols r mpi_n_nodes =
      merged_radius_populations coords n_rows n_cols r mpi_n_nodes := by
  unfold calculate_populations_single
  exact calculate_populations_get coords n_rows n_cols [r] mpi_n_nodes r
    (List.nodup_singleton r) (by simp) (fun x hx _ => by
      rw [List.mem_singleton.mp hx])

/-- C21 (counterexample): for the rows `0`, `0.5` and the radius `-1 ≤ 0` on one
node, both rows get the count `3`, not the count `2` of a row without any
neighbour: the radius is squared, the pair at squared distance `0.25 < 1` is
counted. -/
theorem calculate_populations_negative_radius_counts :
    ((-1 : ℚ) ≤ 0) ∧
    calculate_populations_single coords_pair 2 1 (-1) 1 = [3, 3] ∧
    calculate_populations_single coords_pair 1 1 (-1) 1 = [2] ∧
    self_only_count 1 = 2 := by
  decide!

/-- C21 (amended): for every coordinate matrix and the radius `0`,
`calculate_populations` returns for every row the count of a row without any
neighbour (on one node this is `2`); a negative radius `-r` is squared and gives
the counts of the radius `r`. -/
theorem calculate_populations_zero_radius :
    (∀ (coords : Nat → ℚ) (n_rows n_cols mpi_n_nodes : Nat),
      calculate_populations_single coords n_rows n_cols 0 mpi_n_nodes =
        List.replicate n_rows (self_only_count mpi_n_nodes)) ∧
    self_only_count 1 = 2 ∧
    (∀ (coords : Nat → ℚ) (n_rows n_cols mpi_n_nodes : Nat) (r : ℚ),
      calculate_populations_single coords n_rows n_cols (-r) mpi_n_nodes =
        calculate_populations_single coords n_rows n_cols r mpi_n_nodes) := by
  refine ⟨?_, by decide, ?_⟩
  · intro coords n_rows n_cols mpi_n_nodes
    rw [calculate_populations_single_eq, merged_radius_populations_zero]
  · intro coords n_rows n_cols mpi_n_nodes r
    rw [calculate_populations_single_eq, calculate_populations_single_eq,
      merged_radius_populations_neg]

/-- C30 (counterexample): for the rows `0`, `0.5`, `3.0` and the radii list
`[1, -3]` on one node the vector of the radius `-3` is `[3, 3, 2]`, while the
single-radius call for `-3` returns `[3, 4, 3]`: the radii are sorted by value and
the loop over them stops at the first miss, so the pair at squared distance
`6.25` is not counted for `-3` after it missed the radius `1`. For the rows `0`,
`0.5` and the list `[1, 1]` the vector of the radius `1` is `[4, 4]`, the
single-radius call returns `[3, 3]`. -/
theorem calculate_populations_depends_on_other_radii :
    (calculate_populations coords_S1 3 1 [1, -3] 1).get (-3) [] = [3, 3, 2] ∧
    calculate_populations_single coords_S1 3 1 (-3) 1 = [3, 4, 3] ∧
    (calculate_populations coords_pair 2 1 [1, 1] 1).get 1 [] = [4, 4] ∧
    calculate_populations_single coords_pair 2 1 1 1 = [3, 3] := by
  decide!

/-- C30 (amended): for every radii list of pairwise distinct, non-negative radii
and every radius `r` of the list, the population vector that the multi-radius
`calculate_populations` returns for `r` equals the result of the single-radius
call for `r`, on the same number of nodes. -/
theorem calculate_populations_radius_independent (coords : Nat → ℚ) (n_rows n_cols : Nat)
    (radii : List ℚ) (mpi_n_nodes : Nat) (r : ℚ) (hnodup : radii.Nodup)
    (hnonneg : ∀ x ∈ radii, 0 ≤ x) (hr : r ∈ radii) :
    (calculate_populations coords n_rows n_cols radii mpi_n_nodes).get r [] =
      calculate_populations_single coords n_rows n_cols r mpi_n_nodes := by
  rw [calculate_populations_single_eq]
  exact calculate_populations_get coords n_rows n_cols radii mpi_n_nodes r hnodup hr
    (fun x _ hx => mul_self_le_mul_self (hnonneg r hr) hx)

theorem calculate_populations_radius_independent_witness :
    (calculate_populations coords_S1 3 1 [1, 2, 4] 2).get 2 [] =
      calculate_populations_single coords_S1 3 1 2 2 :=
  calculate_populations_radius_independent coords_S1 3 1 [1, 2, 4] 2 2 (by decide!)
    (by decide!) (by decide!)

end Density

namespace MPP

theorem foldl_max_ge (l : List Nat) (a : Nat) :
    a ≤ l.foldl max a ∧ ∀ t ∈ l, t ≤ l.foldl max a := by
  induction l generalizing a with
  | nil => simp
  | cons x l ih =>
    simp only [List.foldl_cons, List.mem_cons]
    refine ⟨le_trans (le_max_left a x) (ih (max a x)).1, ?_⟩
    rintro t (rfl | ht)
    · exact le_trans (le_max_right a t) (ih (max a t)).1
    · exact (ih (max a x)).2 t ht

theorem transition_counts_loop_spec (trajectory concat_limits : List Nat) (n_lag_steps m : Nat)
    (hlag : 1 ≤ n_lag_steps) (hm : ∀ t ∈ trajectory, t ≤ m) :
    ∀ (n i : Nat) (next_limit : List Nat) (M : SparseMatrixF),
      i + n + n_lag_steps ≤ trajectory.length →
      next_limit.Pairwise (· < ·) →
      (∀ c ∈ next_limit, i < c) →
      (∀ c ∈ concat_limits, c ∈ next_limit ∨ c ≤ i) →
      (∀ c ∈ next_limit, c ∈ concat_limits) →
      M.size1 = m + 1 → M.size2 = m + 1 →
      ∃ M', transition_counts_loop trajectory n_lag_steps n i next_limit M = .ok M' ∧
        M'.size1 = m + 1 ∧ M'.size2 = m + 1 ∧
        ∀ a b, M'.data a b = M.data a b +
          (((List.range' i n).filter
            (fun k => decide (trajectory[k]? = some a ∧ trajectory[k + n_lag_steps]? = some b ∧
              ∀ c ∈ concat_limits, ¬ (k < c ∧ c ≤ k + n_lag_steps)))).length : ℚ) := by
  intro n
  induction n with
  | zero =>
    intro i next_limit M _ _ _ _ _ h1 h2
    exact ⟨M, rfl, h1, h2, by simp⟩
  | succ n ih =>
    intro i next_limit M hlen hpw hgt hcov hsub h1 h2
    have hi : i < trajectory.length := by omega
    have hil : i + n_lag_steps < trajectory.length := by omega
    have hfm : trajectory[i] ≤ m := hm _ (List.getElem_mem _)
    have htm : trajectory[i + n_lag_steps] ≤ m := hm _ (List.getElem_mem _)
    have hadd : M.add_at trajectory[i] trajectory[i + n_lag_steps] 1 =
        .ok (M.set trajectory[i] trajectory[i + n_lag_steps]
          (M.data trajectory[i] trajectory[i + n_lag_steps] + 1)) := by
      unfold SparseMatrixF.add_at
      rw [if_pos]
      rw [h1, h2]; omega
    have hcount : ∀ (allowed : Prop) [Decidable allowed]
        (_ : allowed ↔ ∀ c ∈ concat_limits, ¬ (i < c ∧ c ≤ i + n_lag_steps)) (a b : Nat),
        (((List.range' i (n + 1)).filter
            (fun k => decide (trajectory[k]? = some a ∧ trajectory[k + n_lag_steps]? = some b ∧
              ∀ c ∈ concat_limits, ¬ (k < c ∧ c ≤ k + n_lag_steps)))).length : ℚ) =
        (if trajectory[i] = a ∧ trajectory[i + n_lag_steps] = b ∧ allowed then 1 else 0) +
        (((List.range' (i + 1) n).filter
            (fun k => decide (trajectory[k]? = some a ∧ trajectory[k + n_lag_steps]? = some b ∧
              ∀ c ∈ concat_limits, ¬ (k < c ∧ c ≤ k + n_lag_steps)))).length : ℚ) := by
      intro allowed _ hall a b
      rw [List.range'_succ, List.filter_cons]
      simp only [List.getElem?_eq_getElem hi, List.getElem?_eq_getElem hil, Option.some.injEq]
      by_cases hc : trajectory[i] = a ∧ trajectory[i + n_lag_steps] = b ∧ allowed
      · have hd : trajectory[i] = a ∧ trajectory[i + n_lag_steps] = b ∧
            ∀ c ∈ concat_limits, ¬ (i < c ∧ c ≤ i + n_lag_steps) :=
          ⟨hc.1, hc.2.1, hall.mp hc.2.2⟩
        rw [if_pos (decide_eq_true hd), if_pos hc, List.length_cons]
        push_cast; ring
      · have hd : ¬ (trajectory[i] = a ∧ trajectory[i + n_lag_steps] = b ∧
            ∀ c ∈ concat_limits, ¬ (i < c ∧ c ≤ i + n_lag_steps)) :=
          fun h => hc ⟨h.1, h.2.1, hall.mpr h.2.2⟩
        rw [if_neg (by rw [decide_eq_true_eq]; exact hd), if_neg hc, zero_add]
    rw [transition_counts_loop]
    simp only [List.getElem?_eq_getElem hi, List.getElem?_eq_getElem hil]
    cases next_limit with
    | nil =>
      have hallowed : ∀ c ∈ concat_limits, ¬ (i < c ∧ c ≤ i + n_lag_steps) := by
        intro c hc
        rcases hcov c hc with h | h
        · simp at h
        · omega
      simp only [hadd]
      obtain ⟨M', hM', hs1, hs2, hdata⟩ := ih (i + 1) [] _ (by omega) List.Pairwise.nil
        (by simp) (by intro c hc; rcases hcov c hc with h | h; · simp at h
                      · right; omega) (by simp)
        (show (M.set trajectory[i] trajectory[i + n_lag_steps]
          (M.data trajectory[i] trajectory[i + n_lag_steps] + 1)).size1 = m + 1 from h1)
        (show (M.set trajectory[i] trajectory[i + n_lag_steps]
          (M.data trajectory[i] trajectory[i + n_lag_steps] + 1)).size2 = m + 1 from h2)
      refine ⟨M', hM', hs1, hs2, ?_⟩
      intro a b
      rw [hdata a b, hcount True ⟨fun _ => hallowed, fun _ => trivial⟩ a b]
      simp only [SparseMatrixF.set, and_true]
      by_cases hab : a = trajectory[i] ∧ b = trajectory[i + n_lag_steps]
      · obtain ⟨rfl, rfl⟩ := hab
        simp; ring
      · have hab' : ¬ (trajectory[i] = a ∧ trajectory[i + n_lag_steps] = b) :=
          fun h => hab ⟨h.1.symm, h.2.symm⟩
        simp [hab, hab']
    | cons limit rest =>
      have hlim : i < limit := hgt limit (List.mem_cons_self _ _)
      have hrest : ∀ c ∈ rest, limit < c := (List.pairwise_cons.mp hpw).1
      by_cases hA : i + n_lag_steps < limit
      · have hallowed : ∀ c ∈ concat_limits, ¬ (i < c ∧ c ≤ i + n_lag_steps) := by
          intro c hc
          rcases hcov c hc with h | h
          · rcases List.mem_cons.mp h with rfl | h'
            · omega
            · have := hrest c h'; omega
          · omega
        simp only [hA, if_true, hadd]
        obtain ⟨M', hM', hs1, hs2, hdata⟩ := ih (i + 1) (limit :: rest) _ (by omega) hpw
          (by intro c hc
              rcases List.mem_cons.mp hc with rfl | h'
              · omega
              · have := hrest c h'; omega)
          (by intro c hc; rcases hcov c hc with h | h
              · left; exact h
              · right; omega) hsub
          (show (M.set trajectory[i] trajectory[i + n_lag_steps]
            (M.data trajectory[i] trajectory[i + n_lag_steps] + 1)).size1 = m + 1 from h1)
          (show (M.set trajectory[i] trajectory[i + n_lag_steps]
            (M.data trajectory[i] trajectory[i + n_lag_steps] + 1)).size2 = m + 1 from h2)
        refine ⟨M', hM', hs1, hs2, ?_⟩
        intro a b
        rw [hdata a b, hcount True ⟨fun _ => hallowed, fun _ => trivial⟩ a b]
        simp only [SparseMatrixF.set, and_true]
        by_cases hab : a = trajectory[i] ∧ b = trajectory[i + n_lag_steps]
        · obtain ⟨rfl, rfl⟩ := hab
          simp; ring
        · have hab' : ¬ (trajectory[i] = a ∧ trajectory[i + n_lag_steps] = b) :=
            fun h => hab ⟨h.1.symm, h.2.symm⟩
          simp [hab, hab']
      · have hblocked : ¬ ∀ c ∈ concat_limits, ¬ (i < c ∧ c ≤ i + n_lag_steps) := by
          intro h
          exact h limit (hsub limit (List.mem_cons_self _ _)) ⟨hlim, by omega⟩
        simp only [hA, if_false]
        by_cases hB : i + 1 = limit
        · simp only [hB, if_true]
          obtain ⟨M', hM', hs1, hs2, hdata⟩ := ih (i + 1) rest M (by omega)
            (List.pairwise_cons.mp hpw).2
            (by intro c hc; have := hrest c hc; omega)
            (by intro c hc; rcases hcov c hc with h | h
                · rcases List.mem_cons.mp h with rfl | h'
                  · right; omega
                  · left; exact h'
                · right; omega)
            (fun c hc => hsub c (List.mem_cons_of_mem _ hc)) h1 h2
          refine ⟨M', by rw [← hB]; exact hM', hs1, hs2, ?_⟩
          intro a b
          rw [hdata a b, hcount False ⟨False.elim, hblocked⟩ a b]
          simp
        · simp only [hB, if_false]
          obtain ⟨M', hM', hs1, hs2, hdata⟩ := ih (i + 1) (limit :: rest) M (by omega) hpw
            (by intro c hc
                rcases List.mem_cons.mp hc with rfl | h'
                · omega
                · have := hrest c h'; omega)
            (by intro c hc; rcases hcov c hc with h | h
                · left; exact h
                · right; omega) hsub h1 h2
          refine ⟨M', hM', hs1, hs2, ?_⟩
          intro a b
          rw [hdata a b, hcount False ⟨False.elim, hblocked⟩ a b]
          simp

theorem transition_counts_admissible (trajectory concat_limits : List Nat)
    (n_lag_steps i_max : Nat)
    (hlag : 1 ≤ n_lag_steps) (hlen : n_lag_steps ≤ trajectory.length)
    (hsize : trajectory.length < 2 ^ 64)
    (hsorted : concat_limits.Pairwise (· < ·))
    (hlimits : ∀ c ∈ concat_limits, 1 ≤ c ∧ c ≤ trajectory.length)
    (hmax : i_max = 0 ∨ ∀ t ∈ trajectory, t ≤ i_max) :
    ∃ M, transition_counts trajectory concat_limits n_lag_steps i_max = .ok M ∧
      ∀ a b, M.data a b = (allowed_transitions trajectory concat_limits n_lag_steps a b : ℚ) := by
  have hne : trajectory ≠ [] := by
    intro h; rw [h] at hlen; simp at hlen; omega
  have hbound : (trajectory.length + 2 ^ 64 - n_lag_steps) % 2 ^ 64 =
      trajectory.length - n_lag_steps := by omega
  have hm : ∀ t ∈ trajectory, t ≤ (if i_max = 0 then trajectory.foldl max 0 else i_max) := by
    intro t ht
    by_cases h0 : i_max = 0
    · rw [if_pos h0]; exact (foldl_max_ge trajectory 0).2 t ht
    · rw [if_neg h0]
      rcases hmax with h | h
      · exact absurd h h0
      · exact h t ht
  obtain ⟨M, hM, _, _, hdata⟩ := transition_counts_loop_spec trajectory concat_limits n_lag_steps
    (if i_max = 0 then trajectory.foldl max 0 else i_max) hlag hm
    (trajectory.length - n_lag_steps) 0 concat_limits
    (SparseMatrixF.zero ((if i_max = 0 then trajectory.foldl max 0 else i_max) + 1)
      ((if i_max = 0 then trajectory.foldl max 0 else i_max) + 1))
    (by omega) hsorted (fun c hc => (hlimits c hc).1) (fun c hc => Or.inl hc) (fun c hc => hc)
    rfl rfl
  refine ⟨M, ?_, ?_⟩
  · unfold transition_counts
    rw [if_neg (by omega), if_neg (fun h => hne h.2), hbound]
    exact hM
  · intro a b
    rw [hdata a b]
    simp only [SparseMatrixF.zero, zero_add, allowed_transitions, List.range_eq_range']

/-- C5 (counterexample): for `T = [1,1,2,2,1]`, `τ = 1` and the boundary list `[2]`
the entry `M[2,1]` is `1`, not zero: the transition from position `3` to position
`4` lies behind the boundary and is counted. -/
theorem boundary_scenario_counts_two_to_one :
    (transition_counts [1, 1, 2, 2, 1] [2] 1 0).toOption.map (fun M => M.data 2 1) = some 1 ∧
    (transition_counts [1, 1, 2, 2, 1] [2] 1 0).toOption.map SparseMatrixF.toLists ≠
      some [[0, 0, 0], [0, 1, 0], [0, 0, 1]] := by
  decide!

/-- C5 (amended): for `T = [1,1,2,2,1]`, `τ = 1` and the boundary list `[2]`,
`transition_counts` returns the 3×3 count matrix whose non-zero entries are
exactly `M[1,1] = 1`, `M[2,1] = 1` and `M[2,2] = 1`. -/
theorem transition_counts_S4 :
    (transition_counts [1, 1, 2, 2, 1] [2] 1 0).toOption.map
        (fun M => (M.size1, M.size2, M.toLists)) =
      some (3, 3, [[0, 0, 0], [0, 1, 0], [0, 1, 1]]) := by
  decide!

theorem row_sum_of_counts (M : SparseMatrixF) (i : Nat)
    (hM : ∀ j, ∃ c : ℕ, M.data i j = c) :
    (row_sum M i : ℚ) = ∑ k in Finset.range M.size2, M.data i k := by
  unfold row_sum
  induction M.size2 with
  | zero => simp
  | succ n ih =>
    rw [List.range_succ, List.foldl_append, Finset.sum_range_succ, ← ih]
    obtain ⟨c, hc⟩ := hM n
    simp only [List.foldl_cons, List.foldl_nil, hc]
    rw [← Nat.cast_add, Int.floor_natCast, Int.toNat_natCast]

theorem normalize_row_data (M : SparseMatrixF) (i : Nat) (r : ℚ) (a b : Nat) :
    ∀ (cols : List Nat) (tm : SparseMatrixF),
      (cols.foldl
        (fun transition_matrix j =>
          if M.data i j ≠ 0 then transition_matrix.set i j (M.data i j / r)
          else transition_matrix) tm).data a b =
        if a = i ∧ b ∈ cols ∧ M.data i b ≠ 0 then M.data i b / r else tm.data a b := by
  intro cols
  induction cols with
  | nil => intro tm; simp
  | cons c cols ih =>
    intro tm
    rw [List.foldl_cons, ih]
    by_cases h1 : a = i ∧ b ∈ cols ∧ M.data i b ≠ 0
    · rw [if_pos h1, if_pos ⟨h1.1, List.mem_cons_of_mem _ h1.2.1, h1.2.2⟩]
    · rw [if_neg h1]
      by_cases h2 : M.data i c ≠ 0
      · rw [if_pos h2]
        by_cases h3 : a = i ∧ b = c
        · obtain ⟨rfl, rfl⟩ := h3
          simp [SparseMatrixF.set, h2]
        · have h4 : ¬ (a = i ∧ b ∈ c :: cols ∧ M.data i b ≠ 0) := by
            rintro ⟨ha, hb, hn⟩
            rcases List.mem_cons.mp hb with rfl | hb'
            · exact h3 ⟨ha, rfl⟩
            · exact h1 ⟨ha, hb', hn⟩
          rw [if_neg h4]
          simp [SparseMatrixF.set, h3]
      · rw [if_neg h2]
        have h4 : ¬ (a = i ∧ b ∈ c :: cols ∧ M.data i b ≠ 0) := by
          rintro ⟨ha, hb, hn⟩
          rcases List.mem_cons.mp hb with rfl | hb'
          · exact h2 hn
          · exact h1 ⟨ha, hb', hn⟩
        rw [if_neg h4]

theorem normalize_rows_data (M : SparseMatrixF) (a b : Nat) :
    ∀ (names : List Nat) (tm : SparseMatrixF),
      (names.foldl
        (fun transition_matrix i =>
          if row_sum M i > 0 then
            (List.range M.size2).foldl
              (fun transition_matrix j =>
                if M.data i j ≠ 0 then
                  transition_matrix.set i j (M.data i j / (row_sum M i : ℚ))
                else transition_matrix)
              transition_matrix
          else transition_matrix) tm).data a b =
        if a ∈ names ∧ 0 < row_sum M a ∧ b < M.size2 ∧ M.data a b ≠ 0 then
          M.data a b / (row_sum M a : ℚ)
        else tm.data a b := by
  intro names
  induction names with
  | nil => intro tm; simp
  | cons i names ih =>
    intro tm
    rw [List.foldl_cons, ih]
    by_cases h1 : a ∈ names ∧ 0 < row_sum M a ∧ b < M.size2 ∧ M.data a b ≠ 0
    · rw [if_pos h1, if_pos ⟨List.mem_cons_of_mem _ h1.1, h1.2⟩]
    · rw [if_neg h1]
      by_cases h2 : row_sum M i > 0
      · rw [if_pos h2, normalize_row_data]
        by_cases h3 : a = i ∧ b ∈ List.range M.size2 ∧ M.data i b ≠ 0
        · obtain ⟨rfl, hb, hn⟩ := h3
          rw [if_pos ⟨rfl, hb, hn⟩,
            if_pos ⟨List.mem_cons_self _ _, h2, List.mem_range.mp hb, hn⟩]
        · rw [if_neg h3]
          have h4 : ¬ (a ∈ i :: names ∧ 0 < row_sum M a ∧ b < M.size2 ∧ M.data a b ≠ 0) := by
            rintro ⟨ha, hr, hb, hn⟩
            rcases List.mem_cons.mp ha with rfl | ha'
            · exact h3 ⟨rfl, List.mem_range.mpr hb, hn⟩
            · exact h1 ⟨ha', hr, hb, hn⟩
          rw [if_neg h4]
      · rw [if_neg h2]
        have h4 : ¬ (a ∈ i :: names ∧ 0 < row_sum M a ∧ b < M.size2 ∧ M.data a b ≠ 0) := by
          rintro ⟨ha, hr, hb, hn⟩
          rcases List.mem_cons.mp ha with rfl | ha'
          · exact h2 hr
          · exact h1 ⟨ha', hr, hb, hn⟩
        rw [if_neg h4]

theorem row_normalized_data (M : SparseMatrixF) (names : List Nat) (a b : Nat) :
    (row_normalized_transition_probabilities M names).data a b =
      if a ∈ names ∧ 0 < row_sum M a ∧ b < M.size2 ∧ M.data a b ≠ 0 then
        M.data a b / (row_sum M a : ℚ)
      else 0 := by
  unfold row_normalized_transition_probabilities
  exact normalize_rows_data M a b names _

/-- C6 (the code departs from the claim): for the 1×2 matrix with both entries
`1.5` and `names = {0}` the result has `P[0,0] = 0.75`, not
`M[0,0] / Σ_k M[0,k] = 0.5`: the row sum is accumulated in a `std::size_t` and each
partial sum is truncated (`0 + 1.5 → 1`, `1 + 1.5 → 2`), so the divisor is `2`
instead of `3`. -/
theorem row_normalized_truncates_fractional_sum :
    (∀ i j, 0 ≤ matrix_three_halves.data i j) ∧
    row_sum matrix_three_halves 0 = 2 ∧
    (row_normalized_transition_probabilities matrix_three_halves [0]).data 0 0 = 3 / 4 ∧
    matrix_three_halves.data 0 0 /
      (matrix_three_halves.data 0 0 + matrix_three_halves.data 0 1) = 1 / 2 ∧
    (row_normalized_transition_probabilities matrix_three_halves [0]).data 0 0 ≠
      matrix_three_halves.data 0 0 /
        (matrix_three_halves.data 0 0 + matrix_three_halves.data 0 1) := by
  refine ⟨fun _ _ => ?_, by decide!, by decide!, by decide!, by decide!⟩
  show (0 : ℚ) ≤ 3 / 2
  norm_num

/-- On a matrix of counts (every entry a natural number) the integer row sum is
exact: `P[i,j] = M[i,j] / Σ_k M[i,k]` for every `i ∈ names` whose row sum is not
zero, the row is zero when the sum is zero, and every row outside `names` is
zero. -/
theorem normalized_rows_of_counts (M : SparseMatrixF) (names : List Nat)
    (hM : ∀ i j, ∃ c : ℕ, M.data i j = c) :
    (∀ i ∈ names, (∑ k in Finset.range M.size2, M.data i k) ≠ 0 → ∀ j < M.size2,
      (row_normalized_transition_probabilities M names).data i j =
        M.data i j / ∑ k in Finset.range M.size2, M.data i k) ∧
    (∀ i ∈ names, (∑ k in Finset.range M.size2, M.data i k) = 0 → ∀ j,
      (row_normalized_transition_probabilities M names).data i j = 0) ∧
    (∀ i, i ∉ names → ∀ j, (row_normalized_transition_probabilities M names).data i j = 0) := by
  refine ⟨?_, ?_, ?_⟩
  · intro i hi hsum j hj
    have hrs := row_sum_of_counts M i (hM i)
    have hpos : 0 < row_sum M i := by
      rcases Nat.eq_zero_or_pos (row_sum M i) with h | h
      · rw [h] at hrs; exact absurd hrs.symm hsum
      · exact h
    rw [row_normalized_data, ← hrs]
    by_cases h0 : M.data i j = 0
    · rw [if_neg (fun h => h.2.2.2 h0), h0, zero_div]
    · rw [if_pos ⟨hi, hpos, hj, h0⟩]
  · intro i _ hsum j
    have hrs := row_sum_of_counts M i (hM i)
    rw [hsum] at hrs
    have h0 : row_sum M i = 0 := by exact_mod_cast hrs
    rw [row_normalized_data, if_neg]
    rintro ⟨_, hpos, _⟩
    omega
  · intro i hi j
    rw [row_normalized_data, if_neg (fun h => hi h.1)]

theorem add_at_one_counts (M M1 : SparseMatrixF) (i j : Nat)
    (hM : ∀ a b, ∃ c : ℕ, M.data a b = c) (h : M.add_at i j 1 = .ok M1) :
    ∀ a b, ∃ c : ℕ, M1.data a b = c := by
  unfold SparseMatrixF.add_at at h
  split at h
  · injection h with h
    subst h
    intro a b
    obtain ⟨c, hc⟩ := hM a b
    obtain ⟨c', hc'⟩ := hM i j
    by_cases hab : a = i ∧ b = j
    · exact ⟨c' + 1, by simp [SparseMatrixF.set, hab, hc']⟩
    · exact ⟨c, by simp [SparseMatrixF.set, hab, hc]⟩
  · cases h

theorem transition_counts_loop_counts (trajectory : List Nat) (n_lag_steps : Nat) :
    ∀ (n i : Nat) (next_limit : List Nat) (M M' : SparseMatrixF),
      (∀ a b, ∃ c : ℕ, M.data a b = c) →
      transition_counts_loop trajectory n_lag_steps n i next_limit M = .ok M' →
      ∀ a b, ∃ c : ℕ, M'.data a b = c := by
  intro n
  induction n with
  | zero =>
    intro i next_limit M M' hM h
    rw [transition_counts_loop] at h
    injection h with h
    subst h
    exact hM
  | succ n ih =>
    intro i next_limit M M' hM h
    rw [transition_counts_loop] at h
    split at h
    · split at h
      · split at h
        · split at h
          · rename_i M1 hadd
            exact ih _ _ _ _ (add_at_one_counts M M1 _ _ hM hadd) h
          · cases h
        · split at h
          · exact ih _ _ _ _ hM h
          · exact ih _ _ _ _ hM h
      · split at h
        · rename_i M1 hadd
          exact ih _ _ _ _ (add_at_one_counts M M1 _ _ hM hadd) h
        · cases h
    · cases h

theorem transition_counts_counts (trajectory concat_limits : List Nat)
    (n_lag_steps i_max : Nat) (M : SparseMatrixF)
    (h : transition_counts trajectory concat_limits n_lag_steps i_max = .ok M) :
    ∀ a b, ∃ c : ℕ, M.data a b = c := by
  unfold transition_counts at h
  split at h
  · cases h
  · split at h
    · cases h
    · exact transition_counts_loop_counts trajectory n_lag_steps _ _ _ _ M
        (fun _ _ => ⟨0, by simp [SparseMatrixF.zero]⟩) h

theorem row_normalized_size2 (M : SparseMatrixF) (names : List Nat) :
    (row_normalized_transition_probabilities M names).size2 = M.size2 := by
  unfold row_normalized_transition_probabilities
  have inner : ∀ (i : Nat) (r : ℚ) (cols : List Nat) (tm : SparseMatrixF),
      (cols.foldl (fun transition_matrix j =>
        if M.data i j ≠ 0 then transition_matrix.set i j (M.data i j / r)
        else transition_matrix) tm).size2 = tm.size2 := by
    intro i r cols
    induction cols with
    | nil => intro tm; rfl
    | cons c cols ih =>
      intro tm
      rw [List.foldl_cons, ih]
      split <;> rfl
  have outer : ∀ (l : List Nat) (tm : SparseMatrixF),
      (l.foldl (fun transition_matrix i =>
        if row_sum M i > 0 then
          (List.range M.size2).foldl (fun transition_matrix j =>
            if M.data i j ≠ 0 then
              transition_matrix.set i j (M.data i j / (row_sum M i : ℚ))
            else transition_matrix) transition_matrix
        else transition_matrix) tm).size2 = tm.size2 := by
    intro l
    induction l with
    | nil => intro tm; rfl
    | cons c l ih =>
      intro tm
      rw [List.foldl_cons, ih]
      split
      · exact inner _ _ _ _
      · rfl
  exact outer names _

theorem row_normalized_stochastic_of_counts (M : SparseMatrixF) (names : List Nat)
    (hM : ∀ i j, ∃ c : ℕ, M.data i j = c) :
    (∀ i ∈ names, (∃ j, j < M.size2 ∧ 0 < M.data i j) →
      ∑ j in Finset.range (row_normalized_transition_probabilities M names).size2,
        (row_normalized_transition_probabilities M names).data i j = 1) ∧
    (∀ i j, 0 ≤ (row_normalized_transition_probabilities M names).data i j ∧
      (row_normalized_transition_probabilities M names).data i j ≤ 1) := by
  have hnn : ∀ i j, 0 ≤ M.data i j := by
    intro i j
    obtain ⟨c, hc⟩ := hM i j
    rw [hc]
    exact Nat.cast_nonneg c
  constructor
  · rintro i hi ⟨j, hj, hpos⟩
    have hle : M.data i j ≤ ∑ k in Finset.range M.size2, M.data i k :=
      Finset.single_le_sum (f := fun k => M.data i k) (fun k _ => hnn i k)
        (Finset.mem_range.mpr hj)
    have hsum : (∑ k in Finset.range M.size2, M.data i k) ≠ 0 :=
      ne_of_gt (lt_of_lt_of_le hpos hle)
    rw [row_normalized_size2]
    rw [Finset.sum_congr rfl (fun k hk =>
      (normalized_rows_of_counts M names hM).1 i hi hsum k (Finset.mem_range.mp hk))]
    rw [← Finset.sum_div]
    exact div_self hsum
  · intro i j
    rw [row_normalized_data]
    split
    · rename_i h
      have hrs := row_sum_of_counts M i (hM i)
      have hle : M.data i j ≤ ∑ k in Finset.range M.size2, M.data i k :=
        Finset.single_le_sum (f := fun k => M.data i k) (fun k _ => hnn i k)
          (Finset.mem_range.mpr h.2.2.1)
      have hpos : (0 : ℚ) < (row_sum M i : ℚ) := by exact_mod_cast h.2.1
      rw [← hrs] at hle
      exact ⟨div_nonneg (hnn i j) (le_of_lt hpos), (div_le_one hpos).mpr hle⟩
    · exact ⟨le_refl _, zero_le_one⟩

/-- C7: for every trajectory `T`, boundary list and lag `τ`, whenever
`M = transition_counts(T, climits, τ)` is returned (it is returned for
`1 ≤ τ ≤ |T|` and admissible boundaries) and `names = unique(T)`, every row
`i ∈ names` of `P = row_normalized_transition_probabilities(M, names)` that has at
least one counted outgoing transition sums to exactly `1`, and every entry of `P`
lies in `[0, 1]`. -/
theorem row_normalized_counts_stochastic (trajectory concat_limits : List Nat)
    (n_lag_steps : Nat) :
    (1 ≤ n_lag_steps → n_lag_steps ≤ trajectory.length → trajectory.length < 2 ^ 64 →
      concat_limits.Pairwise (· < ·) →
      (∀ c ∈ concat_limits, 1 ≤ c ∧ c ≤ trajectory.length) →
      ∃ M, transition_counts trajectory concat_limits n_lag_steps 0 = .ok M) ∧
    ∀ M, transition_counts trajectory concat_limits n_lag_steps 0 = .ok M →
      (∀ i ∈ std_set trajectory, (∃ j, j < M.size2 ∧ 0 < M.data i j) →
        ∑ j in Finset.range
            (row_normalized_transition_probabilities M (std_set trajectory)).size2,
          (row_normalized_transition_probabilities M (std_set trajectory)).data i j = 1) ∧
      (∀ i j, 0 ≤ (row_normalized_transition_probabilities M (std_set trajectory)).data i j ∧
        (row_normalized_transition_probabilities M (std_set trajectory)).data i j ≤ 1) := by
  constructor
  · intro h1 h2 h3 h4 h5
    obtain ⟨M, hM, _⟩ := transition_counts_admissible trajectory concat_limits n_lag_steps 0
      h1 h2 h3 h4 h5 (Or.inl rfl)
    exact ⟨M, hM⟩
  · intro M hM
    exact row_normalized_stochastic_of_counts M (std_set trajectory)
      (transition_counts_counts trajectory concat_limits n_lag_steps 0 M hM)

/-- C7 (witness): the statement at `T = [1,1,2,2,1]`, lag `1`, no boundaries, for
the row of state `1`, which has counted outgoing transitions. -/
theorem row_normalized_counts_stochastic_witness :
    (transition_counts [1, 1, 2, 2, 1] [] 1 0 =
        .ok ((transition_counts [1, 1, 2, 2, 1] [] 1 0).toOption.getD (SparseMatrixF.zero 0 0)) ∧
      1 ∈ std_set [1, 1, 2, 2, 1] ∧
      ∃ j, j < ((transition_counts [1, 1, 2, 2, 1] [] 1 0).toOption.getD
          (SparseMatrixF.zero 0 0)).size2 ∧
        0 < ((transition_counts [1, 1, 2, 2, 1] [] 1 0).toOption.getD
          (SparseMatrixF.zero 0 0)).data 1 j) ∧
    ∑ j in Finset.range
        (row_normalized_transition_probabilities
          ((transition_counts [1, 1, 2, 2, 1] [] 1 0).toOption.getD (SparseMatrixF.zero 0 0))
          (std_set [1, 1, 2, 2, 1])).size2,
      (row_normalized_transition_probabilities
        ((transition_counts [1, 1, 2, 2, 1] [] 1 0).toOption.getD (SparseMatrixF.zero 0 0))
        (std_set [1, 1, 2, 2, 1])).data 1 j = 1 :=
  ⟨⟨rfl, by decide, 1, by decide, by decide!⟩,
    ((row_normalized_counts_stochastic [1, 1, 2, 2, 1] [] 1).2 _ rfl).1 1 (by decide)
      ⟨1, by decide, by decide!⟩⟩

theorem transition_candidates_spec (P : SparseMatrixF) (i : Nat) (l : List Nat) :
    (((l.foldl
        (fun (st : List Nat × ℚ) j =>
          if i ≠ j then
            if P.data i j > st.2 then ([j], P.data i j)
            else if P.data i j = st.2 ∧ st.2 > 0 then (st.1 ++ [j], st.2)
            else st
          else st) ([], 0)) = ([], 0)) ∧ ∀ j ∈ l, j ≠ i → P.data i j ≤ 0) ∨
    (∃ cands mx, (l.foldl
        (fun (st : List Nat × ℚ) j =>
          if i ≠ j then
            if P.data i j > st.2 then ([j], P.data i j)
            else if P.data i j = st.2 ∧ st.2 > 0 then (st.1 ++ [j], st.2)
            else st
          else st) ([], 0)) = (cands, mx) ∧ 0 < mx ∧
      cands = l.filter (fun j => decide (j ≠ i ∧ P.data i j = mx)) ∧ cands ≠ [] ∧
      ∀ j ∈ l, j ≠ i → P.data i j ≤ mx) := by
  induction l using List.reverseRecOn with
  | nil => left; simp
  | append_singleton l j ih =>
    rw [List.foldl_append]
    simp only [List.foldl_cons, List.foldl_nil]
    by_cases hij : i = j
    · subst hij
      simp only [ne_eq, not_true_eq_false, if_false]
      rcases ih with ⟨h1, h2⟩ | ⟨cands, mx, h1, h2, h3, h4, h5⟩
      · left
        refine ⟨h1, ?_⟩
        intro k hk hki
        rcases List.mem_append.mp hk with h | h
        · exact h2 k h hki
        · simp at h; exact absurd h hki
      · right
        refine ⟨cands, mx, h1, h2, ?_, h4, ?_⟩
        · rw [h3, List.filter_append]; simp
        · intro k hk hki
          rcases List.mem_append.mp hk with h | h
          · exact h5 k h hki
          · simp at h; exact absurd h hki
    · have hji : j ≠ i := fun h => hij h.symm
      simp only [ne_eq, hij, not_false_eq_true, if_true]
      rcases ih with ⟨h1, h2⟩ | ⟨cands, mx, h1, h2, h3, h4, h5⟩
      · rw [h1]
        by_cases hgt : P.data i j > 0
        · right
          refine ⟨[j], P.data i j, by simp [hgt], hgt, ?_, by simp, ?_⟩
          · rw [List.filter_append]
            have hnone : l.filter (fun k => decide (k ≠ i ∧ P.data i k = P.data i j)) = [] := by
              rw [List.filter_eq_nil_iff]
              intro k hk
              simp only [decide_eq_true_eq, not_and]
              intro hki heq
              have := h2 k hk hki
              rw [heq] at this
              exact absurd hgt (not_lt.mpr this)
            rw [hnone]
            simp [hji]
          · intro k hk hki
            rcases List.mem_append.mp hk with h | h
            · exact le_trans (h2 k h hki) (le_of_lt hgt)
            · simp at h; rw [h]
        · left
          refine ⟨by simp [hgt], ?_⟩
          intro k hk hki
          rcases List.mem_append.mp hk with h | h
          · exact h2 k h hki
          · simp at h; rw [h]; exact not_lt.mp hgt
      · rw [h1]
        right
        by_cases hgt : P.data i j > mx
        · refine ⟨[j], P.data i j, by simp [hgt], lt_trans h2 hgt, ?_, by simp, ?_⟩
          · rw [List.filter_append]
            have hnone : l.filter (fun k => decide (k ≠ i ∧ P.data i k = P.data i j)) = [] := by
              rw [List.filter_eq_nil_iff]
              intro k hk
              simp only [decide_eq_true_eq, not_and]
              intro hki heq
              have := h5 k hk hki
              rw [heq] at this
              exact absurd hgt (not_lt.mpr this)
            rw [hnone]
            simp [hji]
          · intro k hk hki
            rcases List.mem_append.mp hk with h | h
            · exact le_trans (h5 k h hki) (le_of_lt hgt)
            · simp at h; rw [h]
        · by_cases heq : P.data i j = mx
          · refine ⟨cands ++ [j], mx, by simp [heq, h2], h2, ?_, by simp, ?_⟩
            · rw [List.filter_append, ← h3]
              simp [hji, heq]
            · intro k hk hki
              rcases List.mem_append.mp hk with h | h
              · exact h5 k h hki
              · simp at h; rw [h, heq]
          · refine ⟨cands, mx, by simp [hgt, heq], h2, ?_, h4, ?_⟩
            · rw [List.filter_append, ← h3]
              simp [heq]
            · intro k hk hki
              rcases List.mem_append.mp hk with h | h
              · exact h5 k h hki
              · simp at h; rw [h]; exact not_lt.mp hgt

theorem min_element_spec (value : Nat → ℚ) (c : Nat) (cs : List Nat) :
    ∃ l1 l2, c :: cs = l1 ++ min_element value c cs :: l2 ∧
      (∀ x ∈ l1, value (min_element value c cs) < value x) ∧
      (∀ x ∈ l2, value (min_element value c cs) ≤ value x) := by
  induction cs using List.reverseRecOn with
  | nil => exact ⟨[], [], rfl, by simp, by simp⟩
  | append_singleton cs y ih =>
    obtain ⟨l1, l2, hsplit, hl1, hl2⟩ := ih
    unfold min_element at *
    rw [List.foldl_append]
    simp only [List.foldl_cons, List.foldl_nil]
    by_cases hy : value y < value (cs.foldl
        (fun smallest x => if value x < value smallest then x else smallest) c)
    · rw [if_pos hy]
      refine ⟨c :: cs, [], by simp, ?_, by simp⟩
      intro x hx
      rw [hsplit] at hx
      rcases List.mem_append.mp hx with h | h
      · exact lt_trans hy (hl1 x h)
      · rcases List.mem_cons.mp h with rfl | h'
        · exact hy
        · exact lt_of_lt_of_le hy (hl2 x h')
    · rw [if_neg hy]
      refine ⟨l1, l2 ++ [y], ?_, hl1, ?_⟩
      · rw [← List.cons_append, hsplit]; simp
      · intro x hx
        rcases List.mem_append.mp hx with h | h
        · exact hl2 x h
        · simp at h; rw [h]; exact not_lt.mp hy

theorem future_state_of_stay (P : SparseMatrixF) (names : List Nat) (q_min : ℚ)
    (mfe : StdMap Nat ℚ) (i : Nat) (h : P.data i i ≥ q_min) :
    future_state_of P names q_min mfe i = some i := by
  simp [future_state_of, h]

theorem future_state_of_move (P : SparseMatrixF) (names : List Nat) (q_min : ℚ)
    (mfe : StdMap Nat ℚ) (i : Nat) (h : ¬ P.data i i ≥ q_min) :
    (future_state_of P names q_min mfe i = none ∧ ∀ j ∈ names, j ≠ i → P.data i j ≤ 0) ∨
    (∃ j, future_state_of P names q_min mfe i = some j ∧ j ∈ names ∧ j ≠ i ∧
      0 < P.data i j ∧
      (∀ k ∈ names, k ≠ i → P.data i k ≤ P.data i j) ∧
      (∀ k ∈ names, k ≠ i → P.data i k = P.data i j → mfe.get j 0 ≤ mfe.get k 0) ∧
      (names.Pairwise (· < ·) → ∀ k ∈ names, k ≠ i → P.data i k = P.data i j →
        mfe.get k 0 = mfe.get j 0 → j ≤ k)) := by
  unfold future_state_of transition_candidates
  rw [if_neg h]
  rcases transition_candidates_spec P i names with ⟨h1, h2⟩ | ⟨cands, mx, h1, h2, h3, h4, h5⟩
  · left
    rw [h1]
    exact ⟨rfl, h2⟩
  · right
    rw [h1]
    simp only []
    cases hc : cands with
    | nil => exact absurd hc h4
    | cons c cs =>
      have hmatch : (match c :: cs with
          | [] => none
          | [c] => some c
          | c :: cs => some (min_element (fun x => mfe.get x 0) c cs)) =
          some (min_element (fun x => mfe.get x 0) c cs) := by
        cases cs <;> rfl
      rw [hmatch]
      obtain ⟨l1, l2, hsplit, hl1, hl2⟩ := min_element_spec (fun x => mfe.get x 0) c cs
      generalize min_element (fun x => mfe.get x 0) c cs = r at *
      have hrmem : r ∈ cands := by rw [hc, hsplit]; simp
      have hmem : ∀ k, k ∈ cands ↔ k ∈ names ∧ k ≠ i ∧ P.data i k = mx := by
        intro k
        rw [h3, List.mem_filter]
        simp
      have hr := (hmem r).mp hrmem
      refine ⟨r, rfl, hr.1, hr.2.1, by rw [hr.2.2]; exact h2, ?_, ?_, ?_⟩
      · intro k hk hki
        rw [hr.2.2]
        exact h5 k hk hki
      · intro k hk hki heq
        have hkc : k ∈ cands := (hmem k).mpr ⟨hk, hki, by rw [heq, hr.2.2]⟩
        rw [hc, hsplit] at hkc
        rcases List.mem_append.mp hkc with h' | h'
        · exact le_of_lt (hl1 k h')
        · rcases List.mem_cons.mp h' with rfl | h''
          · exact le_refl _
          · exact hl2 k h''
      · intro hsorted k hk hki heq hfe
        have hkc : k ∈ cands := (hmem k).mpr ⟨hk, hki, by rw [heq, hr.2.2]⟩
        have hcs : (l1 ++ r :: l2).Pairwise (· < ·) := by
          rw [← hsplit, ← hc, h3]
          exact hsorted.sublist (List.filter_sublist _)
        rw [hc, hsplit] at hkc
        rcases List.mem_append.mp hkc with h' | h'
        · have := hl1 k h'
          simp only [] at this
          rw [hfe] at this
          exact absurd this (lt_irrefl _)
        · rcases List.mem_cons.mp h' with rfl | h''
          · exact le_refl _
          · exact le_of_lt ((List.pairwise_cons.mp (List.pairwise_append.mp hcs).2.1).1 k h'')

theorem future_state_of_none_iff (P : SparseMatrixF) (names : List Nat) (q_min : ℚ)
    (mfe : StdMap Nat ℚ) (i : Nat) :
    future_state_of P names q_min mfe i = none ↔
      P.data i i < q_min ∧ ∀ j ∈ names, j ≠ i → ¬ 0 < P.data i j := by
  by_cases h : P.data i i ≥ q_min
  · rw [future_state_of_stay P names q_min mfe i h]
    constructor
    · intro h'; cases h'
    · rintro ⟨h', _⟩; exact absurd h' (not_lt.mpr h)
  · rcases future_state_of_move P names q_min mfe i h with ⟨h1, h2⟩ | ⟨j, h1, h2, h3, h4, _⟩
    · rw [h1]
      exact ⟨fun _ => ⟨not_le.mp h, fun j hj hji => not_lt.mpr (h2 j hj hji)⟩, fun _ => rfl⟩
    · rw [h1]
      constructor
      · intro h'; cases h'
      · rintro ⟨_, h'⟩; exact absurd h4 (h' j h2 h3)

theorem future_state_loop_ok (P : SparseMatrixF) (names : List Nat) (q_min : ℚ)
    (mfe : StdMap Nat ℚ) :
    ∀ (l : List Nat) (fs : StdMap Nat Nat),
      (∀ i ∈ l, ∃ j, future_state_of P names q_min mfe i = some j) →
      future_state_loop P names q_min mfe l fs =
        .ok (l.foldl
          (fun m i => StdMap.insert i ((future_state_of P names q_min mfe i).getD 0) m) fs) := by
  intro l
  induction l with
  | nil => intro fs _; rfl
  | cons i rest ih =>
    intro fs h
    obtain ⟨j, hj⟩ := h i (List.mem_cons_self _ _)
    rw [future_state_loop, hj]
    simp only [List.foldl_cons, hj, Option.getD_some]
    exact ih _ (fun k hk => h k (List.mem_cons_of_mem _ hk))

theorem future_state_loop_of_ok (P : SparseMatrixF) (names : List Nat) (q_min : ℚ)
    (mfe : StdMap Nat ℚ) :
    ∀ (l : List Nat) (fs fut : StdMap Nat Nat),
      future_state_loop P names q_min mfe l fs = .ok fut →
      ∀ i ∈ l, ∃ j, future_state_of P names q_min mfe i = some j := by
  intro l
  induction l with
  | nil => intro fs fut _ i hi; simp at hi
  | cons a rest ih =>
    intro fs fut h i hi
    rw [future_state_loop] at h
    cases ha : future_state_of P names q_min mfe a with
    | none => rw [ha] at h; cases h
    | some j =>
      rw [ha] at h
      rcases List.mem_cons.mp hi with rfl | hi'
      · exact ⟨j, ha⟩
      · exact ih _ _ h i hi'

theorem future_state_loop_dead (P : SparseMatrixF) (names : List Nat) (q_min : ℚ)
    (mfe : StdMap Nat ℚ) :
    ∀ (l : List Nat) (fs : StdMap Nat Nat),
      (∃ i ∈ l, future_state_of P names q_min mfe i = none) →
      ∃ l1 i l2, l = l1 ++ i :: l2 ∧
        (∀ k ∈ l1, future_state_of P names q_min mfe k ≠ none) ∧
        future_state_of P names q_min mfe i = none ∧
        future_state_loop P names q_min mfe l fs = .error (.DeadState i) := by
  intro l
  induction l with
  | nil => intro fs h; obtain ⟨i, hi, _⟩ := h; simp at hi
  | cons a rest ih =>
    intro fs h
    cases ha : future_state_of P names q_min mfe a with
    | none =>
      refine ⟨[], a, rest, rfl, by simp, ha, ?_⟩
      rw [future_state_loop, ha]
    | some j =>
      have hrest : ∃ i ∈ rest, future_state_of P names q_min mfe i = none := by
        obtain ⟨i, hi, hnone⟩ := h
        rcases List.mem_cons.mp hi with rfl | hi'
        · rw [ha] at hnone; cases hnone
        · exact ⟨i, hi', hnone⟩
      obtain ⟨l1, i, l2, hsplit, hl1, hi, hloop⟩ := ih (StdMap.insert a j fs) hrest
      refine ⟨a :: l1, i, l2, by rw [hsplit]; rfl, ?_, hi, ?_⟩
      · intro k hk
        rcases List.mem_cons.mp hk with rfl | hk'
        · rw [ha]; simp
        · exact hl1 k hk'
      · rw [future_state_loop, ha]
        exact hloop

theorem single_step_future_state_find (P : SparseMatrixF) (names : List Nat) (q_min : ℚ)
    (mfe : StdMap Nat ℚ) (future : StdMap Nat Nat)
    (hok : single_step_future_state P names q_min mfe = .ok future) (i : Nat)
    (hi : i ∈ names) :
    ∃ j, future_state_of P names q_min mfe i = some j ∧ future.find i = some j := by
  unfold single_step_future_state at hok
  have hall := future_state_loop_of_ok P names q_min mfe names [] future hok
  rw [future_state_loop_ok P names q_min mfe names [] hall] at hok
  injection hok with hok
  obtain ⟨j, hj⟩ := hall i hi
  refine ⟨j, hj, ?_⟩
  rw [← hok, StdMap.find_foldl_insert
    (fun i => (future_state_of P names q_min mfe i).getD 0), if_pos hi, hj]
  rfl

/-- C8: whenever `single_step_future_state` succeeds, for every `i ∈ names` (a set,
iterated in ascending order): if `P[i,i] ≥ q_min` then `future[i] = i`; otherwise
`future[i]` is a state `j ≠ i` in `names` with `P[i,j] > 0` maximal over all
`j ≠ i` in `names`, and among the states tied at that maximum it is the one with
the smallest `min_F[j]`, remaining ties going to the smallest index. -/
theorem single_step_future_state_choice (P : SparseMatrixF) (names : List Nat) (q_min : ℚ)
    (min_free_energy : StdMap Nat ℚ) (future : StdMap Nat Nat)
    (hsorted : names.Pairwise (· < ·))
    (hok : single_step_future_state P names q_min min_free_energy = .ok future) :
    ∀ i ∈ names,
      (P.data i i ≥ q_min → future.find i = some i) ∧
      (P.data i i < q_min →
        ∃ j, future.find i = some j ∧ j ≠ i ∧ j ∈ names ∧ 0 < P.data i j ∧
          (∀ k ∈ names, k ≠ i → P.data i k ≤ P.data i j) ∧
          (∀ k ∈ names, k ≠ i → P.data i k = P.data i j →
            min_free_energy.get j 0 ≤ min_free_energy.get k 0) ∧
          (∀ k ∈ names, k ≠ i → P.data i k = P.data i j →
            min_free_energy.get k 0 = min_free_energy.get j 0 → j ≤ k)) := by
  intro i hi
  obtain ⟨j, hj, hfind⟩ := single_step_future_state_find P names q_min min_free_energy future
    hok i hi
  constructor
  · intro hstay
    rw [future_state_of_stay P names q_min min_free_energy i hstay] at hj
    rw [hfind, ← hj]
  · intro hmove
    rcases future_state_of_move P names q_min min_free_energy i (not_le.mpr hmove) with
      ⟨h1, _⟩ | ⟨j', h1, h2, h3, h4, h5, h6, h7⟩
    · rw [h1] at hj; cases hj
    · rw [h1] at hj
      injection hj with hj
      subst hj
      exact ⟨j', hfind, h3, h2, h4, h5, h6, h7 hsorted⟩

/-- C8 (witness): the statement at the two-state scenario, for state `2`, whose
self-transition `0.8` is below `q_min = 0.85`. -/
theorem single_step_future_state_choice_witness :
    ([1, 2].Pairwise (· < ·) ∧
      single_step_future_state P_S5 [1, 2] (17 / 20) [(1, 0), (2, 1)] = .ok [(1, 1), (2, 1)] ∧
      2 ∈ [1, 2] ∧ P_S5.data 2 2 < 17 / 20) ∧
    ∃ j, StdMap.find [(1, 1), (2, 1)] 2 = some j ∧ j ≠ 2 ∧ j ∈ [1, 2] ∧ 0 < P_S5.data 2 j ∧
      (∀ k ∈ [1, 2], k ≠ 2 → P_S5.data 2 k ≤ P_S5.data 2 j) ∧
      (∀ k ∈ [1, 2], k ≠ 2 → P_S5.data 2 k = P_S5.data 2 j →
        StdMap.get [(1, (0 : ℚ)), (2, 1)] j 0 ≤ StdMap.get [(1, (0 : ℚ)), (2, 1)] k 0) ∧
      (∀ k ∈ [1, 2], k ≠ 2 → P_S5.data 2 k = P_S5.data 2 j →
        StdMap.get [(1, (0 : ℚ)), (2, 1)] k 0 = StdMap.get [(1, (0 : ℚ)), (2, 1)] j 0 → j ≤ k) :=
  ⟨⟨by decide, by decide!, by decide, by decide!⟩,
    ((single_step_future_state_choice P_S5 [1, 2] (17 / 20) [(1, 0), (2, 1)] [(1, 1), (2, 1)]
      (by decide) (by decide!)) 2 (by decide)).2 (by decide!)⟩

/-- C9: `single_step_future_state` (on a set `names`, iterated in ascending order)
fails with a DeadState error if and only if some state `i ∈ names` has
`P[i,i] < q_min` and no state `j ≠ i` in `names` with `P[i,j] > 0`; the state
reported is the smallest such `i`, and in every other case a future state is
returned for every `i ∈ names`. -/
theorem single_step_future_state_dead_state (P : SparseMatrixF) (names : List Nat) (q_min : ℚ)
    (min_free_energy : StdMap Nat ℚ) (hsorted : names.Pairwise (· < ·)) :
    ((∃ i, single_step_future_state P names q_min min_free_energy = .error (.DeadState i)) ↔
      ∃ i ∈ names, P.data i i < q_min ∧ ∀ j ∈ names, j ≠ i → ¬ 0 < P.data i j) ∧
    (∀ i, single_step_future_state P names q_min min_free_energy = .error (.DeadState i) →
      i ∈ names ∧ (P.data i i < q_min ∧ ∀ j ∈ names, j ≠ i → ¬ 0 < P.data i j) ∧
      ∀ k ∈ names, (P.data k k < q_min ∧ ∀ j ∈ names, j ≠ k → ¬ 0 < P.data k j) → i ≤ k) ∧
    ((¬ ∃ i ∈ names, P.data i i < q_min ∧ ∀ j ∈ names, j ≠ i → ¬ 0 < P.data i j) →
      ∃ future, single_step_future_state P names q_min min_free_energy = .ok future ∧
        ∀ i ∈ names, ∃ j, future.find i = some j) := by
  have hdead : (∃ i ∈ names, P.data i i < q_min ∧ ∀ j ∈ names, j ≠ i → ¬ 0 < P.data i j) →
      ∃ i, single_step_future_state P names q_min min_free_energy = .error (.DeadState i) ∧
        i ∈ names ∧ (P.data i i < q_min ∧ ∀ j ∈ names, j ≠ i → ¬ 0 < P.data i j) ∧
        ∀ k ∈ names, (P.data k k < q_min ∧ ∀ j ∈ names, j ≠ k → ¬ 0 < P.data k j) → i ≤ k := by
    rintro ⟨i, hi, hd⟩
    obtain ⟨l1, d, l2, hsplit, hl1, hd', hloop⟩ :=
      future_state_loop_dead P names q_min min_free_energy names []
        ⟨i, hi, (future_state_of_none_iff P names q_min min_free_energy i).mpr hd⟩
    refine ⟨d, hloop, by rw [hsplit]; simp,
      (future_state_of_none_iff P names q_min min_free_energy d).mp hd', ?_⟩
    intro k hk hkd
    have hknone := (future_state_of_none_iff P names q_min min_free_energy k).mpr hkd
    rw [hsplit] at hk hsorted
    rcases List.mem_append.mp hk with h | h
    · exact absurd hknone (hl1 k h)
    · rcases List.mem_cons.mp h with rfl | h'
      · exact le_refl _
      · exact le_of_lt ((List.pairwise_cons.mp (List.pairwise_append.mp hsorted).2.1).1 k h')
  have halive : (¬ ∃ i ∈ names, P.data i i < q_min ∧ ∀ j ∈ names, j ≠ i → ¬ 0 < P.data i j) →
      ∃ future, single_step_future_state P names q_min min_free_energy = .ok future ∧
        ∀ i ∈ names, ∃ j, future.find i = some j := by
    intro hno
    have hall : ∀ i ∈ names, ∃ j, future_state_of P names q_min min_free_energy i = some j := by
      intro i hi
      cases hfs : future_state_of P names q_min min_free_energy i with
      | none =>
        exact absurd ⟨i, hi, (future_state_of_none_iff P names q_min min_free_energy i).mp hfs⟩
          hno
      | some j => exact ⟨j, rfl⟩
    have hok := future_state_loop_ok P names q_min min_free_energy names [] hall
    refine ⟨_, hok, ?_⟩
    intro i hi
    obtain ⟨j, _, hfind⟩ := single_step_future_state_find P names q_min min_free_energy _ hok i hi
    exact ⟨j, hfind⟩
  refine ⟨⟨?_, ?_⟩, ?_, halive⟩
  · rintro ⟨i, herr⟩
    by_contra hno
    obtain ⟨future, hok, _⟩ := halive hno
    rw [hok] at herr
    cases herr
  · intro h
    obtain ⟨i, herr, _⟩ := hdead h
    exact ⟨i, herr⟩
  · intro i herr
    have hex : ∃ i ∈ names, P.data i i < q_min ∧ ∀ j ∈ names, j ≠ i → ¬ 0 < P.data i j := by
      by_contra hno
      obtain ⟨future, hok, _⟩ := halive hno
      rw [hok] at herr
      cases herr
    obtain ⟨d, herr', hd⟩ := hdead hex
    rw [herr] at herr'
    injection herr' with herr'
    injection herr' with herr'
    subst herr'
    exact hd

/-- C9 (witness): the statement at the two-state scenario with `q_min = 0.85`, where
no state is dead and a future state is returned for both states, and with
`names = {2}` and `q_min = 0.85`, where state `2` has no other state to go to. -/
theorem single_step_future_state_dead_state_witness :
    ([1, 2].Pairwise (· < ·) ∧
      (¬ ∃ i ∈ [1, 2], P_S5.data i i < 17 / 20 ∧ ∀ j ∈ [1, 2], j ≠ i → ¬ 0 < P_S5.data i j)) ∧
    (∃ future, single_step_future_state P_S5 [1, 2] (17 / 20) [(1, 0), (2, 1)] = .ok future ∧
      ∀ i ∈ [1, 2], ∃ j, future.find i = some j) ∧
    ([2].Pairwise (· < ·) ∧
      single_step_future_state P_S5 [2] (17 / 20) [(1, 0), (2, 1)] = .error (.DeadState 2)) ∧
    (2 ∈ [2] ∧ (P_S5.data 2 2 < 17 / 20 ∧ ∀ j ∈ [2], j ≠ 2 → ¬ 0 < P_S5.data 2 j) ∧
      ∀ k ∈ [2], (P_S5.data k k < 17 / 20 ∧ ∀ j ∈ [2], j ≠ k → ¬ 0 < P_S5.data k j) → 2 ≤ k) :=
  ⟨⟨by decide, by decide!⟩,
    (single_step_future_state_dead_state P_S5 [1, 2] (17 / 20) [(1, 0), (2, 1)]
      (by decide)).2.2 (by decide!),
    ⟨by decide, by decide!⟩,
    (single_step_future_state_dead_state P_S5 [2] (17 / 20) [(1, 0), (2, 1)]
      (by decide)).2.1 2 (by decide!)⟩

theorem mem_set_insert (x k : Nat) (s : List Nat) : k ∈ set_insert x s ↔ k = x ∨ k ∈ s := by
  induction s with
  | nil => simp [set_insert]
  | cons y s ih =>
    unfold set_insert
    by_cases h1 : x < y
    · simp [h1]
    · by_cases h2 : x = y
      · subst h2
        simp
      · simp only [h1, h2, if_false, List.mem_cons, ih]
        tauto

theorem StdMap.mem_keys_of_find {β : Type} (m : StdMap Nat β) (k : Nat) (v : β)
    (h : m.find k = some v) : k ∈ m.map Prod.fst := by
  induction m with
  | nil => simp [StdMap.find] at h
  | cons hd tl ih =>
    obtain ⟨a, b⟩ := hd
    unfold StdMap.find at h
    by_cases hk : a = k
    · simp [hk]
    · rw [if_neg hk] at h
      simp only [List.map_cons, List.mem_cons]
      exact Or.inr (ih h)

theorem path_length_le (future : StdMap Nat Nat) (path : List Nat) (hnodup : path.Nodup)
    (hkeys : ∀ x ∈ path, ∃ v, future.find x = some v) : path.length ≤ future.length := by
  have hsub : path ⊆ future.map Prod.fst := by
    intro x hx
    obtain ⟨v, hv⟩ := hkeys x hx
    exact StdMap.mem_keys_of_find future x v hv
  have := (List.subperm_of_subset hnodup hsub).length_le
  simpa using this

theorem path_loop_spec (future : StdMap Nat Nat) (names : List Nat)
    (htotal : ∀ i ∈ names, ∃ j ∈ names, future.find i = some j) (start : Nat) :
    ∀ (fuel : Nat) (path visited : List Nat) (next_state : Nat),
      path.head? = some start →
      (∀ x, x ∈ visited ↔ x ∈ path) →
      path.Nodup →
      (∀ x ∈ path, x ∈ names) →
      path.Chain' (fun a b => future.find a = some b) →
      (∃ last, path.getLast? = some last ∧ future.find last = some next_state) →
      future.length + 1 ≤ path.length + fuel →
      ∃ result, path_loop future fuel path visited next_state = some result ∧
        result.head? = some start ∧
        result.Chain' (fun a b => future.find a = some b) ∧
        result.Nodup ∧
        ∃ last, result.getLast? = some last ∧ ∃ j, future.find last = some j ∧ j ∈ result := by
  intro fuel
  induction fuel with
  | zero =>
    intro path visited next_state _ _ hnodup hnames _ _ hfuel
    have hle := path_length_le future path hnodup (fun x hx => by
      obtain ⟨j, _, hj⟩ := htotal x (hnames x hx)
      exact ⟨j, hj⟩)
    omega
  | succ fuel ih =>
    intro path visited next_state hhead hvis hnodup hnames hchain hlast hfuel
    obtain ⟨last, hlast1, hlast2⟩ := hlast
    rw [path_loop]
    by_cases hv : next_state ∈ visited
    · rw [if_pos hv]
      exact ⟨path, rfl, hhead, hchain, hnodup, last, hlast1, next_state, hlast2, (hvis _).mp hv⟩
    · rw [if_neg hv]
      have hne : path ≠ [] := by
        intro h; rw [h] at hhead; simp at hhead
      have hlastmem : last ∈ path := List.mem_of_getLast?_eq_some hlast1
      have hnext_names : next_state ∈ names := by
        obtain ⟨j, hj1, hj2⟩ := htotal last (hnames last hlastmem)
        rw [hlast2] at hj2
        injection hj2 with hj2
        rw [hj2]; exact hj1
      obtain ⟨t, _, ht2⟩ := htotal next_state hnext_names
      have hnotin : next_state ∉ path := fun h => hv ((hvis _).mpr h)
      apply ih
      · rw [List.head?_append_of_ne_nil _ hne]; exact hhead
      · intro x
        rw [mem_set_insert, List.mem_append, List.mem_singleton, hvis]
        tauto
      · apply List.Nodup.append hnodup (List.nodup_singleton _)
        intro x hx hx'
        rw [List.mem_singleton] at hx'
        rw [hx'] at hx
        exact hnotin hx
      · intro x hx
        rcases List.mem_append.mp hx with h | h
        · exact hnames x h
        · rw [List.mem_singleton] at h; rw [h]; exact hnext_names
      · rw [List.chain'_append]
        refine ⟨hchain, List.chain'_singleton _, ?_⟩
        intro x hx y hy
        rw [hlast1] at hx
        simp only [Option.mem_def, Option.some.injEq] at hx
        simp only [List.head?_cons, Option.mem_def, Option.some.injEq] at hy
        rw [← hx, ← hy]
        exact hlast2
      · refine ⟨next_state, List.getLast?_concat _, ?_⟩
        rw [ht2, StdMap.get, ht2]
        rfl
      · rw [List.length_append, List.length_singleton]
        omega

theorem most_probable_path_loop_ok (future : StdMap Nat Nat) :
    ∀ (l : List Nat) (mpp : StdMap Nat (List Nat)),
      (∀ i ∈ l, ∃ path,
        path_loop future (future.length + 2) [i] [i] (future.get i 0) = some path) →
      most_probable_path_loop future l mpp =
        some (l.foldl
          (fun m i => StdMap.insert i
            ((path_loop future (future.length + 2) [i] [i] (future.get i 0)).getD []) m) mpp) := by
  intro l
  induction l with
  | nil => intro mpp _; rfl
  | cons i rest ih =>
    intro mpp h
    obtain ⟨path, hpath⟩ := h i (List.mem_cons_self _ _)
    rw [most_probable_path_loop, hpath]
    simp only [List.foldl_cons, hpath, Option.getD_some]
    exact ih _ (fun k hk => h k (List.mem_cons_of_mem _ hk))

/-- C10: for every future-state map that is total on `names` with values in `names`
and every `i ∈ names`, `most_probable_path` returns a path `mpp[i]` whose first
element is `i`, whose every next element is `future[·]` of the previous one,
which contains no state twice, and whose last element's future state already
occurs on the path (the revisiting step is not appended). -/
theorem most_probable_path_follows_future (future_state : StdMap Nat Nat) (names : List Nat)
    (htotal : ∀ i ∈ names, ∃ j ∈ names, future_state.find i = some j) :
    ∃ mpp, most_probable_path future_state names = some mpp ∧
      ∀ i ∈ names, ∃ path, mpp.find i = some path ∧
        path.head? = some i ∧
        path.Chain' (fun a b => future_state.find a = some b) ∧
        path.Nodup ∧
        ∃ last, path.getLast? = some last ∧
          ∃ j, future_state.find last = some j ∧ j ∈ path := by
  have hpath : ∀ i ∈ names, ∃ path,
      path_loop future_state (future_state.length + 2) [i] [i] (future_state.get i 0) = some path ∧
      path.head? = some i ∧
      path.Chain' (fun a b => future_state.find a = some b) ∧
      path.Nodup ∧
      ∃ last, path.getLast? = some last ∧ ∃ j, future_state.find last = some j ∧ j ∈ path := by
    intro i hi
    obtain ⟨j, _, hj⟩ := htotal i hi
    apply path_loop_spec future_state names htotal i (future_state.length + 2) [i] [i]
      (future_state.get i 0) rfl (fun x => Iff.rfl) (List.nodup_singleton i)
    · intro x hx
      rw [List.mem_singleton] at hx
      rw [hx]; exact hi
    · exact List.chain'_singleton i
    · refine ⟨i, rfl, ?_⟩
      rw [hj, StdMap.get, hj]
      rfl
    · rw [List.length_singleton]
      omega
  refine ⟨_, most_probable_path_loop_ok future_state names []
    (fun i hi => by obtain ⟨path, hp, _⟩ := hpath i hi; exact ⟨path, hp⟩), ?_⟩
  intro i hi
  obtain ⟨path, hp, hprops⟩ := hpath i hi
  refine ⟨path, ?_, hprops⟩
  rw [StdMap.find_foldl_insert
    (fun i => (path_loop future_state (future_state.length + 2) [i] [i]
      (future_state.get i 0)).getD []), if_pos hi, hp]
  rfl

/-- C10 (witness): the statement at the future-state map `1 → 1`, `2 → 1` of the
two-state scenario, for the path of state `2`. -/
theorem most_probable_path_follows_future_witness :
    (∀ i ∈ [1, 2], ∃ j ∈ [1, 2], StdMap.find [(1, 1), (2, 1)] i = some j) ∧
    most_probable_path [(1, 1), (2, 1)] [1, 2] = some [(1, [1]), (2, [2, 1])] ∧
    ∃ mpp, most_probable_path [(1, 1), (2, 1)] [1, 2] = some mpp ∧
      ∀ i ∈ [1, 2], ∃ path, mpp.find i = some path ∧
        path.head? = some i ∧
        path.Chain' (fun a b => StdMap.find [(1, 1), (2, 1)] a = some b) ∧
        path.Nodup ∧
        ∃ last, path.getLast? = some last ∧
          ∃ j, StdMap.find [(1, 1), (2, 1)] last = some j ∧ j ∈ path :=
  ⟨by decide, by decide,
    most_probable_path_follows_future [(1, 1), (2, 1)] [1, 2] (by decide)⟩

theorem min_element_mem (value : Nat → ℚ) (c : Nat) (cs : List Nat) :
    min_element value c cs ∈ c :: cs := by
  obtain ⟨l1, l2, hsplit, _, _⟩ := min_element_spec value c cs
  rw [hsplit]
  simp

theorem max_element_mem (value : Nat → Nat) (c : Nat) (cs : List Nat) :
    max_element value c cs ∈ c :: cs := by
  unfold max_element
  induction cs generalizing c with
  | nil => simp
  | cons x cs ih =>
    rw [List.foldl_cons]
    split
    · have := ih x
      simp only [List.mem_cons] at this ⊢
      tauto
    · have := ih c
      simp only [List.mem_cons] at this ⊢
      tauto

theorem sink_candidates_loop_subset (mfe : StdMap Nat ℚ) (F : List ℚ) (min_fe : ℚ) :
    ∀ (fuel : Nat) (ms sc sc' : List Nat),
      sink_candidates_loop mfe F min_fe fuel ms sc = .ok sc' →
      ∀ x ∈ sc', x ∈ sc ∨ x ∈ ms := by
  intro fuel
  induction fuel with
  | zero =>
    intro ms sc sc' h x hx
    rw [sink_candidates_loop] at h
    injection h with h
    rw [← h] at hx
    exact Or.inl hx
  | succ fuel ih =>
    intro ms sc sc' h x hx
    cases ms with
    | nil =>
      rw [sink_candidates_loop] at h
      injection h with h
      rw [← h] at hx
      exact Or.inl hx
    | cons c cs =>
      rw [sink_candidates_loop] at h
      split at h
      · cases h
      · split at h
        · rcases ih _ _ _ h x hx with h1 | h1
          · rcases (mem_set_insert _ _ _).mp h1 with h2 | h2
            · right; rw [h2]; exact min_element_mem _ c cs
            · left; exact h2
          · right; exact List.mem_of_mem_erase h1
        · injection h with h
          rw [← h] at hx
          exact Or.inl hx

theorem metastable_states_spec (P : SparseMatrixF) (q_min : ℚ) (path : List Nat) (s : Nat)
    (hs : s ∈ metastable_states P q_min path) :
    s ∈ path ∧ (P.data s s > q_min ∨ ∀ j ∈ path, ¬ P.data j j > q_min) := by
  unfold metastable_states at hs
  split at hs
  · rename_i hlen
    refine ⟨hs, Or.inr ?_⟩
    intro j hj hgt
    have hnil := List.length_eq_zero.mp hlen
    have : j ∈ path.filter (fun j => decide (P.data j j > q_min)) :=
      List.mem_filter.mpr ⟨hj, by simpa using hgt⟩
    rw [hnil] at this
    simp at this
  · have := List.mem_filter.mp hs
    exact ⟨this.1, Or.inl (by simpa using this.2)⟩

theorem sink_of_mem (pops : StdMap Nat Nat) (mfe : StdMap Nat ℚ) (P : SparseMatrixF) (q_min : ℚ)
    (F : List ℚ) (path : List Nat) (s : Nat)
    (h : sink_of pops mfe P q_min F path = .ok s) :
    s ∈ metastable_states P q_min path := by
  unfold sink_of at h
  split at h
  · cases h
  · rename_i c cs hms
    rw [hms]
    split at h
    · cases h
    · split at h
      · cases h
      · cases h
      · rename_i s' hloop
        injection h with h
        subst h
        rcases sink_candidates_loop_subset mfe F _ _ _ _ _ hloop s' (by simp) with h1 | h1
        · simp at h1
        · exact h1
      · rename_i s' ss _ hloop
        injection h with h
        subst h
        have hmem := max_element_mem (fun x => pops.get x 0) s' ss
        rcases sink_candidates_loop_subset mfe F _ _ _ _ _ hloop _ hmem with h1 | h1
        · simp at h1
        · exact h1

theorem path_sinks_loop_of_ok (pops : StdMap Nat Nat) (mfe : StdMap Nat ℚ)
    (mpp : StdMap Nat (List Nat)) (P : SparseMatrixF) (q_min : ℚ) (F : List ℚ) :
    ∀ (l : List Nat) (sinks0 sinks : StdMap Nat Nat),
      path_sinks_loop pops mfe mpp P q_min F l sinks0 = .ok sinks →
      (∀ i ∈ l, ∃ s, sink_of pops mfe P q_min F (mpp.get i []) = .ok s) ∧
      sinks = l.foldl
        (fun m i => StdMap.insert i
          ((sink_of pops mfe P q_min F (mpp.get i [])).toOption.getD 0) m) sinks0 := by
  intro l
  induction l with
  | nil =>
    intro sinks0 sinks h
    rw [path_sinks_loop] at h
    injection h with h
    exact ⟨by simp, h.symm⟩
  | cons a rest ih =>
    intro sinks0 sinks h
    rw [path_sinks_loop] at h
    cases ha : sink_of pops mfe P q_min F (mpp.get a []) with
    | error e => rw [ha] at h; cases h
    | ok s =>
      rw [ha] at h
      obtain ⟨h1, h2⟩ := ih _ _ h
      refine ⟨?_, ?_⟩
      · intro i hi
        rcases List.mem_cons.mp hi with rfl | hi'
        · exact ⟨s, ha⟩
        · exact h1 i hi'
      · rw [h2, List.foldl_cons, ha]
        rfl

theorem path_sinks_loop_ok (pops : StdMap Nat Nat) (mfe : StdMap Nat ℚ)
    (mpp : StdMap Nat (List Nat)) (P : SparseMatrixF) (q_min : ℚ) (F : List ℚ) :
    ∀ (l : List Nat) (sinks0 : StdMap Nat Nat),
      (∀ i ∈ l, ∃ s, sink_of pops mfe P q_min F (mpp.get i []) = .ok s) →
      ∃ sinks, path_sinks_loop pops mfe mpp P q_min F l sinks0 = .ok sinks := by
  intro l
  induction l with
  | nil => intro sinks0 _; exact ⟨sinks0, rfl⟩
  | cons a rest ih =>
    intro sinks0 h
    obtain ⟨s, hs⟩ := h a (List.mem_cons_self _ _)
    rw [path_sinks_loop, hs]
    exact ih _ (fun i hi => h i (List.mem_cons_of_mem _ hi))

theorem path_sinks_find (clusters : List Nat) (mpp : StdMap Nat (List Nat)) (P : SparseMatrixF)
    (names : List Nat) (q_min : ℚ) (F : List ℚ) (sinks : StdMap Nat Nat)
    (h : path_sinks clusters mpp P names q_min F = .ok sinks) (i : Nat) (hi : i ∈ names) :
    ∃ s, sinks.find i = some s ∧ s ∈ metastable_states P q_min (mpp.get i []) := by
  unfold path_sinks at h
  split at h
  · cases h
  · rename_i mfe _
    obtain ⟨h1, h2⟩ := path_sinks_loop_of_ok _ _ _ _ _ _ _ _ _ h
    obtain ⟨s, hs⟩ := h1 i hi
    refine ⟨s, ?_, sink_of_mem _ _ _ _ _ _ _ hs⟩
    rw [h2, StdMap.find_foldl_insert
      (fun i => (sink_of (microstate_populations clusters names) mfe P q_min F
        (mpp.get i [])).toOption.getD 0), if_pos hi, hs]
    rfl

theorem min_free_energy_loop_ok (F : List ℚ) :
    ∀ (rest : List Nat) (i : Nat) (min_fe : StdMap Nat ℚ),
      i + rest.length ≤ F.length →
      ∃ m, min_free_energy_loop F rest i min_fe = .ok m := by
  intro rest
  induction rest with
  | nil => intro i min_fe _; exact ⟨min_fe, rfl⟩
  | cons state rest ih =>
    intro i min_fe h
    have hi : i < F.length := by simp only [List.length_cons] at h; omega
    have hrest : i + 1 + rest.length ≤ F.length := by
      simp only [List.length_cons] at h; omega
    rw [min_free_energy_loop, List.getElem?_eq_getElem hi]
    simp only []
    split
    · exact ih _ _ hrest
    · split
      · exact ih _ _ hrest
      · exact ih _ _ hrest

theorem sink_candidates_loop_ok (mfe : StdMap Nat ℚ) (F : List ℚ) (min_fe : ℚ) :
    ∀ (fuel : Nat) (ms sc : List Nat),
      (∀ x ∈ ms, x < F.length) →
      ∃ sc', sink_candidates_loop mfe F min_fe fuel ms sc = .ok sc' ∧ ∀ x ∈ sc, x ∈ sc' := by
  intro fuel
  induction fuel with
  | zero => intro ms sc _; exact ⟨sc, by rw [sink_candidates_loop], fun x hx => hx⟩
  | succ fuel ih =>
    intro ms sc hms
    cases ms with
    | nil => exact ⟨sc, by rw [sink_candidates_loop], fun x hx => hx⟩
    | cons c cs =>
      have hcand := hms _ (min_element_mem (fun x => mfe.get x 0) c cs)
      rw [sink_candidates_loop, List.getElem?_eq_getElem hcand]
      simp only []
      split
      · obtain ⟨sc', h1, h2⟩ := ih ((c :: cs).erase (min_element (fun x => mfe.get x 0) c cs))
          (set_insert (min_element (fun x => mfe.get x 0) c cs) sc)
          (fun x hx => hms x (List.mem_of_mem_erase hx))
        exact ⟨sc', h1, fun x hx => h2 x ((mem_set_insert _ _ _).mpr (Or.inr hx))⟩
      · exact ⟨sc, rfl, fun x hx => hx⟩

theorem sink_of_ok (pops : StdMap Nat Nat) (mfe : StdMap Nat ℚ) (P : SparseMatrixF) (q_min : ℚ)
    (F : List ℚ) (path : List Nat) (hne : path ≠ []) (hF : ∀ j ∈ path, j < F.length) :
    ∃ s, sink_of pops mfe P q_min F path = .ok s := by
  have hms : ∀ x ∈ metastable_states P q_min path, x < F.length :=
    fun x hx => hF x (metastable_states_spec P q_min path x hx).1
  have hmsne : metastable_states P q_min path ≠ [] := by
    unfold metastable_states
    split
    · exact hne
    · rename_i hlen
      intro h
      rw [h] at hlen
      exact hlen rfl
  unfold sink_of
  cases hc : metastable_states P q_min path with
  | nil => exact absurd hc hmsne
  | cons c cs =>
    rw [hc] at hms
    have hcand := hms _ (min_element_mem (fun x => mfe.get x 0) c cs)
    simp only [List.getElem?_eq_getElem hcand, List.length_cons]
    rw [sink_candidates_loop, List.getElem?_eq_getElem hcand]
    simp only [if_true]
    obtain ⟨sc', h1, h2⟩ := sink_candidates_loop_ok mfe F
      (F[min_element (fun x => mfe.get x 0) c cs]) cs.length
      ((c :: cs).erase (min_element (fun x => mfe.get x 0) c cs))
      (set_insert (min_element (fun x => mfe.get x 0) c cs) [])
      (fun x hx => hms x (List.mem_of_mem_erase hx))
    rw [h1]
    have hmem : min_element (fun x => mfe.get x 0) c cs ∈ sc' :=
      h2 _ ((mem_set_insert _ _ _).mpr (Or.inl rfl))
    cases sc' with
    | nil => simp at hmem
    | cons a rest =>
      cases rest with
      | nil => exact ⟨a, rfl⟩
      | cons b rest' => exact ⟨_, rfl⟩

theorem path_sinks_ok (clusters : List Nat) (mpp : StdMap Nat (List Nat)) (P : SparseMatrixF)
    (names : List Nat) (q_min : ℚ) (F : List ℚ)
    (hlen : clusters.length ≤ F.length)
    (hpaths : ∀ i ∈ names, mpp.get i [] ≠ [] ∧ ∀ j ∈ mpp.get i [], j < F.length) :
    ∃ sinks, path_sinks clusters mpp P names q_min F = .ok sinks := by
  obtain ⟨mfe, hmfe⟩ := min_free_energy_loop_ok F clusters 0 [] (by omega)
  unfold path_sinks microstate_min_free_energy
  rw [hmfe]
  exact path_sinks_loop_ok _ _ _ _ _ _ _ _
    (fun i hi => sink_of_ok _ _ _ _ _ _ (hpaths i hi).1 (hpaths i hi).2)

/-- C11 (the code departs from the claim): for the trajectory `[1, 2, 2]` with the
frame free energies `[0, 5, 5]`, `q_min = 1` and the path `mpp[1] = [1, 2]`, no
state on the path has `P[j,j] > q_min`, so `C` is the whole path; the minimum free
energies are `0` for state `1` and `5` for state `2`, yet `path_sinks` returns
`sinks[1] = 2`: `min_fe` and the loop test read `free_energy[*candidate]`, the
free energy of the frame whose index is the state id, which is `5` for both
states, so both become sink candidates and the larger population wins. -/
theorem path_sinks_reads_frame_free_energy :
    microstate_min_free_energy [1, 2, 2] [0, 5, 5] = .ok [(1, 0), (2, 5)] ∧
    microstate_populations [1, 2, 2] [1, 2] = [(1, 1), (2, 2)] ∧
    metastable_states P_chain 1 [1, 2] = [1, 2] ∧
    path_sinks [1, 2, 2] [(1, [1, 2]), (2, [2])] P_chain [1, 2] 1 [0, 5, 5] =
      .ok [(1, 2), (2, 2)] ∧
    lumping_round no_weighted [] false 1 1 [0, 5, 5] [1, 2, 2] =
      .ok ([2, 2, 2], [(1, 2), (2, 2)]) := by
  decide!

/-- C12: `path_sinks` returns a sink map when the free-energy vector covers the
frames and every path is non-empty with states inside the vector; for every
returned map and every `i ∈ names`, the sink `s = sinks[i]` is a state on
`mpp[i]` that satisfies `P[s,s] > q_min`, or else no state `j` on `mpp[i]`
satisfies `P[j,j] > q_min`. -/
theorem path_sinks_sink_valid (clusters : List Nat) (mpp : StdMap Nat (List Nat))
    (P : SparseMatrixF) (names : List Nat) (q_min : ℚ) (free_energy : List ℚ) :
    ((clusters.length ≤ free_energy.length ∧
        ∀ i ∈ names, mpp.get i [] ≠ [] ∧ ∀ j ∈ mpp.get i [], j < free_energy.length) →
      ∃ sinks, path_sinks clusters mpp P names q_min free_energy = .ok sinks) ∧
    ∀ sinks, path_sinks clusters mpp P names q_min free_energy = .ok sinks →
      ∀ i ∈ names, ∃ s, sinks.find i = some s ∧ s ∈ mpp.get i [] ∧
        (P.data s s > q_min ∨ ∀ j ∈ mpp.get i [], ¬ P.data j j > q_min) := by
  constructor
  · rintro ⟨hlen, hpaths⟩
    exact path_sinks_ok clusters mpp P names q_min free_energy hlen hpaths
  · intro sinks h i hi
    obtain ⟨s, hfind, hmem⟩ := path_sinks_find clusters mpp P names q_min free_energy sinks h i hi
    have := metastable_states_spec P q_min _ s hmem
    exact ⟨s, hfind, this.1, this.2⟩

/-- C12 (witness): the statement at the two-state scenario: the trajectory `[1, 2]`
with free energies `[0, 1]`, the paths `[1]` and `[2, 1]`, `q_min = 0.85`; the
sink of state `2` is state `1`, whose self-transition `0.9` exceeds `q_min`. -/
theorem path_sinks_sink_valid_witness :
    (path_sinks [1, 2] [(1, [1]), (2, [2, 1])] P_S5 [1, 2] (17 / 20) [0, 1] =
        .ok [(1, 1), (2, 1)] ∧ 2 ∈ [1, 2]) ∧
    ∃ s, StdMap.find [(1, 1), (2, 1)] 2 = some s ∧
      s ∈ StdMap.get [(1, [1]), (2, [2, 1])] 2 [] ∧
      (P_S5.data s s > 17 / 20 ∨
        ∀ j ∈ StdMap.get [(1, [1]), (2, [2, 1])] 2 [], ¬ P_S5.data j j > 17 / 20) :=
  ⟨⟨by decide!, by decide⟩,
    (path_sinks_sink_valid [1, 2] [(1, [1]), (2, [2, 1])] P_S5 [1, 2] (17 / 20) [0, 1]).2
      [(1, 1), (2, 1)] (by decide!) 2 (by decide)⟩

/-- C13: with states `{1, 2}`, `P[1,1] = 0.9`, `P[1,2] = 0.1`, `P[2,1] = 0.2`,
`P[2,2] = 0.8`, `q_min = 0.85` and the minimum free energies `0` for state `1` and
`1` for state `2` (trajectory `[1, 2]` with frame free energies `[0, 1]`):
`single_step_future_state` gives `future[1] = 1` and `future[2] = 1`,
`most_probable_path` gives `mpp[2] = [2, 1]` (and `mpp[1] = [1]`), `path_sinks`
gives the sink `1` for state `2` and for state `1`, and the lumping entries with
`from ≠ to` are exactly `{2 → 1}`. -/
theorem two_state_scenario :
    microstate_min_free_energy [1, 2] [0, 1] = .ok [(1, 0), (2, 1)] ∧
    single_step_future_state P_S5 [1, 2] (17 / 20) [(1, 0), (2, 1)] = .ok [(1, 1), (2, 1)] ∧
    most_probable_path [(1, 1), (2, 1)] [1, 2] = some [(1, [1]), (2, [2, 1])] ∧
    path_sinks [1, 2] [(1, [1]), (2, [2, 1])] P_S5 [1, 2] (17 / 20) [0, 1] =
      .ok [(1, 1), (2, 1)] ∧
    lumping_update [(1, 1), (2, 1)] [] = [(2, 1)] := by
  decide!

/-- C14 (the code departs from the claim): for the trajectory `[4, 3, 2, 1, 2]` with
the frame free energies `[0, 2, 2, 0, 2]`, `q_min = 0.5` and lag `1`,
`fixed_metastability_clustering` returns `T' = [1, 1, 2, 2, 2]` and
`S = {1 → 2, 3 → 1, 4 → 1}`: state `1` occurs in `T'` and is a key of `S`, and
applying `S` to `T'` gives `[2, 2, 2, 2, 2]`. In the first round the sinks are
`1 → 2`, `2 → 2`, `3 → 1`, `4 → 1`: state `1` is the sink of states `3` and `4`
and is itself lumped into state `2`, because `path_sinks` compares
`free_energy[*candidate]` (the frame at the index of the state id) instead of the
minimum free energy of the state. -/
theorem fixed_metastability_clustering_keeps_lumped_state :
    fixed_metastability_clustering no_weighted [4, 3, 2, 1, 2] [] false (1 / 2) 1
        [0, 2, 2, 0, 2] = .ok ([1, 1, 2, 2, 2], [(1, 2), (3, 1), (4, 1)]) ∧
    1 ∈ [1, 1, 2, 2, 2] ∧
    StdMap.find [(1, 2), (3, 1), (4, 1)] 1 = some 2 ∧
    apply_lumping [(1, 2), (3, 1), (4, 1)] [1, 1, 2, 2, 2] = [2, 2, 2, 2, 2] ∧
    lumping_round no_weighted [] false (1 / 2) 1 [0, 2, 2, 0, 2] [4, 3, 2, 1, 2] =
      .ok ([1, 1, 2, 2, 2], [(1, 2), (2, 2), (3, 1), (4, 1)]) ∧
    microstate_min_free_energy [4, 3, 2, 1, 2] [0, 2, 2, 0, 2] =
      .ok [(1, 0), (2, 2), (3, 2), (4, 0)] := by
  decide!

theorem add_at_error (M : SparseMatrixF) (i j : Nat) (v : ℚ) (e : Failure)
    (h : M.add_at i j v = .error e) : e = .OutOfBounds := by
  unfold SparseMatrixF.add_at at h
  split at h
  · cases h
  · injection h with h; exact h.symm

theorem transition_counts_loop_converges (trajectory : List Nat) (n_lag_steps : Nat) :
    ∀ (n i : Nat) (next_limit : List Nat) (M : SparseMatrixF),
      transition_counts_loop trajectory n_lag_steps n i next_limit M ≠ .error .NotConverged := by
  intro n
  induction n with
  | zero => intro i next_limit M h; rw [transition_counts_loop] at h; cases h
  | succ n ih =>
    intro i next_limit M h
    rw [transition_counts_loop] at h
    split at h
    · split at h
      · split at h
        · split at h
          · exact ih _ _ _ h
          · rename_i e hadd
            injection h with h
            rw [h] at hadd
            cases add_at_error _ _ _ _ _ hadd
        · split at h
          · exact ih _ _ _ h
          · exact ih _ _ _ h
      · split at h
        · exact ih _ _ _ h
        · rename_i e hadd
          injection h with h
          rw [h] at hadd
          cases add_at_error _ _ _ _ _ hadd
    · cases h

theorem transition_counts_converges (trajectory concat_limits : List Nat)
    (n_lag_steps i_max : Nat) :
    transition_counts trajectory concat_limits n_lag_steps i_max ≠ .error .NotConverged := by
  intro h
  unfold transition_counts at h
  split at h
  · cases h
  · split at h
    · cases h
    · exact transition_counts_loop_converges _ _ _ _ _ _ h

theorem min_free_energy_loop_converges (F : List ℚ) :
    ∀ (rest : List Nat) (i : Nat) (min_fe : StdMap Nat ℚ),
      min_free_energy_loop F rest i min_fe ≠ .error .NotConverged := by
  intro rest
  induction rest with
  | nil => intro i min_fe h; rw [min_free_energy_loop] at h; cases h
  | cons state rest ih =>
    intro i min_fe h
    rw [min_free_energy_loop] at h
    split at h
    · cases h
    · split at h
      · exact ih _ _ h
      · split at h
        · exact ih _ _ h
        · exact ih _ _ h

theorem future_state_loop_converges (P : SparseMatrixF) (names : List Nat) (q_min : ℚ)
    (mfe : StdMap Nat ℚ) :
    ∀ (l : List Nat) (fs : StdMap Nat Nat),
      future_state_loop P names q_min mfe l fs ≠ .error .NotConverged := by
  intro l
  induction l with
  | nil => intro fs h; rw [future_state_loop] at h; cases h
  | cons a rest ih =>
    intro fs h
    rw [future_state_loop] at h
    split at h
    · cases h
    · exact ih _ h

theorem sink_candidates_loop_converges (mfe : StdMap Nat ℚ) (F : List ℚ) (min_fe : ℚ) :
    ∀ (fuel : Nat) (ms sc : List Nat),
      sink_candidates_loop mfe F min_fe fuel ms sc ≠ .error .NotConverged := by
  intro fuel
  induction fuel with
  | zero => intro ms sc h; rw [sink_candidates_loop] at h; cases h
  | succ fuel ih =>
    intro ms sc h
    cases ms with
    | nil => rw [sink_candidates_loop] at h; cases h
    | cons c cs =>
      rw [sink_candidates_loop] at h
      split at h
      · cases h
      · split at h
        · exact ih _ _ h
        · cases h

theorem sink_of_converges (pops : StdMap Nat Nat) (mfe : StdMap Nat ℚ) (P : SparseMatrixF)
    (q_min : ℚ) (F : List ℚ) (path : List Nat) :
    sink_of pops mfe P q_min F path ≠ .error .NotConverged := by
  intro h
  unfold sink_of at h
  split at h
  · cases h
  · split at h
    · cases h
    · split at h
      · rename_i e hloop
        injection h with h
        rw [h] at hloop
        exact sink_candidates_loop_converges _ _ _ _ _ _ hloop
      · cases h
      · cases h
      · cases h

theorem path_sinks_loop_converges (pops : StdMap Nat Nat) (mfe : StdMap Nat ℚ)
    (mpp : StdMap Nat (List Nat)) (P : SparseMatrixF) (q_min : ℚ) (F : List ℚ) :
    ∀ (l : List Nat) (sinks : StdMap Nat Nat),
      path_sinks_loop pops mfe mpp P q_min F l sinks ≠ .error .NotConverged := by
  intro l
  induction l with
  | nil => intro sinks h; rw [path_sinks_loop] at h; cases h
  | cons a rest ih =>
    intro sinks h
    rw [path_sinks_loop] at h
    split at h
    · rename_i e hs
      injection h with h
      rw [h] at hs
      exact sink_of_converges _ _ _ _ _ _ hs
    · exact ih _ h

theorem path_sinks_converges (clusters : List Nat) (mpp : StdMap Nat (List Nat))
    (P : SparseMatrixF) (names : List Nat) (q_min : ℚ) (F : List ℚ) :
    path_sinks clusters mpp P names q_min F ≠ .error .NotConverged := by
  intro h
  unfold path_sinks at h
  split at h
  · rename_i e hm
    injection h with h
    rw [h] at hm
    exact min_free_energy_loop_converges _ _ _ _ hm
  · exact path_sinks_loop_converges _ _ _ _ _ _ _ _ h

theorem lumping_round_converges
    (weighted : List Nat → List Nat → Nat → Except Failure SparseMatrixF)
    (hw : ∀ t cl l, weighted t cl l ≠ .error .NotConverged)
    (concat_limits : List Nat) (diff_size_chunks : Bool) (q_min : ℚ) (lagtime : Nat)
    (free_energy : List ℚ) (traj : List Nat) :
    lumping_round weighted concat_limits diff_size_chunks q_min lagtime free_energy traj ≠
      .error .NotConverged := by
  intro h
  unfold lumping_round at h
  simp only [] at h
  split at h
  · rename_i e hc
    injection h with h
    rw [h] at hc
    cases diff_size_chunks with
    | true => exact hw _ _ _ hc
    | false => exact transition_counts_converges _ _ _ _ hc
  · split at h
    · rename_i e hm
      injection h with h
      rw [h] at hm
      exact min_free_energy_loop_converges _ _ _ _ hm
    · split at h
      · rename_i e hf
        injection h with h
        rw [h] at hf
        exact future_state_loop_converges _ _ _ _ _ _ hf
      · split at h
        · cases h
        · split at h
          · rename_i e hp
            injection h with h
            rw [h] at hp
            exact path_sinks_converges _ _ _ _ _ _ hp
          · cases h

section rounds

variable (weighted : List Nat → List Nat → Nat → Except Failure SparseMatrixF)
  (init concat_limits : List Nat) (dsc : Bool) (q_min : ℚ) (lagtime : Nat)
  (free_energy : List ℚ)

theorem trajectory_after_succ (k : Nat) (t : List Nat)
    (h : trajectory_after weighted init concat_limits dsc q_min lagtime free_energy k = .ok t) :
    trajectory_after weighted init concat_limits dsc q_min lagtime free_energy (k + 1) =
      match lumping_round weighted concat_limits dsc q_min lagtime free_energy t with
      | .error e => .error e
      | .ok r => .ok r.1 := by
  rw [trajectory_after, h]

theorem clustering_loop_rounds (hw : ∀ t cl l, weighted t cl l ≠ .error .NotConverged) :
    ∀ (m j : Nat) (t : List Nat) (L : StdMap Nat Nat),
      trajectory_after weighted init concat_limits dsc q_min lagtime free_energy j = .ok t →
      (∀ T' S,
        clustering_loop weighted concat_limits dsc q_min lagtime free_energy m t L =
          .ok (T', S) →
        ∃ n, j ≤ n ∧ n < j + m ∧
          (∀ k, j ≤ k → k < n →
            round_changes weighted init concat_limits dsc q_min lagtime free_energy k) ∧
          trajectory_after weighted init concat_limits dsc q_min lagtime free_energy n =
            .ok T' ∧
          trajectory_after weighted init concat_limits dsc q_min lagtime free_energy (n + 1) =
            .ok T') ∧
      (∀ n, j ≤ n → n < j + m →
        (∀ k, j ≤ k → k < n →
          round_changes weighted init concat_limits dsc q_min lagtime free_energy k) →
        round_unchanged weighted init concat_limits dsc q_min lagtime free_energy n →
        ∃ T' S,
          clustering_loop weighted concat_limits dsc q_min lagtime free_energy m t L =
            .ok (T', S)) ∧
      (clustering_loop weighted concat_limits dsc q_min lagtime free_energy m t L =
          .error .NotConverged ↔
        ∀ k, j ≤ k → k < j + m →
          round_changes weighted init concat_limits dsc q_min lagtime free_energy k) := by
  intro m
  induction m with
  | zero =>
    intro j t L _
    refine ⟨?_, ?_, ?_⟩
    · intro T' S h
      rw [clustering_loop] at h
      cases h
    · intro n h1 h2
      omega
    · rw [clustering_loop]
      exact ⟨fun _ k h1 h2 => by omega, fun _ => rfl⟩
  | succ m ih =>
    intro j t L hj
    have hsucc := trajectory_after_succ weighted init concat_limits dsc q_min lagtime
      free_energy j t hj
    rw [clustering_loop]
    cases hr : lumping_round weighted concat_limits dsc q_min lagtime free_energy t with
    | error e =>
      rw [hr] at hsucc
      simp only [] at hsucc
      have hnochange :
          ¬ round_changes weighted init concat_limits dsc q_min lagtime free_energy j := by
        rintro ⟨_, t', _, h2, _⟩
        rw [hsucc] at h2
        cases h2
      have hnosame :
          ¬ round_unchanged weighted init concat_limits dsc q_min lagtime free_energy j := by
        rintro ⟨_, _, h2⟩
        rw [hsucc] at h2
        cases h2
      refine ⟨?_, ?_, ?_⟩
      · intro T' S h
        cases h
      · intro n h1 _ h3 h4
        rcases Nat.eq_or_lt_of_le h1 with h | h
        · subst h; exact absurd h4 hnosame
        · exact absurd (h3 j (le_refl _) h) hnochange
      · constructor
        · intro h
          injection h with h
          rw [h] at hr
          exact absurd hr (lumping_round_converges weighted hw _ _ _ _ _ _)
        · intro h
          exact absurd (h j (le_refl _) (by omega)) hnochange
    | ok r =>
      obtain ⟨t', sinks⟩ := r
      rw [hr] at hsucc
      simp only [] at hsucc
      simp only []
      by_cases heq : t = t'
      · rw [if_pos heq]
        have hnochange :
            ¬ round_changes weighted init concat_limits dsc q_min lagtime free_energy j := by
          rintro ⟨t0, t1, h1, h2, h3⟩
          rw [hj] at h1
          rw [hsucc] at h2
          injection h1 with h1
          injection h2 with h2
          exact h3 (by rw [← h1, ← h2]; exact heq)
        refine ⟨?_, ?_, ?_⟩
        · intro T' S h
          injection h with h
          injection h with h1 h2
          refine ⟨j, le_refl _, by omega, fun k h3 h4 => by omega, ?_, ?_⟩
          · rw [hj, ← h1, heq]
          · rw [hsucc, ← h1]
        · intro _ _ _ _ _
          exact ⟨_, _, rfl⟩
        · constructor
          · intro h; cases h
          · intro h
            exact absurd (h j (le_refl _) (by omega)) hnochange
      · rw [if_neg heq]
        have hchange :
            round_changes weighted init concat_limits dsc q_min lagtime free_energy j :=
          ⟨t, t', hj, hsucc, heq⟩
        have hnosame :
            ¬ round_unchanged weighted init concat_limits dsc q_min lagtime free_energy j := by
          rintro ⟨t0, h1, h2⟩
          rw [hj] at h1
          rw [hsucc] at h2
          injection h1 with h1
          injection h2 with h2
          exact heq (by rw [h1, h2])
        obtain ⟨ih1, ih2, ih3⟩ := ih (j + 1) t' (lumping_update sinks L) hsucc
        refine ⟨?_, ?_, ?_⟩
        · intro T' S h
          obtain ⟨n, h1, h2, h3, h4, h5⟩ := ih1 T' S h
          refine ⟨n, by omega, by omega, ?_, h4, h5⟩
          intro k hk1 hk2
          rcases Nat.eq_or_lt_of_le hk1 with h | h
          · subst h; exact hchange
          · exact h3 k h hk2
        · intro n h1 h2 h3 h4
          rcases Nat.eq_or_lt_of_le h1 with h | h
          · subst h; exact absurd h4 hnosame
          · exact ih2 n h (by omega) (fun k hk1 hk2 => h3 k (by omega) hk2) h4
        · rw [ih3]
          constructor
          · intro h k hk1 hk2
            rcases Nat.eq_or_lt_of_le hk1 with h' | h'
            · subst h'; exact hchange
            · exact h k h' (by omega)
          · intro h k hk1 hk2
            exact h k (by omega) (by omega)

end rounds

/-- C15: `fixed_metastability_clustering` performs at most 100 lumping rounds: it
returns `(T', S)` exactly when some round among the first 100 leaves the
trajectory unchanged, all rounds before it having changed it; `T'` is then the
trajectory of the first such round; and it fails with the NotConverged error
exactly when each of the 100 rounds changed the trajectory (the count matrix of
the branch `diff_size_chunks` being that of a function which has no NotConverged
failure of its own). -/
theorem fixed_metastability_clustering_rounds
    (weighted : List Nat → List Nat → Nat → Except Failure SparseMatrixF)
    (initial_trajectory concat_limits : List Nat) (diff_size_chunks : Bool) (q_min : ℚ)
    (lagtime : Nat) (free_energy : List ℚ)
    (hw : ∀ t cl l, weighted t cl l ≠ .error .NotConverged) :
    ((∃ T' S, fixed_metastability_clustering weighted initial_trajectory concat_limits
        diff_size_chunks q_min lagtime free_energy = .ok (T', S)) ↔
      ∃ n, n < 100 ∧
        (∀ k, k < n → round_changes weighted initial_trajectory concat_limits
          diff_size_chunks q_min lagtime free_energy k) ∧
        round_unchanged weighted initial_trajectory concat_limits diff_size_chunks q_min
          lagtime free_energy n) ∧
    (∀ T' S, fixed_metastability_clustering weighted initial_trajectory concat_limits
        diff_size_chunks q_min lagtime free_energy = .ok (T', S) →
      ∃ n, n < 100 ∧
        (∀ k, k < n → round_changes weighted initial_trajectory concat_limits
          diff_size_chunks q_min lagtime free_energy k) ∧
        trajectory_after weighted initial_trajectory concat_limits diff_size_chunks q_min
          lagtime free_energy n = .ok T' ∧
        trajectory_after weighted initial_trajectory concat_limits diff_size_chunks q_min
          lagtime free_energy (n + 1) = .ok T') ∧
    (fixed_metastability_clustering weighted initial_trajectory concat_limits
        diff_size_chunks q_min lagtime free_energy = .error .NotConverged ↔
      ∀ k, k < 100 → round_changes weighted initial_trajectory concat_limits
        diff_size_chunks q_min lagtime free_energy k) := by
  obtain ⟨h1, h2, h3⟩ := clustering_loop_rounds weighted initial_trajectory concat_limits
    diff_size_chunks q_min lagtime free_energy hw 100 0 initial_trajectory [] rfl
  unfold fixed_metastability_clustering
  refine ⟨⟨?_, ?_⟩, ?_, ?_⟩
  · rintro ⟨T', S, h⟩
    obtain ⟨n, _, hn, hch, ha, hb⟩ := h1 T' S h
    exact ⟨n, by omega, fun k hk => hch k (Nat.zero_le _) hk, T', ha, hb⟩
  · rintro ⟨n, hn, hch, hun⟩
    exact h2 n (Nat.zero_le _) (by omega) (fun k _ hk => hch k hk) hun
  · intro T' S h
    obtain ⟨n, _, hn, hch, ha, hb⟩ := h1 T' S h
    exact ⟨n, by omega, fun k hk => hch k (Nat.zero_le _) hk, ha, hb⟩
  · rw [h3]
    constructor
    · intro h k hk
      exact h k (Nat.zero_le _) (by omega)
    · intro h k _ hk
      exact h k (by omega)

/-- C15 (witness): the statement at the trajectory `[1, 2, 2]` with frame free
energies `[0, 5, 5]`, `q_min = 1`, lag `1`: the first round changes the
trajectory to `[2, 2, 2]`, the second leaves it unchanged, and the result is
returned. -/
theorem fixed_metastability_clustering_rounds_witness :
    (∀ t cl l, no_weighted t cl l ≠ .error .NotConverged) ∧
    fixed_metastability_clustering no_weighted [1, 2, 2] [] false 1 1 [0, 5, 5] =
      .ok ([2, 2, 2], [(1, 2)]) ∧
    ∃ n, n < 100 ∧
      (∀ k, k < n → round_changes no_weighted [1, 2, 2] [] false 1 1 [0, 5, 5] k) ∧
      trajectory_after no_weighted [1, 2, 2] [] false 1 1 [0, 5, 5] n = .ok [2, 2, 2] ∧
      trajectory_after no_weighted [1, 2, 2] [] false 1 1 [0, 5, 5] (n + 1) = .ok [2, 2, 2] :=
  have hw : ∀ t cl l, no_weighted t cl l ≠ .error .NotConverged := by
    intro t cl l h
    cases h
  ⟨hw, by decide!,
    (fixed_metastability_clustering_rounds no_weighted [1, 2, 2] [] false 1 1 [0, 5, 5] hw).2.1
      [2, 2, 2] [(1, 2)] (by decide!)⟩

theorem StdMap.mem_values_of_find {β : Type} (m : StdMap Nat β) (k : Nat) (v : β)
    (h : m.find k = some v) : v ∈ m.map Prod.snd := by
  induction m with
  | nil => simp [StdMap.find] at h
  | cons hd tl ih =>
    obtain ⟨a, b⟩ := hd
    unfold StdMap.find at h
    by_cases hk : a = k
    · rw [if_pos hk] at h
      injection h with h
      simp [h]
    · rw [if_neg hk] at h
      simp only [List.map_cons, List.mem_cons]
      exact Or.inr (ih h)

theorem StdMap.get_mem_values (m : StdMap Nat Nat) (k : Nat) :
    m.get k 0 ∈ 0 :: m.map Prod.snd := by
  unfold StdMap.get
  cases h : m.find k with
  | none => simp
  | some v => exact List.mem_cons_of_mem _ (StdMap.mem_values_of_find m k v h)

theorem path_loop_returns (future : StdMap Nat Nat) :
    ∀ (fuel : Nat) (path visited : List Nat) (next_state : Nat),
      path ≠ [] →
      path.Nodup →
      (∀ x, x ∈ visited ↔ x ∈ path) →
      (∀ x ∈ path.tail, x ∈ 0 :: future.map Prod.snd) →
      next_state ∈ 0 :: future.map Prod.snd →
      future.length + 3 ≤ path.length + fuel →
      ∃ result, path_loop future fuel path visited next_state = some result := by
  intro fuel
  induction fuel with
  | zero =>
    intro path visited next_state hne hnodup _ htail _ hfuel
    have hsub : path.tail ⊆ 0 :: future.map Prod.snd := fun x hx => htail x hx
    have hle := (List.subperm_of_subset hnodup.tail hsub).length_le
    simp only [List.length_tail, List.length_cons, List.length_map] at hle
    omega
  | succ fuel ih =>
    intro path visited next_state hne hnodup hvis htail hnext hfuel
    rw [path_loop]
    by_cases hv : next_state ∈ visited
    · rw [if_pos hv]; exact ⟨path, rfl⟩
    · rw [if_neg hv]
      have hnotin : next_state ∉ path := fun h => hv ((hvis _).mpr h)
      apply ih
      · simp
      · apply List.Nodup.append hnodup (List.nodup_singleton _)
        intro x hx hx'
        rw [List.mem_singleton] at hx'
        rw [hx'] at hx
        exact hnotin hx
      · intro x
        rw [mem_set_insert, List.mem_append, List.mem_singleton, hvis]
        tauto
      · intro x hx
        rw [List.tail_append_of_ne_nil hne] at hx
        rcases List.mem_append.mp hx with h | h
        · exact htail x h
        · rw [List.mem_singleton] at h; rw [h]; exact hnext
      · exact StdMap.get_mem_values future next_state
      · rw [List.length_append, List.length_singleton]
        omega

theorem most_probable_path_returns (future_state : StdMap Nat Nat) (names : List Nat) :
    ∃ mpp, most_probable_path future_state names = some mpp := by
  refine ⟨_, most_probable_path_loop_ok future_state names [] ?_⟩
  intro i _
  exact path_loop_returns future_state (future_state.length + 2) [i] [i]
    (future_state.get i 0) (by simp) (List.nodup_singleton i) (fun x => Iff.rfl)
    (by simp) (StdMap.get_mem_values future_state i)
    (by simp only [List.length_singleton]; omega)

theorem transition_counts_loop_no_bad_argument (trajectory : List Nat) (n_lag_steps : Nat) :
    ∀ (n i : Nat) (next_limit : List Nat) (M : SparseMatrixF),
      transition_counts_loop trajectory n_lag_steps n i next_limit M ≠ .error .BadArgument := by
  intro n
  induction n with
  | zero => intro i next_limit M h; rw [transition_counts_loop] at h; cases h
  | succ n ih =>
    intro i next_limit M h
    rw [transition_counts_loop] at h
    split at h
    · split at h
      · split at h
        · split at h
          · exact ih _ _ _ h
          · rename_i e hadd
            injection h with h
            rw [h] at hadd
            cases add_at_error _ _ _ _ _ hadd
        · split at h
          · exact ih _ _ _ h
          · exact ih _ _ _ h
      · split at h
        · exact ih _ _ _ h
        · rename_i e hadd
          injection h with h
          rw [h] at hadd
          cases add_at_error _ _ _ _ _ hadd
    · cases h

/-- C27: `transition_counts` ends with the failure `BadArgument`, without a count
matrix, exactly when the lag is `0`; for a lag `τ ≥ 1` it never does, whatever
the trajectory, the boundaries and `i_max`. -/
theorem transition_counts_bad_argument_iff (trajectory concat_limits : List Nat)
    (n_lag_steps i_max : Nat) :
    transition_counts trajectory concat_limits n_lag_steps i_max = .error .BadArgument ↔
      n_lag_steps = 0 := by
  constructor
  · intro h
    unfold transition_counts at h
    split at h
    · assumption
    · split at h
      · cases h
      · exact absurd h (transition_counts_loop_no_bad_argument _ _ _ _ _ _)
  · intro h
    unfold transition_counts
    rw [if_pos h]

/-- C26 (the code departs from the claim): for `T = [1, 1, 2, 2, 1]`, the limits
`[2, 5]` and lag `1` the chunk of the first round is not the part `[1, 1]` of the
trajectory but the slice `[2, 5]` of `concat_limits` itself; its transition
`2 → 5` lies outside the `3 × 3` count matrix and no weighted matrix is
produced, for any square root function. The count matrices of the chunks
`[1, 1]` and `[2, 2, 1]` of the trajectory would be the single counts `1 → 1`
and `2 → 1`, `2 → 2`. -/
theorem weighted_transition_counts_slices_limits :
    (∀ sqrt : ℚ → ℚ,
      weighted_transition_counts sqrt [1, 1, 2, 2, 1] [2, 5] 1 = .error .OutOfBounds) ∧
    limits_chunk [2, 5] 0 2 = .ok [2, 5] ∧
    (transition_counts [2, 5] [] 1 2).toOption.map SparseMatrixF.toLists = none ∧
    (transition_counts [1, 1] [] 1 2).toOption.map SparseMatrixF.toLists =
      some [[0, 0, 0], [0, 1, 0], [0, 0, 0]] ∧
    (transition_counts [2, 2, 1] [] 1 2).toOption.map SparseMatrixF.toLists =
      some [[0, 0, 0], [0, 0, 0], [0, 1, 1]] := by
  refine ⟨fun sqrt => rfl, by decide, by decide!, by decide!, by decide!⟩

theorem set_insert_sorted (x : Nat) : ∀ s : List Nat, s.Pairwise (· < ·) →
    (set_insert x s).Pairwise (· < ·) := by
  intro s
  induction s with
  | nil => intro _; simp [set_insert]
  | cons y s ih =>
    intro h
    rw [List.pairwise_cons] at h
    unfold set_insert
    by_cases h1 : x < y
    · rw [if_pos h1]
      refine List.pairwise_cons.mpr ⟨?_, List.pairwise_cons.mpr h⟩
      intro z hz
      rcases List.mem_cons.mp hz with hz | hz
      · rw [hz]; exact h1
      · exact lt_trans h1 (h.1 z hz)
    · rw [if_neg h1]
      by_cases h2 : x = y
      · rw [if_pos h2]; exact List.pairwise_cons.mpr h
      · rw [if_neg h2]
        refine List.pairwise_cons.mpr ⟨?_, ih h.2⟩
        intro z hz
        rcases (mem_set_insert x z s).mp hz with hz | hz
        · rw [hz]; omega
        · exact h.1 z hz

theorem set_insert_append (x : Nat) : ∀ s : List Nat, (∀ y ∈ s, y < x) →
    set_insert x s = s ++ [x] := by
  intro s
  induction s with
  | nil => intro _; rfl
  | cons y s ih =>
    intro h
    have hy := h y (by simp)
    unfold set_insert
    rw [if_neg (by omega), if_neg (by omega), ih (fun z hz => h z (List.mem_cons_of_mem _ hz))]
    rfl

theorem lumped_states_spec : ∀ sinks : StdMap Nat Nat, (sinks.map Prod.fst).Pairwise (· < ·) →
    (lumped_states sinks).1.Pairwise (· < ·) ∧
    (∀ a, a ∈ (lumped_states sinks).1 ↔ a ∈ sinks.map Prod.snd) ∧
    (∀ a, (lumped_states sinks).2.get a [] = (sinks.filter (fun e => e.2 = a)).map Prod.fst) := by
  intro sinks
  induction sinks using List.reverseRecOn with
  | nil => intro _; simp [lumped_states, StdMap.get, StdMap.find]
  | append_singleton l e ih =>
    intro h
    rw [List.map_append, List.pairwise_append] at h
    obtain ⟨ih1, ih2, ih3⟩ := ih h.1
    have hstep : lumped_states (l ++ [e]) =
        (set_insert e.2 (lumped_states l).1,
         if ((lumped_states l).2.find e.2).isNone then (lumped_states l).2.insert e.2 [e.1]
         else (lumped_states l).2.insert e.2 (set_insert e.1 ((lumped_states l).2.get e.2 []))) := by
      unfold lumped_states
      rw [List.foldl_append]
      rfl
    have hget : ∀ a, (lumped_states (l ++ [e])).2.get a [] =
        if e.2 = a then set_insert e.1 ((lumped_states l).2.get e.2 [])
        else (lumped_states l).2.get a [] := by
      intro a
      rw [hstep]
      simp only []
      unfold StdMap.get
      cases hf : (lumped_states l).2.find e.2 with
      | none =>
        simp only [Option.isNone_none, if_true, StdMap.find_insert, Option.getD_none]
        by_cases hea : e.2 = a
        · simp [hea, set_insert]
        · simp [hea]
      | some v =>
        simp only [Option.isNone_some, Bool.false_eq_true, if_false, StdMap.find_insert,
          Option.getD_some]
        by_cases hea : e.2 = a
        · simp [hea]
        · simp [hea]
    refine ⟨?_, ?_, ?_⟩
    · rw [hstep]; exact set_insert_sorted _ _ ih1
    · intro a
      rw [hstep]
      simp only [mem_set_insert, ih2, List.map_append, List.mem_append, List.map_cons,
        List.map_nil, List.mem_singleton]
      tauto
    · intro a
      rw [hget, List.filter_append, List.map_append]
      by_cases hea : e.2 = a
      · rw [if_pos hea, ih3, set_insert_append]
        · subst hea; simp
        · intro y hy
          obtain ⟨p, hp, rfl⟩ := List.mem_map.mp hy
          exact h.2.2 p.1 (List.mem_map_of_mem _ (List.mem_filter.mp hp).1) e.1 (by simp)
      · rw [if_neg hea, ih3]
        simp [hea]

theorem sum_micro2 (P : SparseMatrixF) (a b k : Nat) : ∀ (L2 : List Nat) (M : SparseMatrixF)
    (x y : Nat),
    (L2.foldl (fun M micro2 => M.set a b (M.data a b + P.data k micro2)) M).data x y =
      M.data x y + if x = a ∧ y = b then (L2.map (fun l => P.data k l)).sum else 0 := by
  intro L2
  induction L2 with
  | nil => intro M x y; simp
  | cons l L2 ih =>
    intro M x y
    rw [List.foldl_cons, ih, List.map_cons, List.sum_cons]
    by_cases h : x = a ∧ y = b
    · obtain ⟨rfl, rfl⟩ := h
      simp only [SparseMatrixF.set, and_self, if_true]
      ring
    · simp only [SparseMatrixF.set, if_neg h, add_zero]

theorem sum_micro1 (P : SparseMatrixF) (a b : Nat) (L2 : List Nat) :
    ∀ (L1 : List Nat) (M : SparseMatrixF) (x y : Nat),
    (L1.foldl (fun M micro1 =>
      L2.foldl (fun M micro2 => M.set a b (M.data a b + P.data micro1 micro2)) M) M).data x y =
      M.data x y +
        if x = a ∧ y = b then (L1.map (fun k => (L2.map (fun l => P.data k l)).sum)).sum
        else 0 := by
  intro L1
  induction L1 with
  | nil => intro M x y; simp
  | cons k L1 ih =>
    intro M x y
    rw [List.foldl_cons, ih, sum_micro2, List.map_cons, List.sum_cons]
    by_cases h : x = a ∧ y = b
    · simp only [if_pos h]; ring
    · simp only [if_neg h, add_zero]

theorem sum_macro2 (P : SparseMatrixF) (ms : Nat → List Nat) (a : Nat) :
    ∀ (B : List Nat), B.Nodup → ∀ (M : SparseMatrixF) (x y : Nat),
    (B.foldl (fun M macro2 =>
      (ms a).foldl (fun M micro1 =>
        (ms macro2).foldl (fun M micro2 =>
          M.set a macro2 (M.data a macro2 + P.data micro1 micro2)) M) M) M).data x y =
      M.data x y +
        if x = a ∧ y ∈ B then
          ((ms a).map (fun k => ((ms y).map (fun l => P.data k l)).sum)).sum
        else 0 := by
  intro B
  induction B with
  | nil => intro _ M x y; simp
  | cons b B ih =>
    intro hnd M x y
    rw [List.nodup_cons] at hnd
    rw [List.foldl_cons, ih hnd.2, sum_micro1]
    by_cases hx : x = a
    · subst hx
      by_cases hy : y = b
      · subst hy
        simp [hnd.1]
      · by_cases hyB : y ∈ B
        · simp [hy, hyB]
        · simp [hy, hyB]
    · simp [hx]

theorem sum_macro1 (P : SparseMatrixF) (ms : Nat → List Nat) (B : List Nat) (hB : B.Nodup) :
    ∀ (A : List Nat), A.Nodup → ∀ (M : SparseMatrixF) (x y : Nat),
    (A.foldl (fun M macro1 =>
      B.foldl (fun M macro2 =>
        (ms macro1).foldl (fun M micro1 =>
          (ms macro2).foldl (fun M micro2 =>
            M.set macro1 macro2 (M.data macro1 macro2 + P.data micro1 micro2)) M) M) M) M).data
        x y =
      M.data x y +
        if x ∈ A ∧ y ∈ B then
          ((ms x).map (fun k => ((ms y).map (fun l => P.data k l)).sum)).sum
        else 0 := by
  intro A
  induction A with
  | nil => intro _ M x y; simp
  | cons a A ih =>
    intro hnd M x y
    rw [List.nodup_cons] at hnd
    rw [List.foldl_cons, ih hnd.2, sum_macro2 P ms a B hB]
    by_cases hx : x = a
    · subst hx
      by_cases hy : y ∈ B
      · simp [hnd.1, hy]
      · simp [hy]
    · by_cases hxA : x ∈ A
      · simp [hx, hxA]
      · simp [hx, hxA]

theorem updated_data (P : SparseMatrixF) (sinks : StdMap Nat Nat)
    (hkeys : (sinks.map Prod.fst).Pairwise (· < ·)) (a b : Nat) :
    (updated_transition_probabilities P sinks).data a b = lumped_sum P sinks a b := by
  obtain ⟨h1, h2, h3⟩ := lumped_states_spec sinks hkeys
  have hnd : (lumped_states sinks).1.Nodup := h1.imp (fun h => Nat.ne_of_lt h)
  unfold updated_transition_probabilities
  simp only []
  rw [sum_macro1 P (fun m => (lumped_states sinks).2.get m []) _ hnd _ hnd]
  simp only [SparseMatrixF.zero, zero_add, h3, List.map_map]
  unfold lumped_sum
  by_cases hab : a ∈ (lumped_states sinks).1 ∧ b ∈ (lumped_states sinks).1
  · rw [if_pos hab]
    rfl
  · rw [if_neg hab]
    have hempty : sinks.filter (fun e => decide (e.2 = a)) = [] ∨
        sinks.filter (fun e => decide (e.2 = b)) = [] := by
      by_contra hne
      rw [not_or] at hne
      apply hab
      constructor
      · obtain ⟨e, he⟩ := List.exists_mem_of_ne_nil _ hne.1
        rw [List.mem_filter] at he
        rw [h2]
        exact List.mem_map.mpr ⟨e, he.1, by simpa using he.2⟩
      · obtain ⟨e, he⟩ := List.exists_mem_of_ne_nil _ hne.2
        rw [List.mem_filter] at he
        rw [h2]
        exact List.mem_map.mpr ⟨e, he.1, by simpa using he.2⟩
    rcases hempty with h | h
    · rw [h]; rfl
    · rw [h]; simp


/-- C25: for every transition matrix `P` and every sinks map (keys ascending, as
in a `std::map`), `updated_transition_probabilities` returns `P'` with
`P'[a,b]` the sum of `P[k,l]` over all `k` with `sinks[k] = a` and all `l` with
`sinks[l] = b`, for all `a`, `b`; in particular `P'[a,b] = 0` when `a` or `b` is
not in the range of `sinks`. -/
theorem updated_transition_probabilities_sums (P : SparseMatrixF) (sinks : StdMap Nat Nat)
    (hkeys : (sinks.map Prod.fst).Pairwise (· < ·)) :
    (∀ a b, (updated_transition_probabilities P sinks).data a b = lumped_sum P sinks a b) ∧
    (∀ a b, a ∉ sinks.map Prod.snd ∨ b ∉ sinks.map Prod.snd →
      (updated_transition_probabilities P sinks).data a b = 0) := by
  refine ⟨updated_data P sinks hkeys, ?_⟩
  intro a b hab
  rw [updated_data P sinks hkeys]
  unfold lumped_sum
  have hnil : ∀ c, c ∉ sinks.map Prod.snd → sinks.filter (fun e => decide (e.2 = c)) = [] := by
    intro c hc
    apply List.filter_eq_nil_iff.mpr
    intro e he h
    exact hc (List.mem_map.mpr ⟨e, he, by simpa using h⟩)
  rcases hab with h | h
  · rw [hnil a h]; rfl
  · rw [hnil b h]; simp

theorem updated_transition_probabilities_sums_witness :
    lumped_sum P_S5 [(1, 2), (2, 2)] 2 2 = 2 ∧
    (updated_transition_probabilities P_S5 [(1, 2), (2, 2)]).data 2 2 =
      lumped_sum P_S5 [(1, 2), (2, 2)] 2 2 ∧
    (updated_transition_probabilities P_S5 [(1, 2), (2, 2)]).data 1 2 = 0 :=
  ⟨by decide!,
    (updated_transition_probabilities_sums P_S5 [(1, 2), (2, 2)] (by decide)).1 2 2,
    (updated_transition_probabilities_sums P_S5 [(1, 2), (2, 2)] (by decide)).2 1 2
      (Or.inl (by decide))⟩

end MPP

namespace MPP

/-- C31 (the code departs from the claim): for the trajectory `[4, 3, 2, 1, 2]` with
the frame free energies `[0, 2, 2, 0, 2]`, `q_min = 0.5` and lag `1` the round has
`future = {1 → 2, 2 → 1, 3 → 2, 4 → 3}`, `mpp[3] = [3, 2, 1]` and the sinks
`{1 → 2, 2 → 2, 3 → 1, 4 → 1}`: `sinks[3] = 1` but `sinks[sinks[3]] = sinks[1] = 2`,
the sink `1` of state `3` is itself lumped into state `2`. -/
theorem path_sinks_not_idempotent :
    std_set [4, 3, 2, 1, 2] = [1, 2, 3, 4] ∧
    (transition_counts [4, 3, 2, 1, 2] [] 1 0).toOption.map
        (fun M => (row_normalized_transition_probabilities M [1, 2, 3, 4]).toLists) =
      some P_descent.toLists ∧
    microstate_min_free_energy [4, 3, 2, 1, 2] [0, 2, 2, 0, 2] =
      .ok [(1, 0), (2, 2), (3, 2), (4, 0)] ∧
    single_step_future_state P_descent [1, 2, 3, 4] (1 / 2) [(1, 0), (2, 2), (3, 2), (4, 0)] =
      .ok [(1, 2), (2, 1), (3, 2), (4, 3)] ∧
    most_probable_path [(1, 2), (2, 1), (3, 2), (4, 3)] [1, 2, 3, 4] =
      some [(1, [1, 2]), (2, [2, 1]), (3, [3, 2, 1]), (4, [4, 3, 2, 1])] ∧
    path_sinks [4, 3, 2, 1, 2] [(1, [1, 2]), (2, [2, 1]), (3, [3, 2, 1]), (4, [4, 3, 2, 1])]
        P_descent [1, 2, 3, 4] (1 / 2) [0, 2, 2, 0, 2] =
      .ok [(1, 2), (2, 2), (3, 1), (4, 1)] ∧
    (lumping_round no_weighted [] false (1 / 2) 1 [0, 2, 2, 0, 2] [4, 3, 2, 1, 2]).toOption.map
        Prod.snd = some [(1, 2), (2, 2), (3, 1), (4, 1)] ∧
    StdMap.get [(1, 2), (2, 2), (3, 1), (4, 1)] 3 0 = 1 ∧
    StdMap.get [(1, 2), (2, 2), (3, 1), (4, 1)]
      (StdMap.get [(1, 2), (2, 2), (3, 1), (4, 1)] 3 0) 0 = 2 := by
  decide!

/-- C33 (the code departs from the claim): for `T = [1]`, `i_max = 0` and the lag
`τ = 2 > |T|` the unsigned loop bound `|T| - τ` wraps to `2^64 - 1`, the loop body
runs and its first iteration reads `trajectory[0 + 2]`, a position not below
`|T|`: no all-zero matrix is returned. For `τ = |T| = 1` the bound is `0` and the
all-zero matrix is returned. -/
theorem transition_counts_lag_beyond_trajectory :
    transition_counts [1] [] 2 0 = .error .OutOfBounds ∧
    ([1].length + 2 ^ 64 - 2) % 2 ^ 64 = 18446744073709551615 ∧
    ([1] : List Nat)[0 + 2]? = none ∧
    (transition_counts [1] [] 1 0).toOption.map SparseMatrixF.toLists =
      some [[0, 0], [0, 0]] :=
  ⟨rfl, by decide, by decide, by decide!⟩

theorem future_state_in_names (P : SparseMatrixF) (names : List Nat) (q_min : ℚ)
    (mfe : StdMap Nat ℚ) (future : StdMap Nat Nat)
    (hok : single_step_future_state P names q_min mfe = .ok future) :
    ∀ i ∈ names, ∃ j ∈ names, future.find i = some j := by
  intro i hi
  obtain ⟨j, hj, hfind⟩ := single_step_future_state_find P names q_min mfe future hok i hi
  refine ⟨j, ?_, hfind⟩
  by_cases hstay : P.data i i ≥ q_min
  · rw [future_state_of_stay P names q_min mfe i hstay] at hj
    rw [← Option.some.inj hj]
    exact hi
  · rcases future_state_of_move P names q_min mfe i hstay with h | ⟨j', hj', hmem, _⟩
    · rw [h.1] at hj
      cases hj
    · rw [hj'] at hj
      rw [← Option.some.inj hj]
      exact hmem

theorem path_loop_in_names (future : StdMap Nat Nat) (names : List Nat)
    (htotal : ∀ i ∈ names, ∃ j ∈ names, future.find i = some j) :
    ∀ (fuel : Nat) (path visited : List Nat) (next_state : Nat) (result : List Nat),
      (∀ x ∈ path, x ∈ names) → next_state ∈ names →
      path_loop future fuel path visited next_state = some result →
      ∀ x ∈ result, x ∈ names := by
  intro fuel
  induction fuel with
  | zero =>
    intro path visited next_state result _ _ h
    rw [path_loop] at h
    cases h
  | succ fuel ih =>
    intro path visited next_state result hpath hnext h
    rw [path_loop] at h
    split at h
    · rw [← Option.some.inj h]
      exact hpath
    · obtain ⟨j, hj, hfind⟩ := htotal next_state hnext
      apply ih _ _ _ _ _ _ h
      · intro x hx
        rcases List.mem_append.mp hx with hx | hx
        · exact hpath x hx
        · rw [List.mem_singleton.mp hx]
          exact hnext
      · unfold StdMap.get
        rw [hfind]
        exact hj

theorem most_probable_path_loop_of_some (future : StdMap Nat Nat) :
    ∀ (l : List Nat) (mpp0 mpp : StdMap Nat (List Nat)),
      most_probable_path_loop future l mpp0 = some mpp →
      (∀ i ∈ l, ∃ path,
        path_loop future (future.length + 2) [i] [i] (future.get i 0) = some path) ∧
      mpp = l.foldl
        (fun m i => StdMap.insert i
          ((path_loop future (future.length + 2) [i] [i] (future.get i 0)).getD []) m) mpp0 := by
  intro l
  induction l with
  | nil =>
    intro mpp0 mpp h
    rw [most_probable_path_loop] at h
    exact ⟨fun i hi => (by cases hi), (Option.some.inj h).symm⟩
  | cons a l ih =>
    intro mpp0 mpp h
    rw [most_probable_path_loop] at h
    split at h
    · cases h
    · rename_i path hpath
      obtain ⟨h1, h2⟩ := ih _ _ h
      constructor
      · intro i hi
        rcases List.mem_cons.mp hi with hi | hi
        · rw [hi]; exact ⟨path, hpath⟩
        · exact h1 i hi
      · rw [List.foldl_cons, hpath]
        exact h2

theorem most_probable_path_in_names (future : StdMap Nat Nat) (names : List Nat)
    (mpp : StdMap Nat (List Nat))
    (htotal : ∀ i ∈ names, ∃ j ∈ names, future.find i = some j)
    (h : most_probable_path future names = some mpp) :
    ∀ i ∈ names, ∃ path, mpp.find i = some path ∧ ∀ x ∈ path, x ∈ names := by
  intro i hi
  unfold most_probable_path at h
  obtain ⟨h1, h2⟩ := most_probable_path_loop_of_some future names [] mpp h
  obtain ⟨path, hpath⟩ := h1 i hi
  refine ⟨path, ?_, ?_⟩
  · rw [h2, StdMap.find_foldl_insert
      (fun i => (path_loop future (future.length + 2) [i] [i] (future.get i 0)).getD []),
      if_pos hi, hpath]
    rfl
  · apply path_loop_in_names future names htotal _ _ _ _ _ _ _ hpath
    · intro x hx
      rw [List.mem_singleton.mp hx]
      exact hi
    · obtain ⟨j, hj, hfind⟩ := htotal i hi
      unfold StdMap.get
      rw [hfind]
      exact hj

theorem round_sinks_on_path (P : SparseMatrixF) (names clusters : List Nat) (q_min : ℚ)
    (mfe : StdMap Nat ℚ) (F : List ℚ) (future : StdMap Nat Nat) (mpp : StdMap Nat (List Nat))
    (sinks : StdMap Nat Nat)
    (hfuture : single_step_future_state P names q_min mfe = .ok future)
    (hmpp : most_probable_path future names = some mpp)
    (hsinks : path_sinks clusters mpp P names q_min F = .ok sinks) :
    ∀ i ∈ names, ∃ s path, sinks.find i = some s ∧ mpp.find i = some path ∧ s ∈ path ∧
      ∀ x ∈ path, x ∈ names := by
  intro i hi
  have htotal := future_state_in_names P names q_min mfe future hfuture
  obtain ⟨path, hpath, hnames⟩ := most_probable_path_in_names future names mpp htotal hmpp i hi
  obtain ⟨s, hs, hmeta⟩ := path_sinks_find clusters mpp P names q_min F sinks hsinks i hi
  have hget : mpp.get i [] = path := by
    unfold StdMap.get
    rw [hpath]
    rfl
  rw [hget] at hmeta
  exact ⟨s, path, hs, hpath, (metastable_states_spec P q_min path s hmeta).1, hnames⟩

theorem mem_std_set (x : Nat) (v : List Nat) : x ∈ std_set v ↔ x ∈ v := by
  unfold std_set
  have h : ∀ (l s : List Nat), x ∈ l.foldl (fun s y => set_insert y s) s ↔ x ∈ s ∨ x ∈ l := by
    intro l
    induction l with
    | nil => intro s; simp
    | cons a l ih =>
      intro s
      rw [List.foldl_cons, ih, mem_set_insert, List.mem_cons]
      tauto
  rw [h]
  simp

theorem lumping_round_keeps_states
    (weighted : List Nat → List Nat → Nat → Except Failure SparseMatrixF)
    (concat_limits : List Nat) (diff_size_chunks : Bool) (q_min : ℚ) (lagtime : Nat)
    (free_energy : List ℚ) (traj traj_new : List Nat) (sinks : StdMap Nat Nat)
    (h : lumping_round weighted concat_limits diff_size_chunks q_min lagtime free_energy traj =
      .ok (traj_new, sinks)) :
    traj_new.length = traj.length ∧ ∀ x ∈ traj_new, x ∈ traj := by
  unfold lumping_round at h
  simp only [] at h
  split at h
  · cases h
  · rename_i counts _
    split at h
    · cases h
    · rename_i min_fe _
      split at h
      · cases h
      · rename_i future hfuture
        split at h
        · cases h
        · rename_i mpp hmpp
          split at h
          · cases h
          · rename_i sinks0 hsinks
            injection h with h
            injection h with h1 h2
            subst h2
            rw [← h1]
            constructor
            · unfold lumped_trajectory
              rw [List.length_map]
            · intro x hx
              unfold lumped_trajectory at hx
              obtain ⟨y, hy, rfl⟩ := List.mem_map.mp hx
              have hyn : y ∈ std_set traj := (mem_std_set y traj).mpr hy
              obtain ⟨s, path, hs, _, hsp, hnames⟩ :=
                round_sinks_on_path _ _ _ _ _ _ _ _ _ hfuture hmpp hsinks y hyn
              have hget : StdMap.get sinks0 y 0 = s := by
                unfold StdMap.get
                rw [hs]
                rfl
              rw [hget]
              exact (mem_std_set s traj).mp (hnames s hsp)

theorem clustering_loop_keeps_states
    (weighted : List Nat → List Nat → Nat → Except Failure SparseMatrixF)
    (concat_limits : List Nat) (diff_size_chunks : Bool) (q_min : ℚ) (lagtime : Nat)
    (free_energy : List ℚ) :
    ∀ (n : Nat) (traj : List Nat) (lumping : StdMap Nat Nat) (result : List Nat × StdMap Nat Nat),
      clustering_loop weighted concat_limits diff_size_chunks q_min lagtime free_energy n traj
        lumping = .ok result →
      result.1.length = traj.length ∧ ∀ x ∈ result.1, x ∈ traj := by
  intro n
  induction n with
  | zero =>
    intro traj lumping result h
    rw [clustering_loop] at h
    cases h
  | succ n ih =>
    intro traj lumping result h
    rw [clustering_loop] at h
    split at h
    · cases h
    · rename_i traj_new sinks hround
      have hkeep := lumping_round_keeps_states weighted concat_limits diff_size_chunks q_min
        lagtime free_energy traj traj_new sinks hround
      split at h
      · injection h with h
        rw [← h]
        exact hkeep
      · obtain ⟨h1, h2⟩ := ih _ _ _ h
        exact ⟨h1.trans hkeep.1, fun x hx => hkeep.2 x (h2 x hx)⟩

/-- C32: in a lumping round (`future` from `single_step_future_state`, `mpp` from
`most_probable_path`, `sinks` from `path_sinks`, all for the same names) every
state `i` of the names has a sink that lies on its path `mpp[i]`, and every state
on `mpp[i]` belongs to the names; consequently a trajectory returned by
`fixed_metastability_clustering` has the length of the input trajectory and every
state occurring in it occurs in the input trajectory. -/
theorem fixed_metastability_clustering_keeps_states :
    (∀ (P : SparseMatrixF) (names clusters : List Nat) (q_min : ℚ) (mfe : StdMap Nat ℚ)
      (F : List ℚ) (future : StdMap Nat Nat) (mpp : StdMap Nat (List Nat))
      (sinks : StdMap Nat Nat),
      single_step_future_state P names q_min mfe = .ok future →
      most_probable_path future names = some mpp →
      path_sinks clusters mpp P names q_min F = .ok sinks →
      ∀ i ∈ names, ∃ s path, sinks.find i = some s ∧ mpp.find i = some path ∧ s ∈ path ∧
        ∀ x ∈ path, x ∈ names) ∧
    (∀ (weighted : List Nat → List Nat → Nat → Except Failure SparseMatrixF)
      (initial_trajectory concat_limits : List Nat) (diff_size_chunks : Bool) (q_min : ℚ)
      (lagtime : Nat) (free_energy : List ℚ) (traj : List Nat) (lumping : StdMap Nat Nat),
      fixed_metastability_clustering weighted initial_trajectory concat_limits diff_size_chunks
        q_min lagtime free_energy = .ok (traj, lumping) →
      traj.length = initial_trajectory.length ∧ ∀ x ∈ traj, x ∈ initial_trajectory) := by
  constructor
  · intro P names clusters q_min mfe F future mpp sinks hfuture hmpp hsinks
    exact round_sinks_on_path P names clusters q_min mfe F future mpp sinks hfuture hmpp hsinks
  · intro weighted initial_trajectory concat_limits diff_size_chunks q_min lagtime free_energy
      traj lumping h
    unfold fixed_metastability_clustering at h
    exact clustering_loop_keeps_states weighted concat_limits diff_size_chunks q_min lagtime
      free_energy 100 initial_trajectory [] (traj, lumping) h

theorem fixed_metastability_clustering_keeps_states_witness :
    (∃ s path, StdMap.find [(1, 1), (2, 1)] 2 = some s ∧
      StdMap.find [(1, [1]), (2, [2, 1])] 2 = some path ∧ s ∈ path ∧
      ∀ x ∈ path, x ∈ [1, 2]) ∧
    ([1, 1, 2, 2, 2].length = [4, 3, 2, 1, 2].length ∧
      ∀ x ∈ [1, 1, 2, 2, 2], x ∈ [4, 3, 2, 1, 2]) :=
  ⟨fixed_metastability_clustering_keeps_states.1 P_S5 [1, 2] [1, 2] (17 / 20) [(1, 0), (2, 1)]
      [0, 1] [(1, 1), (2, 1)] [(1, [1]), (2, [2, 1])] [(1, 1), (2, 1)] (by decide!) (by decide!)
      (by decide!) 2 (by decide),
    fixed_metastability_clustering_keeps_states.2 no_weighted [4, 3, 2, 1, 2] [] false (1 / 2) 1
      [0, 2, 2, 0, 2] [1, 1, 2, 2, 2] [(1, 2), (3, 1), (4, 1)] (by decide!)⟩

end MPP

namespace Density

theorem neighbor_rows_eq (n N w : Nat) (hn : n < 2 ^ 32) (hw : w < N) :
    neighbor_rows n N w = (w * (n / N), if w + 1 = N then n else (w + 1) * (n / N)) := by
  have hc : n / N * N ≤ n := Nat.div_mul_le_self n N
  have hc1 : n / N ≤ n := Nat.div_le_self n N
  have hwc : w * (n / N) ≤ n := by
    calc w * (n / N) ≤ N * (n / N) := Nat.mul_le_mul_right _ (Nat.le_of_lt hw)
      _ = n / N * N := Nat.mul_comm _ _
      _ ≤ n := hc
  unfold neighbor_rows
  simp only []
  rw [Nat.mod_eq_of_lt (lt_of_le_of_lt hc1 hn), Nat.mod_eq_of_lt (lt_of_le_of_lt hwc hn),
    Nat.mod_eq_of_lt hn]
  by_cases hl : w + 1 = N
  · rw [if_pos hl, if_pos hl]
  · rw [if_neg hl, if_neg hl]
    have hw1 : (w + 1) * (n / N) ≤ n := by
      calc (w + 1) * (n / N) ≤ N * (n / N) := Nat.mul_le_mul_right _ hw
        _ = n / N * N := Nat.mul_comm _ _
        _ ≤ n := hc
    have e : w * (n / N) + n / N = (w + 1) * (n / N) := by ring
    rw [e, Nat.mod_eq_of_lt (lt_of_le_of_lt hw1 hn)]

theorem neighbor_rows_le (n N w : Nat) (hn : n < 2 ^ 32) (hw : w < N) :
    (neighbor_rows n N w).2 ≤ n := by
  rw [neighbor_rows_eq n N w hn hw]
  simp only []
  split
  · exact le_refl n
  · calc (w + 1) * (n / N) ≤ N * (n / N) := Nat.mul_le_mul_right _ hw
      _ = n / N * N := Nat.mul_comm _ _
      _ ≤ n := Nat.div_mul_le_self n N

theorem neighbor_rows_cover (n N i : Nat) (hn : n < 2 ^ 32) (hN : 1 ≤ N) (hi : i < n) :
    ∃ w, w < N ∧ (neighbor_rows n N w).1 ≤ i ∧ i < (neighbor_rows n N w).2 := by
  by_cases hlast : (N - 1) * (n / N) ≤ i
  · refine ⟨N - 1, by omega, ?_⟩
    rw [neighbor_rows_eq n N (N - 1) hn (by omega)]
    simp only []
    rw [if_pos (by omega)]
    exact ⟨hlast, hi⟩
  · have hlt : i < (N - 1) * (n / N) := Nat.lt_of_not_le hlast
    have hcpos : 0 < n / N := by
      rcases Nat.eq_zero_or_pos (n / N) with h | h
      · rw [h, Nat.mul_zero] at hlt; omega
      · exact h
    have hq : i / (n / N) < N - 1 := (Nat.div_lt_iff_lt_mul hcpos).mpr hlt
    refine ⟨i / (n / N), by omega, ?_⟩
    rw [neighbor_rows_eq n N _ hn (by omega)]
    simp only []
    rw [if_neg (by omega)]
    constructor
    · exact Nat.div_mul_le_self i (n / N)
    · have h := Nat.lt_div_mul_add (a := i) hcpos
      have e : (i / (n / N) + 1) * (n / N) = i / (n / N) * (n / N) + n / N := by ring
      rw [e]
      exact h

theorem neighbor_rows_disjoint (n N i w w' : Nat) (hn : n < 2 ^ 32) (hw : w < N) (hw' : w' < N)
    (h : (neighbor_rows n N w).1 ≤ i ∧ i < (neighbor_rows n N w).2)
    (h' : (neighbor_rows n N w').1 ≤ i ∧ i < (neighbor_rows n N w').2) : w = w' := by
  rw [neighbor_rows_eq n N w hn hw] at h
  rw [neighbor_rows_eq n N w' hn hw'] at h'
  simp only [] at h h'
  have key : ∀ a b : Nat, a < b → b < N → a * (n / N) ≤ i →
      (i < if a + 1 = N then n else (a + 1) * (n / N)) → b * (n / N) ≤ i → False := by
    intro a b hab hb _ h2 h3
    rw [if_neg (by omega)] at h2
    have : (a + 1) * (n / N) ≤ b * (n / N) := Nat.mul_le_mul_right _ hab
    omega
  rcases Nat.lt_trichotomy w w' with hlt | heq | hgt
  · exact (key w w' hlt hw' h.1 h.2 h'.1).elim
  · exact heq
  · exact (key w' w hgt hw h'.1 h'.2 h.1).elim

theorem mem_cond_insert (p : Nat → Prop) [DecidablePred p] (j : Nat) :
    ∀ (l : List Nat) (s : List Nat),
      j ∈ l.foldl (fun nh x => if p x then set_insert x nh else nh) s ↔
        j ∈ s ∨ (j ∈ l ∧ p j) := by
  intro l
  induction l with
  | nil => intro s; simp
  | cons x l ih =>
    intro s
    rw [List.foldl_cons, ih]
    by_cases hp : p x
    · rw [if_pos hp, MPP.mem_set_insert]
      constructor
      · rintro ((h | h) | h)
        · right; exact ⟨by simp [h], h ▸ hp⟩
        · left; exact h
        · right; exact ⟨List.mem_cons_of_mem _ h.1, h.2⟩
      · rintro (h | ⟨h1, h2⟩)
        · left; right; exact h
        · rcases List.mem_cons.mp h1 with h1 | h1
          · left; left; exact h1
          · right; exact ⟨h1, h2⟩
    · rw [if_neg hp]
      constructor
      · rintro (h | h)
        · left; exact h
        · right; exact ⟨List.mem_cons_of_mem _ h.1, h.2⟩
      · rintro (h | ⟨h1, h2⟩)
        · left; exact h
        · rcases List.mem_cons.mp h1 with h1 | h1
          · exact absurd (h1 ▸ h2) hp
          · right; exact ⟨h1, h2⟩

theorem high_density_local_mem {φ : Type} (coords : Nat → ℚ) (n_cols : Nat)
    (sorted_fe : List (Nat × φ)) (i_frame limit : Nat) (max_dist : ℚ) (N w j : Nat) :
    j ∈ high_density_local coords n_cols sorted_fe i_frame limit max_dist N w ↔
      ((neighbor_rows limit N w).1 ≤ j ∧ j < (neighbor_rows limit N w).2) ∧
        i_frame ≠ j ∧
        sq_dist coords n_cols (frame_row sorted_fe i_frame) (frame_row sorted_fe j) < max_dist := by
  unfold high_density_local
  simp only []
  rw [mem_cond_insert (fun j => i_frame ≠ j ∧
    sq_dist coords n_cols (frame_row sorted_fe i_frame) (frame_row sorted_fe j) < max_dist)]
  rw [List.mem_range'_1]
  constructor
  · rintro (h | ⟨h1, h2⟩)
    · cases h
    · exact ⟨⟨h1.1, by omega⟩, h2⟩
  · rintro ⟨h1, h2⟩
    right
    exact ⟨⟨h1.1, by omega⟩, h2⟩

theorem cond_fold_sorted (p : Nat → Prop) [DecidablePred p] : ∀ (l : List Nat) (s : List Nat),
    s.Pairwise (· < ·) →
      (l.foldl (fun nh x => if p x then set_insert x nh else nh) s).Pairwise (· < ·) := by
  intro l
  induction l with
  | nil => intro s h; exact h
  | cons x l ih =>
    intro s h
    rw [List.foldl_cons]
    apply ih
    split
    · exact MPP.set_insert_sorted _ _ h
    · exact h

theorem high_density_neighborhood_rejected {φ : Type} (coords : Nat → ℚ) (n_cols : Nat)
    (sorted_fe : List (Nat × φ)) (i_frame limit : Nat) (max_dist : ℚ) (N node_id : Nat) :
    high_density_neighborhood coords n_cols sorted_fe i_frame limit max_dist (N + 2) node_id =
      none := by
  unfold high_density_neighborhood
  have hr : List.range' 1 (N + 2 - 1) = 1 :: List.range' 2 N := by
    have e : N + 2 - 1 = N + 1 := by omega
    rw [e]
    rfl
  simp only []
  rw [hr, List.foldl_cons]
  have hsend : ∀ buf, mpi_send MPI_ANY_TAG buf = none := fun _ => rfl
  have hfold : ∀ L : List Nat,
      L.foldl (fun (_ : Option (List Nat)) (_ : Nat) => (none : Option (List Nat))) none =
        none := by
    intro L
    induction L with
    | nil => rfl
    | cons a L ih => rw [List.foldl_cons]; exact ih
  simp only [hsend, hfold]

/-- On one node no set is sent: for fewer than `2^32` frames the function returns
the ascending set of the positions `j < limit`, `j ≠ i_frame`, whose row is at
squared distance below `max_dist` from the row of `i_frame`, together with
`i_frame`. -/
theorem high_density_neighborhood_one_node {φ : Type} (coords : Nat → ℚ) (n_cols : Nat)
    (sorted_fe : List (Nat × φ)) (i_frame limit : Nat) (max_dist : ℚ)
    (hlimit : limit ≤ sorted_fe.length) (hlen : sorted_fe.length < 2 ^ 32) :
    ∃ nh, high_density_neighborhood coords n_cols sorted_fe i_frame limit max_dist 1 0 =
        some nh ∧
      nh.Pairwise (· < ·) ∧
      ∀ j, j ∈ nh ↔
        (j < limit ∧ j ≠ i_frame ∧
          sq_dist coords n_cols (frame_row sorted_fe i_frame) (frame_row sorted_fe j) <
            max_dist) ∨
        j = i_frame := by
  have hl32 : limit < 2 ^ 32 := lt_of_le_of_lt hlimit hlen
  have hrows := neighbor_rows_eq limit 1 0 hl32 (by decide)
  simp only [Nat.zero_mul, if_true] at hrows
  refine ⟨set_insert i_frame
    (high_density_local coords n_cols sorted_fe i_frame limit max_dist 1 0), rfl, ?_, ?_⟩
  · apply MPP.set_insert_sorted
    unfold high_density_local
    exact cond_fold_sorted _ _ _ List.Pairwise.nil
  · intro j
    rw [MPP.mem_set_insert, high_density_local_mem, hrows]
    constructor
    · rintro (h | h)
      · right; exact h
      · left; exact ⟨h.1.2, fun e => h.2.1 e.symm, h.2.2⟩
    · rintro (⟨h1, h2, h3⟩ | h)
      · right; exact ⟨⟨Nat.zero_le j, h1⟩, fun e => h2 e.symm, h3⟩
      · left; exact h

/-- For `2^32` frames at the origin and `limit = 2^32` on one node the slab bounds,
stored in `unsigned int`, are `[0, 0)` and the set returned is `{0}`, although
position `1` is at squared distance `0`. -/
theorem high_density_neighborhood_truncates_limit :
    4294967296 ≤ sorted_fe_large.length ∧
    neighbor_rows 4294967296 1 0 = (0, 0) ∧
    high_density_neighborhood (fun _ => 0) 1 sorted_fe_large 0 4294967296 1 1 0 = some [0] ∧
    (1 < 4294967296 ∧ 1 ≠ 0 ∧
      sq_dist (fun _ => 0) 1 (frame_row sorted_fe_large 0) (frame_row sorted_fe_large 1) < 1) := by
  refine ⟨by simp [sorted_fe_large], by decide, by decide!, ⟨by decide, by decide, by decide!⟩⟩

/-- C24 (the code departs from the claim): for the rows `0`, `0.5`, `3.0`, the
sorted list `[(0, 0), (1, 1), (2, 2)]`, `i_frame = 1`, `limit = 3` and the squared
cutoff `1` the set of the claim is `{0, 1}`, and on one node it is returned. On
two nodes node `1` sends its set with the tag `MPI_ANY_TAG`, which is not a valid
send tag: the send is rejected and no set is returned, on either node; the same
holds for every input on two or more nodes. -/
theorem high_density_neighborhood_send_rejected :
    mpi_send MPI_ANY_TAG
      ((high_density_local coords_S1 1 [(0, (0 : ℚ)), (1, 1), (2, 2)] 1 3 1 2 1).map
        (fun x => x % 2 ^ 32)) = none ∧
    high_density_neighborhood coords_S1 1 [(0, (0 : ℚ)), (1, 1), (2, 2)] 1 3 1 2 0 = none ∧
    high_density_neighborhood coords_S1 1 [(0, (0 : ℚ)), (1, 1), (2, 2)] 1 3 1 2 1 = none ∧
    high_density_neighborhood coords_S1 1 [(0, (0 : ℚ)), (1, 1), (2, 2)] 1 3 1 1 0 =
      some [0, 1] ∧
    (List.range 3).filter (fun j => decide (j = 1 ∨ (j ≠ 1 ∧
      sq_dist coords_S1 1 (frame_row [(0, (0 : ℚ)), (1, 1), (2, 2)] 1)
        (frame_row [(0, (0 : ℚ)), (1, 1), (2, 2)] j) < 1))) = [0, 1] ∧
    (∀ (coords : Nat → ℚ) (n_cols : Nat) (sorted_fe : List (Nat × ℚ)) (i_frame limit : Nat)
      (max_dist : ℚ) (N node_id : Nat),
      high_density_neighborhood coords n_cols sorted_fe i_frame limit max_dist (N + 2) node_id =
        none) := by
  refine ⟨by decide!, by decide!, by decide!, by decide!, by decide!, ?_⟩
  intro coords n_cols sorted_fe i_frame limit max_dist N node_id
  exact high_density_neighborhood_rejected coords n_cols sorted_fe i_frame limit max_dist N
    node_id

theorem insert_keys_mem {β : Type} (k x : Nat) (v : β) : ∀ m : StdMap Nat β,
    x ∈ (StdMap.insert k v m).map Prod.fst ↔ x = k ∨ x ∈ m.map Prod.fst := by
  intro m
  induction m with
  | nil => simp [StdMap.insert]
  | cons hd tl ih =>
    obtain ⟨a, b⟩ := hd
    unfold StdMap.insert
    by_cases h1 : k < a
    · simp [h1]
    · by_cases h2 : k = a
      · subst h2; simp
      · simp only [if_neg h1, if_neg h2, List.map_cons, List.mem_cons, ih]
        tauto

theorem insert_keys_sorted {β : Type} (k : Nat) (v : β) : ∀ m : StdMap Nat β,
    (m.map Prod.fst).Pairwise (· < ·) →
      ((StdMap.insert k v m).map Prod.fst).Pairwise (· < ·) := by
  intro m
  induction m with
  | nil => intro _; simp [StdMap.insert]
  | cons hd tl ih =>
    obtain ⟨a, b⟩ := hd
    intro h
    rw [List.map_cons, List.pairwise_cons] at h
    unfold StdMap.insert
    by_cases h1 : k < a
    · rw [if_pos h1]
      simp only [List.map_cons]
      refine List.pairwise_cons.mpr ⟨?_, List.pairwise_cons.mpr h⟩
      intro z hz
      rcases List.mem_cons.mp hz with hz | hz
      · rw [hz]; exact h1
      · exact lt_trans h1 (h.1 z hz)
    · rw [if_neg h1]
      by_cases h2 : k = a
      · rw [if_pos h2]
        simp only [List.map_cons]
        subst h2
        exact List.pairwise_cons.mpr h
      · rw [if_neg h2]
        simp only [List.map_cons]
        refine List.pairwise_cons.mpr ⟨?_, ih h.2⟩
        intro z hz
        rcases (insert_keys_mem k z v tl).mp hz with hz | hz
        · rw [hz]; omega
        · exact h.1 z hz

theorem find_isSome_iff {β : Type} (k : Nat) : ∀ m : StdMap Nat β,
    (m.find k).isSome ↔ k ∈ m.map Prod.fst := by
  intro m
  induction m with
  | nil => simp [StdMap.find]
  | cons hd tl ih =>
    obtain ⟨a, b⟩ := hd
    unfold StdMap.find
    by_cases h : a = k
    · simp [h]
    · have h' : ¬ k = a := fun e => h e.symm
      simp [h, h', ih]

theorem sorted_keys_length (l : List Nat) (n : Nat) (hs : l.Pairwise (· < ·))
    (hlt : ∀ x ∈ l, x < n) : l.length = n ↔ ∀ k < n, k ∈ l := by
  have hnd : l.Nodup := hs.imp (fun h => Nat.ne_of_lt h)
  have hsub : l.toFinset ⊆ Finset.range n := by
    intro x hx
    rw [List.mem_toFinset] at hx
    exact Finset.mem_range.mpr (hlt x hx)
  have hcard : l.toFinset.card = l.length := List.toFinset_card_of_nodup hnd
  constructor
  · intro hlen k hk
    have heq : l.toFinset = Finset.range n :=
      Finset.eq_of_subset_of_card_le hsub (by rw [hcard, hlen, Finset.card_range])
    have : k ∈ l.toFinset := by rw [heq]; exact Finset.mem_range.mpr hk
    exact List.mem_toFinset.mp this
  · intro hall
    have hsup : Finset.range n ⊆ l.toFinset := by
      intro x hx
      exact List.mem_toFinset.mpr (hall x (Finset.mem_range.mp hx))
    have heq : l.toFinset = Finset.range n := Finset.Subset.antisymm hsub hsup
    rw [← hcard, heq, Finset.card_range]

theorem sorted_eq_of_mem_iff (l1 l2 : List Nat) (h1 : l1.Pairwise (· < ·))
    (h2 : l2.Pairwise (· < ·)) (hmem : ∀ x, x ∈ l1 ↔ x ∈ l2) : l1 = l2 := by
  have hn1 : l1.Nodup := h1.imp (fun h => Nat.ne_of_lt h)
  have hn2 : l2.Nodup := h2.imp (fun h => Nat.ne_of_lt h)
  have hperm : l1.Perm l2 := (List.perm_ext_iff_of_nodup hn1 hn2).mpr hmem
  exact List.eq_of_perm_of_sorted hperm h1 h2

theorem map_eq_of_keys_find {β : Type} : ∀ (m1 m2 : StdMap Nat β),
    (m1.map Prod.fst).Nodup → m1.map Prod.fst = m2.map Prod.fst →
    (∀ k, m1.find k = m2.find k) → m1 = m2 := by
  intro m1
  induction m1 with
  | nil =>
    intro m2 _ hk _
    cases m2 with
    | nil => rfl
    | cons hd tl => simp at hk
  | cons hd tl ih =>
    intro m2 hnd hk hf
    cases m2 with
    | nil => simp at hk
    | cons hd2 tl2 =>
      obtain ⟨a, b⟩ := hd
      obtain ⟨a2, b2⟩ := hd2
      simp only [List.map_cons, List.cons.injEq] at hk
      obtain ⟨ha, hk⟩ := hk
      subst ha
      rw [List.map_cons, List.nodup_cons] at hnd
      have hb : b = b2 := by
        have := hf a
        simp only [StdMap.find, if_true] at this
        exact Option.some.inj this
      subst hb
      have htl : tl = tl2 := by
        apply ih tl2 hnd.2 hk
        intro k
        by_cases hka : a = k
        · subst hka
          have e1 : StdMap.find tl a = none := by
            cases hfa : StdMap.find tl a with
            | none => rfl
            | some v =>
              have : (StdMap.find tl a).isSome := by rw [hfa]; rfl
              exact absurd ((find_isSome_iff a tl).mp this) hnd.1
          have e2 : StdMap.find tl2 a = none := by
            cases hfa : StdMap.find tl2 a with
            | none => rfl
            | some v =>
              have : (StdMap.find tl2 a).isSome := by rw [hfa]; rfl
              have := (find_isSome_iff a tl2).mp this
              rw [← hk] at this
              exact absurd this hnd.1
          rw [e1, e2]
        · have := hf k
          simp only [StdMap.find, if_neg hka] at this
          exact this
      rw [htl]

theorem map_ext_of_sorted {β : Type} (m1 m2 : StdMap Nat β)
    (h1 : (m1.map Prod.fst).Pairwise (· < ·)) (h2 : (m2.map Prod.fst).Pairwise (· < ·))
    (hf : ∀ k, m1.find k = m2.find k) : m1 = m2 := by
  apply map_eq_of_keys_find m1 m2 (h1.imp (fun h => Nat.ne_of_lt h)) _ hf
  apply sorted_eq_of_mem_iff _ _ h1 h2
  intro x
  rw [← find_isSome_iff, ← find_isSome_iff, hf]

theorem foldl_insert_sorted {β : Type} (g : Nat → β) : ∀ (l : List Nat) (m : StdMap Nat β),
    (m.map Prod.fst).Pairwise (· < ·) →
      ((l.foldl (fun m i => StdMap.insert i (g i) m) m).map Prod.fst).Pairwise (· < ·) := by
  intro l
  induction l with
  | nil => intro m h; exact h
  | cons a l ih => intro m h; rw [List.foldl_cons]; exact ih _ (insert_keys_sorted _ _ _ h)

theorem gather_done (n : Nat) (g1 g2 : Nat → Neighbor) (nhs : Neighborhood × Neighborhood)
    (h1 : (nhs.1.map Prod.fst).Pairwise (· < ·))
    (h3 : ∀ k v, nhs.1.find k = some v → k < n ∧ v = g1 k)
    (h4 : ∀ k, nhs.2.find k = (nhs.1.find k).map (fun _ => g2 k))
    (hlen : nhs.1.length = n) :
    (∀ k, nhs.1.find k = if k < n then some (g1 k) else none) ∧
    (∀ k, nhs.2.find k = if k < n then some (g2 k) else none) := by
  have hkeys : ∀ x ∈ nhs.1.map Prod.fst, x < n := by
    intro x hx
    have hs := (find_isSome_iff x nhs.1).mpr hx
    obtain ⟨v, hv⟩ := Option.isSome_iff_exists.mp hs
    exact (h3 x v hv).1
  have hall := (sorted_keys_length (nhs.1.map Prod.fst) n h1 hkeys).mp
    (by rw [List.length_map]; exact hlen)
  have hfind : ∀ k, nhs.1.find k = if k < n then some (g1 k) else none := by
    intro k
    by_cases hk : k < n
    · rw [if_pos hk]
      have hs := (find_isSome_iff k nhs.1).mpr (hall k hk)
      obtain ⟨v, hv⟩ := Option.isSome_iff_exists.mp hs
      rw [hv, (h3 k v hv).2]
    · rw [if_neg hk]
      cases hf : nhs.1.find k with
      | none => rfl
      | some v => exact absurd (h3 k v hf).1 hk
  refine ⟨hfind, ?_⟩
  intro k
  rw [h4, hfind]
  by_cases hk : k < n
  · simp [hk]
  · simp [hk]

theorem gather_loop_spec (n : Nat) (g1 g2 : Nat → Neighbor) :
    ∀ (msgs : List (Nat × Neighbor × Neighbor)) (nhs : Neighborhood × Neighborhood),
      (nhs.1.map Prod.fst).Pairwise (· < ·) → (nhs.2.map Prod.fst).Pairwise (· < ·) →
      (∀ k v, nhs.1.find k = some v → k < n ∧ v = g1 k) →
      (∀ k, nhs.2.find k = (nhs.1.find k).map (fun _ => g2 k)) →
      (∀ m ∈ msgs, m.1 < n ∧ m.2.1 = g1 m.1 ∧ m.2.2 = g2 m.1) →
      (∀ k, k < n → (nhs.1.find k).isSome ∨ k ∈ msgs.map (fun m => m.1)) →
      ∃ res, gather_loop n msgs nhs = some res ∧
        (res.1.map Prod.fst).Pairwise (· < ·) ∧ (res.2.map Prod.fst).Pairwise (· < ·) ∧
        (∀ k, res.1.find k = if k < n then some (g1 k) else none) ∧
        (∀ k, res.2.find k = if k < n then some (g2 k) else none) := by
  intro msgs
  induction msgs with
  | nil =>
    intro nhs h1 h2 h3 h4 _ hcov
    have hkeys : ∀ x ∈ nhs.1.map Prod.fst, x < n := by
      intro x hx
      have hs := (find_isSome_iff x nhs.1).mpr hx
      obtain ⟨v, hv⟩ := Option.isSome_iff_exists.mp hs
      exact (h3 x v hv).1
    have hlen : nhs.1.length = n := by
      rw [← List.length_map nhs.1 Prod.fst]
      apply (sorted_keys_length (nhs.1.map Prod.fst) n h1 hkeys).mpr
      intro k hk
      rcases hcov k hk with h | h
      · exact (find_isSome_iff k nhs.1).mp h
      · simp at h
    refine ⟨nhs, ?_, h1, h2, gather_done n g1 g2 nhs h1 h3 h4 hlen⟩
    rw [gather_loop, if_pos hlen]
  | cons m rest ih =>
    intro nhs h1 h2 h3 h4 hmsgs hcov
    by_cases hlen : nhs.1.length = n
    · refine ⟨nhs, ?_, h1, h2, gather_done n g1 g2 nhs h1 h3 h4 hlen⟩
      rw [gather_loop, if_pos hlen]
    · have hm := hmsgs m (by simp)
      rw [gather_loop, if_neg hlen]
      apply ih
      · exact insert_keys_sorted _ _ _ h1
      · exact insert_keys_sorted _ _ _ h2
      · intro k v hv
        simp only [] at hv
        rw [StdMap.find_insert] at hv
        by_cases hk : m.1 = k
        · rw [if_pos hk] at hv
          subst hk
          exact ⟨hm.1, by rw [← Option.some.inj hv, hm.2.1]⟩
        · rw [if_neg hk] at hv
          exact h3 k v hv
      · intro k
        simp only []
        rw [StdMap.find_insert, StdMap.find_insert]
        by_cases hk : m.1 = k
        · rw [if_pos hk, if_pos hk, hm.2.2, hk]
          rfl
        · rw [if_neg hk, if_neg hk]
          exact h4 k
      · intro m' hm'
        exact hmsgs m' (List.mem_cons_of_mem _ hm')
      · intro k hk
        simp only []
        rw [StdMap.find_insert]
        by_cases hmk : m.1 = k
        · left; rw [if_pos hmk]; rfl
        · rw [if_neg hmk]
          rcases hcov k hk with h | h
          · left; exact h
          · right
            rw [List.map_cons, List.mem_cons] at h
            rcases h with h | h
            · exact absurd h.symm hmk
            · exact h

theorem float_index_exact (x : Nat) (h : x ≤ 2 ^ 24) : float_index x = x := by
  unfold float_index
  rw [if_pos h]

theorem nearest_neighbors_local_spec (coords : Nat → ℚ) (n_rows n_cols : Nat) (F : List ℚ)
    (N w : Nat) :
    ((nearest_neighbors_local coords n_rows n_cols F N w).1.map Prod.fst).Pairwise (· < ·) ∧
    ((nearest_neighbors_local coords n_rows n_cols F N w).2.map Prod.fst).Pairwise (· < ·) ∧
    (∀ k, (nearest_neighbors_local coords n_rows n_cols F N w).1.find k =
      if (neighbor_rows n_rows N w).1 ≤ k ∧ k < (neighbor_rows n_rows N w).2 then
        some ((neighbor_scan coords n_rows n_cols F k).min_j,
          (neighbor_scan coords n_rows n_cols F k).mindist)
      else none) ∧
    (∀ k, (nearest_neighbors_local coords n_rows n_cols F N w).2.find k =
      if (neighbor_rows n_rows N w).1 ≤ k ∧ k < (neighbor_rows n_rows N w).2 then
        some ((neighbor_scan coords n_rows n_cols F k).min_j_high_dens,
          (neighbor_scan coords n_rows n_cols F k).mindist_high_dens)
      else none) := by
  have hmem : ∀ k, k ∈ List.range' (neighbor_rows n_rows N w).1
      ((neighbor_rows n_rows N w).2 - (neighbor_rows n_rows N w).1) ↔
      ((neighbor_rows n_rows N w).1 ≤ k ∧ k < (neighbor_rows n_rows N w).2) := by
    intro k
    rw [List.mem_range'_1]
    omega
  unfold nearest_neighbors_local
  simp only []
  rw [foldl_pair_insert (fun i => ((neighbor_scan coords n_rows n_cols F i).min_j,
          (neighbor_scan coords n_rows n_cols F i).mindist))
        (fun i => ((neighbor_scan coords n_rows n_cols F i).min_j_high_dens,
          (neighbor_scan coords n_rows n_cols F i).mindist_high_dens)),
    foldl_pair_insert (fun _ => (n_rows + 1, FLT_MAX)) (fun _ => (n_rows + 1, FLT_MAX))]
  simp only []
  refine ⟨?_, ?_, ?_, ?_⟩
  · exact foldl_insert_sorted _ _ _ (foldl_insert_sorted _ _ _ List.Pairwise.nil)
  · exact foldl_insert_sorted _ _ _ (foldl_insert_sorted _ _ _ List.Pairwise.nil)
  · intro k
    rw [StdMap.find_foldl_insert, StdMap.find_foldl_insert]
    by_cases hk : (neighbor_rows n_rows N w).1 ≤ k ∧ k < (neighbor_rows n_rows N w).2
    · rw [if_pos ((hmem k).mpr hk), if_pos hk]
    · rw [if_neg (fun h => hk ((hmem k).mp h)), if_neg (fun h => hk ((hmem k).mp h)), if_neg hk]
      rfl
  · intro k
    rw [StdMap.find_foldl_insert, StdMap.find_foldl_insert]
    by_cases hk : (neighbor_rows n_rows N w).1 ≤ k ∧ k < (neighbor_rows n_rows N w).2
    · rw [if_pos ((hmem k).mpr hk), if_pos hk]
    · rw [if_neg (fun h => hk ((hmem k).mp h)), if_neg (fun h => hk ((hmem k).mp h)), if_neg hk]
      rfl

theorem neighbor_scan_index_le (coords : Nat → ℚ) (n_rows n_cols : Nat) (F : List ℚ) (i : Nat) :
    (neighbor_scan coords n_rows n_cols F i).min_j ≤ n_rows + 1 ∧
    (neighbor_scan coords n_rows n_cols F i).min_j_high_dens ≤ n_rows + 1 := by
  constructor
  · rcases neighbor_scan_nh_cases coords n_rows n_cols F i with h | h
    · rw [h.2.2]
    · exact Nat.le_succ_of_le (Nat.le_of_lt h.1)
  · rcases neighbor_scan_hd_cases coords n_rows n_cols F i with h | h
    · rw [h.2.2]
    · exact Nat.le_succ_of_le (Nat.le_of_lt h.1)

theorem neighbor_message_exact (coords : Nat → ℚ) (n_rows n_cols : Nat) (F : List ℚ)
    (N w i : Nat) (hrows : n_rows + 1 ≤ 2 ^ 24) (hw : w < N)
    (hi : (neighbor_rows n_rows N w).1 ≤ i ∧ i < (neighbor_rows n_rows N w).2) :
    neighbor_message (nearest_neighbors_local coords n_rows n_cols F N w) i =
      (i, ((neighbor_scan coords n_rows n_cols F i).min_j,
          (neighbor_scan coords n_rows n_cols F i).mindist),
        ((neighbor_scan coords n_rows n_cols F i).min_j_high_dens,
          (neighbor_scan coords n_rows n_cols F i).mindist_high_dens)) := by
  obtain ⟨_, _, h3, h4⟩ := nearest_neighbors_local_spec coords n_rows n_cols F N w
  have hle := neighbor_rows_le n_rows N w (by omega) hw
  have hidx := neighbor_scan_index_le coords n_rows n_cols F i
  unfold neighbor_message StdMap.get
  simp only [h3, h4, if_pos hi, Option.getD_some]
  rw [float_index_exact i (by omega), float_index_exact _ (by omega),
    float_index_exact _ (by omega)]

theorem nearest_neighbors_root_spec (coords : Nat → ℚ) (n_rows n_cols : Nat) (F : List ℚ)
    (N : Nat) (hN : 1 ≤ N) (hrows : n_rows + 1 ≤ 2 ^ 24) :
    ∃ res, gather_loop n_rows
        ((List.range' 1 (N - 1)).flatMap (neighbor_messages coords n_rows n_cols F N))
        (nearest_neighbors_local coords n_rows n_cols F N 0) = some res ∧
      (res.1.map Prod.fst).Pairwise (· < ·) ∧ (res.2.map Prod.fst).Pairwise (· < ·) ∧
      (∀ k, res.1.find k = if k < n_rows then
        some ((neighbor_scan coords n_rows n_cols F k).min_j,
          (neighbor_scan coords n_rows n_cols F k).mindist) else none) ∧
      (∀ k, res.2.find k = if k < n_rows then
        some ((neighbor_scan coords n_rows n_cols F k).min_j_high_dens,
          (neighbor_scan coords n_rows n_cols F k).mindist_high_dens) else none) := by
  have hn32 : n_rows < 2 ^ 32 := by omega
  obtain ⟨h1, h2, h3, h4⟩ := nearest_neighbors_local_spec coords n_rows n_cols F N 0
  have hle0 := neighbor_rows_le n_rows N 0 hn32 (by omega)
  have hmsg : ∀ m ∈ (List.range' 1 (N - 1)).flatMap (neighbor_messages coords n_rows n_cols F N),
      ∃ w i, w < N ∧ ((neighbor_rows n_rows N w).1 ≤ i ∧ i < (neighbor_rows n_rows N w).2) ∧
        m = (i, ((neighbor_scan coords n_rows n_cols F i).min_j,
          (neighbor_scan coords n_rows n_cols F i).mindist),
        ((neighbor_scan coords n_rows n_cols F i).min_j_high_dens,
          (neighbor_scan coords n_rows n_cols F i).mindist_high_dens)) := by
    intro m hm
    obtain ⟨w, hw, hmw⟩ := List.mem_flatMap.mp hm
    rw [List.mem_range'_1] at hw
    unfold neighbor_messages at hmw
    obtain ⟨i, hi, rfl⟩ := List.mem_map.mp hmw
    rw [List.mem_range'_1] at hi
    have hi' : (neighbor_rows n_rows N w).1 ≤ i ∧ i < (neighbor_rows n_rows N w).2 :=
      ⟨hi.1, by omega⟩
    exact ⟨w, i, by omega, hi',
      neighbor_message_exact coords n_rows n_cols F N w i hrows (by omega) hi'⟩
  apply gather_loop_spec n_rows _ _ _ _ h1 h2
  · intro k v hv
    rw [h3] at hv
    split at hv
    · rename_i hk
      exact ⟨by omega, (Option.some.inj hv).symm⟩
    · cases hv
  · intro k
    rw [h3, h4]
    split <;> rfl
  · intro m hm
    obtain ⟨w, i, hw, hi, rfl⟩ := hmsg m hm
    have hle := neighbor_rows_le n_rows N w hn32 hw
    exact ⟨by simp only []; omega, rfl, rfl⟩
  · intro k hk
    obtain ⟨w, hw, hkw⟩ := neighbor_rows_cover n_rows N k hn32 hN hk
    by_cases hw0 : w = 0
    · left
      rw [h3, ← hw0, if_pos hkw]
      rfl
    · right
      apply List.mem_map.mpr
      refine ⟨neighbor_message (nearest_neighbors_local coords n_rows n_cols F N w) k, ?_, ?_⟩
      · apply List.mem_flatMap.mpr
        refine ⟨w, by rw [List.mem_range'_1]; omega, ?_⟩
        unfold neighbor_messages
        exact List.mem_map_of_mem _ (by rw [List.mem_range'_1]; omega)
      · rw [neighbor_message_exact coords n_rows n_cols F N w k hrows hw hkw]

theorem sorted_keys_length_le (l : List Nat) (n : Nat) (hs : l.Pairwise (· < ·))
    (hlt : ∀ x ∈ l, x < n) : l.length ≤ n := by
  have hnd : l.Nodup := hs.imp (fun h => Nat.ne_of_lt h)
  have hsub : l.toFinset ⊆ Finset.range n := by
    intro x hx
    rw [List.mem_toFinset] at hx
    exact Finset.mem_range.mpr (hlt x hx)
  have hcard : l.toFinset.card = l.length := List.toFinset_card_of_nodup hnd
  have := Finset.card_le_card hsub
  rw [hcard, Finset.card_range] at this
  exact this

theorem gather_loop_blocks (n B : Nat) (hB : B < n) :
    ∀ (msgs : List (Nat × Neighbor × Neighbor)) (nhs : Neighborhood × Neighborhood),
      (nhs.1.map Prod.fst).Pairwise (· < ·) → (∀ x ∈ nhs.1.map Prod.fst, x < B) →
      (∀ m ∈ msgs, m.1 < B) → gather_loop n msgs nhs = none := by
  intro msgs
  induction msgs with
  | nil =>
    intro nhs h1 h2 _
    have hlen := sorted_keys_length_le _ B h1 h2
    rw [List.length_map] at hlen
    rw [gather_loop, if_neg (by omega)]
  | cons m rest ih =>
    intro nhs h1 h2 hm
    have hlen := sorted_keys_length_le _ B h1 h2
    rw [List.length_map] at hlen
    rw [gather_loop, if_neg (by omega)]
    apply ih
    · exact insert_keys_sorted _ _ _ h1
    · intro x hx
      rcases (insert_keys_mem m.1 x m.2.1 nhs.1).mp hx with h | h
      · rw [h]; exact hm m (by simp)
      · exact h2 x h
    · intro m' hm'
      exact hm m' (List.mem_cons_of_mem _ hm')


theorem nearest_neighbors_blocks (coords : Nat → ℚ) (n_rows n_cols : Nat) (F : List ℚ)
    (N node_id B : Nat) (hB : B < n_rows) (h0 : (neighbor_rows n_rows N 0).2 ≤ B)
    (hmsg : ∀ w, 1 ≤ w → w < N → ∀ i, (neighbor_rows n_rows N w).1 ≤ i →
      i < (neighbor_rows n_rows N w).2 → float_index i < B) :
    nearest_neighbors coords n_rows n_cols F N node_id = none := by
  obtain ⟨h1, _, h3, _⟩ := nearest_neighbors_local_spec coords n_rows n_cols F N 0
  have hg : gather_loop n_rows
      ((List.range' 1 (N - 1)).flatMap (neighbor_messages coords n_rows n_cols F N))
      (nearest_neighbors_local coords n_rows n_cols F N 0) = none := by
    apply gather_loop_blocks n_rows B hB _ _ h1
    · intro x hx
      have hs := (find_isSome_iff x _).mpr hx
      rw [h3] at hs
      by_cases hk : (neighbor_rows n_rows N 0).1 ≤ x ∧ x < (neighbor_rows n_rows N 0).2
      · omega
      · rw [if_neg hk] at hs
        cases hs
    · intro m hm
      obtain ⟨w, hw, hmw⟩ := List.mem_flatMap.mp hm
      rw [List.mem_range'_1] at hw
      unfold neighbor_messages at hmw
      obtain ⟨i, hi, rfl⟩ := List.mem_map.mp hmw
      rw [List.mem_range'_1] at hi
      exact hmsg w hw.1 (by omega) i hi.1 (by omega)
  unfold nearest_neighbors
  rw [hg]

theorem nearest_neighbors_spec (coords : Nat → ℚ) (n_rows n_cols : Nat) (F : List ℚ)
    (N node_id : Nat) (hN : 1 ≤ N) (hid : node_id < N) (hrows : n_rows + 1 ≤ 2 ^ 24) :
    ∃ res, nearest_neighbors coords n_rows n_cols F N node_id = some res ∧
      (res.1.map Prod.fst).Pairwise (· < ·) ∧ (res.2.map Prod.fst).Pairwise (· < ·) ∧
      (∀ k, res.1.find k = if k < n_rows then
        some ((neighbor_scan coords n_rows n_cols F k).min_j,
          (neighbor_scan coords n_rows n_cols F k).mindist) else none) ∧
      (∀ k, res.2.find k = if k < n_rows then
        some ((neighbor_scan coords n_rows n_cols F k).min_j_high_dens,
          (neighbor_scan coords n_rows n_cols F k).mindist_high_dens) else none) := by
  obtain ⟨root, hroot, r1, r2, r3, r4⟩ :=
    nearest_neighbors_root_spec coords n_rows n_cols F N hN hrows
  unfold nearest_neighbors
  rw [hroot]
  simp only []
  by_cases h0 : node_id = 0
  · rw [if_pos h0]
    exact ⟨root, rfl, r1, r2, r3, r4⟩
  · rw [if_neg h0]
    refine ⟨_, rfl, ?_⟩
    obtain ⟨l1, l2, l3, l4⟩ := nearest_neighbors_local_spec coords n_rows n_cols F N node_id
    have hle := neighbor_rows_le n_rows N node_id (by omega) hid
    rw [foldl_pair_insert
      (fun i => (float_index (root.1.get i (0, 0)).1, (root.1.get i (0, 0)).2))
      (fun i => (float_index (root.2.get i (0, 0)).1, (root.2.get i (0, 0)).2))]
    simp only []
    refine ⟨foldl_insert_sorted _ _ _ l1, foldl_insert_sorted _ _ _ l2, ?_, ?_⟩
    · intro k
      rw [StdMap.find_foldl_insert]
      by_cases hk : k < n_rows
      · have hidx := neighbor_scan_index_le coords n_rows n_cols F k
        rw [if_pos (List.mem_range.mpr hk), if_pos hk]
        unfold StdMap.get
        rw [r3, if_pos hk]
        simp only [Option.getD_some]
        rw [float_index_exact _ (by omega)]
      · rw [if_neg (fun h => hk (List.mem_range.mp h)), if_neg hk, l3, if_neg (by omega)]
    · intro k
      rw [StdMap.find_foldl_insert]
      by_cases hk : k < n_rows
      · have hidx := neighbor_scan_index_le coords n_rows n_cols F k
        rw [if_pos (List.mem_range.mpr hk), if_pos hk]
        unfold StdMap.get
        rw [r4, if_pos hk]
        simp only [Option.getD_some]
        rw [float_index_exact _ (by omega)]
      · rw [if_neg (fun h => hk (List.mem_range.mp h)), if_neg hk, l4, if_neg (by omega)]

theorem nearest_neighbors_single (coords : Nat → ℚ) (n_rows n_cols : Nat) (F : List ℚ)
    (hrows : n_rows + 1 ≤ 2 ^ 24) :
    nearest_neighbors coords n_rows n_cols F 1 0 =
      some (nearest_neighbors_local coords n_rows n_cols F 1 0) := by
  obtain ⟨res, hres, _⟩ :=
    nearest_neighbors_root_spec coords n_rows n_cols F 1 (le_refl 1) hrows
  have hmsgs : (List.range' 1 (1 - 1)).flatMap (neighbor_messages coords n_rows n_cols F 1) =
      [] := rfl
  rw [hmsgs, gather_loop] at hres
  by_cases hlen : (nearest_neighbors_local coords n_rows n_cols F 1 0).1.length = n_rows
  · unfold nearest_neighbors
    rw [hmsgs, gather_loop, if_pos hlen]
    simp only [if_true]
  · rw [if_neg hlen] at hres
    cases hres

/-- C23 (counterexample): for `n_rows = 2^24 + 2` on two nodes the row index
`2^24 + 1` is sent as the `float` `2^24`, so the main process never holds the
key `2^24 + 1`, its map never reaches `n_rows` keys and its receive loop never
ends: no maps are returned. For `n_rows = 2^32` on one node the slab bounds,
stored in `unsigned int`, are `[0, 0)`: no row is scanned and the receive loop
never ends either. -/
theorem nearest_neighbors_large_never_returns :
    float_index 16777217 = 16777216 ∧
    nearest_neighbors (fun _ => 0) 16777218 1 [] 2 0 = none ∧
    neighbor_rows 4294967296 1 0 = (0, 0) ∧
    nearest_neighbors (fun _ => 0) 4294967296 1 [] 1 0 = none :=
  ⟨by decide!,
    nearest_neighbors_blocks (fun _ => 0) 16777218 1 [] 2 0 16777217 (by decide) (by decide)
      (fun w hw1 hw2 i hfrom hto => by
        have hw : w = 1 := by omega
        subst hw
        have hrows : neighbor_rows 16777218 2 1 = (8388609, 16777218) := by decide
        rw [hrows] at hto
        by_cases hle : i ≤ 2 ^ 24
        · rw [float_index_exact i hle]; omega
        · have hi : i = 16777217 := by omega
          rw [hi]
          decide!),
    by decide, by decide!⟩

/-- C23 (amended): for every `n_rows < 2^24 - 1` (row indices and the sentinel
index `n_rows + 1` are then exact in the `float` buffers) and every `N ≥ 1`, the
row slabs of `nearest_neighbors` cover every row of `[0, n_rows)` exactly once;
on every node the function returns the maps a single worker returns, which are
the maps of its scan loop, and both have exactly the keys `0 .. n_rows-1`. -/
theorem nearest_neighbors_merged (coords : Nat → ℚ) (n_rows n_cols : Nat) (F : List ℚ)
    (N node_id : Nat) (hN : 1 ≤ N) (hid : node_id < N) (hrows : n_rows + 1 ≤ 2 ^ 24) :
    (∀ i, i < n_rows →
      ∃! w, w < N ∧ (neighbor_rows n_rows N w).1 ≤ i ∧ i < (neighbor_rows n_rows N w).2) ∧
    nearest_neighbors coords n_rows n_cols F N node_id =
      nearest_neighbors coords n_rows n_cols F 1 0 ∧
    nearest_neighbors coords n_rows n_cols F 1 0 =
      some (nearest_neighbors_local coords n_rows n_cols F 1 0) ∧
    (nearest_neighbors_local coords n_rows n_cols F 1 0).1.map Prod.fst = List.range n_rows ∧
    (nearest_neighbors_local coords n_rows n_cols F 1 0).2.map Prod.fst = List.range n_rows := by
  have hn32 : n_rows < 2 ^ 32 := by omega
  obtain ⟨res, hres, r1, r2, r3, r4⟩ :=
    nearest_neighbors_spec coords n_rows n_cols F N node_id hN hid hrows
  obtain ⟨single, hsingle, s1, s2, s3, s4⟩ :=
    nearest_neighbors_spec coords n_rows n_cols F 1 0 (le_refl 1) (by decide) hrows
  have hloc := nearest_neighbors_single coords n_rows n_cols F hrows
  have hsl : single = nearest_neighbors_local coords n_rows n_cols F 1 0 := by
    rw [hsingle] at hloc
    exact Option.some.inj hloc
  have hkeys : ∀ (m : Neighborhood) (g : Nat → Neighbor), (m.map Prod.fst).Pairwise (· < ·) →
      (∀ k, m.find k = if k < n_rows then some (g k) else none) →
      m.map Prod.fst = List.range n_rows := by
    intro m g hs hf
    apply sorted_eq_of_mem_iff _ _ hs (List.pairwise_lt_range n_rows)
    intro x
    rw [← find_isSome_iff, hf, List.mem_range]
    by_cases hx : x < n_rows
    · simp [hx]
    · simp [hx]
  refine ⟨?_, ?_, hloc, ?_, ?_⟩
  · intro i hi
    obtain ⟨w, hw, hrow⟩ := neighbor_rows_cover n_rows N i hn32 hN hi
    refine ⟨w, ⟨hw, hrow⟩, ?_⟩
    intro w' hw'
    exact neighbor_rows_disjoint n_rows N i w' w hn32 hw'.1 hw hw'.2 hrow
  · rw [hres, hsingle]
    congr 1
    apply Prod.ext
    · exact map_ext_of_sorted _ _ r1 s1 (fun k => by rw [r3, s3])
    · exact map_ext_of_sorted _ _ r2 s2 (fun k => by rw [r4, s4])
  · rw [← hsl]; exact hkeys _ _ s1 s3
  · rw [← hsl]; exact hkeys _ _ s2 s4

theorem nearest_neighbors_merged_witness :
    nearest_neighbors coords_S1 3 1 [1, 0, 2] 2 1 = nearest_neighbors coords_S1 3 1 [1, 0, 2] 1 0 ∧
    nearest_neighbors coords_S1 3 1 [1, 0, 2] 2 1 =
      some ([(0, (1, 1 / 4)), (1, (0, 1 / 4)), (2, (1, 25 / 4))],
        [(0, (1, 1 / 4)), (1, (4, Density.FLT_MAX)), (2, (1, 25 / 4))]) :=
  ⟨(nearest_neighbors_merged coords_S1 3 1 [1, 0, 2] 2 1 (by decide) (by decide)
    (by decide)).2.1, by decide!⟩

end Density

end Clustering
